import Mathlib

/-!
The assertion store of the SMT preprocessor: a shallow embedding of
`src/smt/asserted_formulas.cpp`.

* Expressions and proofs are hash-consed nodes owned by the AST manager; the
  store only compares them by pointer, so they are handles (`Nat`), and a null
  proof pointer is the handle `0`.
* The store is a record of the member variables; every member function is a
  function on that record.  The collaborators whose code lives in other files
  (AST manager, simplifier plugins, macro finder, NNF engine, ...) are the
  fields of `externals`, and every theorem quantifies over them.
* `m.canceled()` reads a flag that another thread may flip at any moment.  The
  k-th poll observes `externals.canceled k`; the store counts its polls.
* The release build is modelled: `SASSERT` lines are not executed, neither
  those of this file, whose conditions are kept as predicates (`init_pre`,
  `push_scope_pre`), nor those of the vector classes.  A vector is a buffer
  with a size, and the release build compares no index with the size:
  `shrink(n)` stores `n` as the size, and `mark_forbidden` is handed the slots
  of its range whether or not they lie below the size.  The store keeps the
  slots below the size; what a slot outside it holds is not determined by
  this file and is read from the collaborators `stale_expr`, `stale_proof`
  and `stale_scope`.  The one read that decides what a call does,
  `m_scopes[new_lvl]` in `pop_scope`, has no result (`none`) for an index
  outside the scope stack; what the call does with the record it reads is
  `pop_scope_from`, defined for every record.
* `while` loops whose exit depends on a collaborator (`propagate_booleans`,
  `apply_quasi_macros`) take fuel and return `none` when it runs out.
* `trace` is a ghost log of the calls the store makes to its collaborators.
-/

namespace AF

/-- Handle of an expression node (`expr *`). -/
abbrev expr := Nat

/-- Handle of a proof node (`proof *`); `0` is the null pointer. -/
abbrev proof := Nat

/-- The type `unsigned`: subtraction wraps modulo 2^32. -/
def usub (a b : Nat) : Nat := (a % 4294967296 + 4294967296 - b % 4294967296) % 4294967296

/-- Values of `lift_ite_kind`. -/
inductive lift_ite_kind where
  | LI_NONE
  | LI_CONSERVATIVE
  | LI_FULL
  deriving DecidableEq, Repr

/-- The fields of `smt_params` that this file reads or writes. -/
structure smt_params where
  m_preprocess : Bool
  m_pre_simplifier : Bool
  m_propagate_booleans : Bool
  m_propagate_values : Bool
  m_macro_finder : Bool
  m_nnf_cnf : Bool
  m_mbqi : Bool
  m_eliminate_and : Bool
  m_pull_cheap_ite_trees : Bool
  m_pull_nested_quantifiers : Bool
  m_ng_lift_ite : lift_ite_kind
  m_lift_ite : lift_ite_kind
  m_eliminate_term_ite : Bool
  m_refine_inj_axiom : Bool
  m_distribute_forall : Bool
  m_quasi_macros : Bool
  m_simplify_bit2int : Bool
  m_eliminate_bounds : Bool
  m_ematching : Bool
  m_max_bv_sharing : Bool
  m_bb_quantifiers : Bool
  m_relevancy_lvl : Nat
  m_relevancy_lemma : Bool
  m_display_features : Bool
  deriving DecidableEq, Repr

/-- One memoized rewrite `key -> val` with its proof. -/
structure cache_entry where
  key : expr
  val : expr
  pr : proof
  deriving DecidableEq, Repr

/-- What one call `m_simplifier(n, new_n, new_pr)` hands back: the rewritten
formula, its proof, the cache after memoization, and whether the bit-vector
plugin's `reduce` ran. -/
structure simp_result where
  e : expr
  pr : proof
  cache : List cache_entry
  bv : Bool

/-- Modelled from the spec: the macro manager (`ast/macros`), absent from the
sources at hand: a scoped set of macros with forbidden heads.  `m_lims` holds,
per open scope, the sizes of the two sets when the scope was pushed. -/
structure macro_manager where
  m_macros : List expr
  m_forbidden : List expr
  m_lims : List (Nat × Nat)
  deriving DecidableEq, Repr

/-- Modelled from the spec: a scoped table (defined names, bit-vector sharing),
absent from the sources at hand: its size and the sizes recorded at each push. -/
structure scoped_table where
  m_size : Nat
  m_lims : List Nat
  deriving DecidableEq, Repr

/-- Result of the NNF engine and of the term-ite eliminator on one formula:
side formulas with proofs, the main formula with its proof, and the size of
the defined-names table afterwards. -/
structure names_result where
  defs : List (expr × proof)
  r : expr
  pr : proof
  names : Nat

/-- The struct `scope`. -/
structure scope where
  m_asserted_formulas_lim : Nat
  m_inconsistent_old : Bool
  deriving DecidableEq, Repr

/-- The collaborators of the store. -/
structure externals where
  /-- Reads `m.proofs_enabled()`. -/
  proofs_enabled : Bool
  /-- Value of `m.canceled()` at the k-th poll. -/
  canceled : Nat → Bool
  /-- Reads `m.mk_false()`; `m.is_false(e)` is `e == m.mk_false()`. -/
  mk_false : expr
  /-- Reads `m.mk_true()`. -/
  mk_true : expr
  /-- Argument of a negation, when `m.is_not(e)`. -/
  is_not : expr → Option expr
  /-- Both sides of an equation, when `m.is_eq(e, lhs, rhs)`. -/
  is_eq : expr → Option (expr × expr)
  is_value : expr → Bool
  mk_eq : expr → expr → expr
  is_quantifier : expr → Bool
  /-- Whether a quantifier occurs in the formula. -/
  contains_quantifier : expr → Bool
  mk_asserted : expr → proof
  mk_modus_ponens : proof → proof → proof
  mk_transitivity : proof → proof → proof
  mk_symmetry : proof → proof
  mk_rewrite : expr → expr → proof
  mk_rewrite_star : expr → expr → proof
  mk_iff_false : proof → proof
  mk_iff_true : proof → proof
  /-- Formulas, each with its proof, that the free function `::push_assertion`
  stores for one formula. -/
  flatten : expr → proof → List (expr × proof)
  /-- Runs `m_pre_simplifier(e, r, pr)`. -/
  pre_simplify : expr → expr × proof
  /-- Runs `m_simplifier(n, new_n, new_pr)` under the given `eliminate_and` flag and cache. -/
  simplify : Bool → List cache_entry → expr → simp_result
  /-- The macro finder on the pending formulas: the new suffix and the macros it records. -/
  macro_finder : macro_manager → List expr → List proof → List (expr × proof) × List expr
  /-- One round of `quasi_macros`: whether it made progress, the new suffix, the macros it records. -/
  quasi_macros : macro_manager → List expr → List proof → Bool × List (expr × proof) × List expr
  /-- The NNF engine `apply_nnf(n, push_todo, push_todo_prs, r1, pr1)`. -/
  nnf : Nat → expr → names_result
  /-- The term-ite eliminator `elim(n, new_exprs, new_prs, new_n, new_pr)`. -/
  elim_term_ite : Nat → expr → names_result
  distribute_forall : expr → expr
  pattern_inference : expr → expr × proof
  pull_cheap_ite_tree_star : expr → expr × proof
  pull_nested_quant : expr → expr × proof
  bit2int : expr → expr × proof
  elim_bounds_star : expr → expr × proof
  bv_elim_star : expr → expr × proof
  /-- The functor `push_app_ite`, given its `conservative` argument. -/
  push_app_ite : Bool → expr → expr × proof
  /-- The functor `ng_push_app_ite`, given its `conservative` argument. -/
  ng_push_app_ite : Bool → expr → expr × proof
  /-- Runs `simplify_inj_axiom(m, q, new_n)`: the new formula when it returns true. -/
  simplify_inj_axiom : expr → Option expr
  /-- Runs `m_bv_sharing(n, new_n, new_pr)` on a table of the given size: result and new size. -/
  bv_sharing : Nat → expr → expr × proof × Nat
  /-- What the slot `i` of the buffer of `m_asserted_formulas` holds when `i` is not below its size. -/
  stale_expr : Nat → expr
  /-- What the slot `i` of the buffer of `m_asserted_formula_prs` holds when `i` is not below its size. -/
  stale_proof : Nat → proof
  /-- What the slot `i` of the buffer of `m_scopes` holds when `i` is not below its size. -/
  stale_scope : Nat → scope

/-- Names of the passes that `reduce` invokes. -/
inductive pass_id where
  | expand_macros
  | propagate_booleans
  | propagate_values
  | find_macros
  | nnf_cnf
  | eliminate_and
  | pull_cheap_ite_trees
  | pull_nested_quantifiers
  | ng_lift_ite
  | lift_ite
  | eliminate_term_ite
  | refine_inj_axiom
  | apply_distribute_forall
  | apply_quasi_macros
  | apply_bit2int
  | cheap_quant_fourier_motzkin
  | infer_patterns
  | max_bv_sharing
  | elim_bvs_from_quantifiers
  | reduce_asserted_formulas
  deriving DecidableEq, Repr

/-- Entries of the ghost log. -/
inductive event where
  /-- The function `reduce` called the pass. -/
  | pass (id : pass_id)
  /-- The main simplifier ran on a formula under the given `eliminate_and` flag. -/
  | simplify (eliminate_and : Bool) (e : expr)
  /-- The pre-simplifier ran on a formula. -/
  | pre_simplify (e : expr)
  /-- The simplifier cache was flushed. -/
  | flush
  /-- The macro manager was told to forbid the heads of these formulas. -/
  | mark_forbidden (es : List expr)
  deriving DecidableEq, Repr

/-- The member variables of `asserted_formulas`, the state of its simplifier
(cache, `eliminate_and` flag of `m_bsimp`, `reduce_invoked` of `m_bvsimp`),
the poll counter and the ghost log. -/
structure store where
  m_asserted_formulas : List expr
  m_asserted_formula_prs : List proof
  m_asserted_qhead : Nat
  m_inconsistent : Bool
  m_scopes : List scope
  m_cache : List cache_entry
  m_eliminate_and : Bool
  m_reduce_invoked : Bool
  m_macro_manager : macro_manager
  m_defined_names : scoped_table
  m_bv_sharing : scoped_table
  polls : Nat
  trace : List event
  deriving DecidableEq, Repr

/-- The store right after the constructor. -/
def store.fresh : store :=
  { m_asserted_formulas := [], m_asserted_formula_prs := [], m_asserted_qhead := 0,
    m_inconsistent := false, m_scopes := [], m_cache := [], m_eliminate_and := false,
    m_reduce_invoked := false, m_macro_manager := ⟨[], [], []⟩,
    m_defined_names := ⟨0, []⟩, m_bv_sharing := ⟨0, []⟩, polls := 0, trace := [] }

/-! ## Collaborators with a scope stack -/

/-- Modelled from the spec: `push_scope` of the macro manager records the current sizes. -/
def macro_manager.push_scope (mm : macro_manager) : macro_manager :=
  { mm with m_lims := mm.m_lims ++ [(mm.m_macros.length, mm.m_forbidden.length)] }

/-- Modelled from the spec: `pop_scope(n)` of the macro manager restores the
sizes recorded by the n-th push from the top. -/
def macro_manager.pop_scope (mm : macro_manager) (n : Nat) : macro_manager :=
  let new_lvl := mm.m_lims.length - n
  let lim := mm.m_lims.getD new_lvl (mm.m_macros.length, mm.m_forbidden.length)
  { m_macros := mm.m_macros.take lim.1, m_forbidden := mm.m_forbidden.take lim.2,
    m_lims := mm.m_lims.take new_lvl }

/-- Modelled from the spec: `reset` of the macro manager. -/
def macro_manager.reset (_mm : macro_manager) : macro_manager := ⟨[], [], []⟩

/-- Modelled from the spec: `has_macros` of the macro manager. -/
def macro_manager.has_macros (mm : macro_manager) : Bool := !mm.m_macros.isEmpty

/-- Modelled from the spec: `mark_forbidden(n, exprs)` forbids the heads of the given formulas. -/
def macro_manager.mark_forbidden (mm : macro_manager) (es : List expr) : macro_manager :=
  { mm with m_forbidden := mm.m_forbidden ++ es }

/-- Modelled from the spec: the macro finder and `quasi_macros` insert the macros they find. -/
def macro_manager.insert (mm : macro_manager) (ms : List expr) : macro_manager :=
  { mm with m_macros := mm.m_macros ++ ms }

/-- Modelled from the spec: push on a scoped table. -/
def scoped_table.push (t : scoped_table) : scoped_table :=
  { t with m_lims := t.m_lims ++ [t.m_size] }

/-- Modelled from the spec: pop of n scopes on a scoped table. -/
def scoped_table.pop (t : scoped_table) (n : Nat) : scoped_table :=
  let new_lvl := t.m_lims.length - n
  { m_size := t.m_lims.getD new_lvl t.m_size, m_lims := t.m_lims.take new_lvl }

/-- Modelled from the spec: reset of a scoped table. -/
def scoped_table.reset (_t : scoped_table) : scoped_table := ⟨0, []⟩

/-! ## Vectors -/

/-- The slot `i` of a vector: its element when `i` is below the size, and
otherwise what the buffer holds there. -/
def slot {α : Type} (stale : Nat → α) (l : List α) (i : Nat) : α := l.getD i (stale i)

/-- The `n` slots of a vector from index `i` on: the range that
`c_ptr() + i` with the count `n` names. -/
def slots {α : Type} (stale : Nat → α) (l : List α) (i n : Nat) : List α :=
  (List.range n).map (fun k => slot stale l (i + k))

/-- Modelled from the spec: `shrink(n)` of the vector classes, absent from the
sources at hand, cuts a vector back to the size `n`.  Its only comparison of
`n` with the size is an assertion, which the release build does not execute:
it stores `n` as the size, so the vector is its first `n` slots afterwards.
For `n` within the size that drops the elements from index `n` on. -/
def shrink {α : Type} (stale : Nat → α) (n : Nat) (l : List α) : List α := slots stale l 0 n

/-! ## Primitive steps of the store -/

/-- Polls `m.canceled()` once. -/
def canceled (x : externals) (s : store) : Bool × store :=
  (x.canceled s.polls, { s with polls := s.polls + 1 })

/-- The accessor `inconsistent()`. -/
def inconsistent (s : store) : Bool := s.m_inconsistent

/-- Modelled from the spec: `flush_cache()`, defined in the header, drops all memoized results. -/
def flush_cache (s : store) : store :=
  { s with m_cache := [], trace := s.trace ++ [event.flush] }

/-- Modelled from the spec: `m_simplifier.cache_result(a, b, p)` injects a rewrite rule. -/
def cache_result (a b : expr) (p : proof) (s : store) : store :=
  { s with m_cache := ⟨a, b, p⟩ :: s.m_cache }

/-- Modelled from the spec: `m_simplifier.is_cached(e)` probes for an entry. -/
def is_cached (e : expr) (s : store) : Bool := s.m_cache.any (fun c => c.key == e)

/-- Outcome of a simplifier call: `new_n`, `new_pr` and the store afterwards. -/
structure simp_out where
  new_n : expr
  new_pr : proof
  s : store

/-- The call `m_simplifier(n, new_n, new_pr)`. -/
def run_simplifier (x : externals) (n : expr) (s : store) : simp_out :=
  let r := x.simplify s.m_eliminate_and s.m_cache n
  { new_n := r.e, new_pr := r.pr,
    s := { s with m_cache := r.cache, m_reduce_invoked := s.m_reduce_invoked || r.bv,
                  trace := s.trace ++ [event.simplify s.m_eliminate_and n] } }

/-- The call `m_pre_simplifier(e, r1, pr1)`. -/
def run_pre_simplifier (x : externals) (e : expr) (s : store) : simp_out :=
  { new_n := (x.pre_simplify e).1, new_pr := (x.pre_simplify e).2,
    s := { s with trace := s.trace ++ [event.pre_simplify e] } }

/-- Modelled from the spec: `has_quantifiers()`, defined in the header: a
quantifier occurs in the pending suffix. -/
def has_quantifiers (x : externals) (s : store) : Bool :=
  (s.m_asserted_formulas.drop s.m_asserted_qhead).any x.contains_quantifier

/-- The function `has_bv`. -/
def has_bv (s : store) : Bool := s.m_reduce_invoked

/-- The function `setup`. -/
def setup (p : smt_params) : smt_params :=
  let p1 : smt_params :=
    match p.m_lift_ite with
    | lift_ite_kind.LI_FULL => { p with m_ng_lift_ite := lift_ite_kind.LI_NONE }
    | lift_ite_kind.LI_CONSERVATIVE =>
      if p.m_ng_lift_ite = lift_ite_kind.LI_CONSERVATIVE then
        { p with m_ng_lift_ite := lift_ite_kind.LI_NONE }
      else p
    | lift_ite_kind.LI_NONE => p
  if p1.m_relevancy_lvl = 0 then { p1 with m_relevancy_lemma := false } else p1

/-- The function `init`: the arrays `formulas` and `prs`, both of length
`num_formulas`, come as one list of pairs. -/
def init (x : externals) (fs : List (expr × proof)) (s : store) : store :=
  let s1 := { s with m_asserted_formulas := s.m_asserted_formulas ++ fs.map Prod.fst }
  if x.proofs_enabled then
    { s1 with m_asserted_formula_prs := s.m_asserted_formula_prs ++ fs.map Prod.snd }
  else s1

/-- The conditions that the `SASSERT` lines of `init` state. -/
def init_pre (s : store) : Bool :=
  s.m_asserted_formulas.isEmpty && s.m_asserted_formula_prs.isEmpty
    && !s.m_inconsistent && s.m_scopes.isEmpty

/-- A pass in progress: the store, the local vectors `new_exprs` and `new_prs`
(the arguments `result` and `result_prs` of `push_assertion`), whether the pass
has executed `return`, and its local flag `changed`. -/
structure acc where
  s : store
  new_exprs : List expr
  new_prs : List proof
  ret : Bool
  changed : Bool

/-- A pass that starts on the store with empty local vectors. -/
def acc.start (s : store) : acc := ⟨s, [], [], false, false⟩

/-- Modelled from the spec: the free function `::push_assertion(m, e, pr,
result, result_prs)` of the simplifier library appends the formulas it stores
for `e` and, exactly when proofs are enabled, one proof for each. -/
def ast_push_assertion (x : externals) (e : expr) (pr : proof)
    (result : List expr) (result_prs : List proof) : List expr × List proof :=
  (result ++ (x.flatten e pr).map Prod.fst,
   if x.proofs_enabled then result_prs ++ (x.flatten e pr).map Prod.snd else result_prs)

/-- The member function `push_assertion(e, pr, result, result_prs)`. -/
def push_assertion (x : externals) (e : expr) (pr : proof) (a : acc) : acc :=
  if a.s.m_inconsistent then a
  else
    { a with
      s := if e = x.mk_false then { a.s with m_inconsistent := true } else a.s
      new_exprs := (ast_push_assertion x e pr a.new_exprs a.new_prs).1
      new_prs := (ast_push_assertion x e pr a.new_exprs a.new_prs).2 }

/-- The function `set_eliminate_and`. -/
def set_eliminate_and (flag : Bool) (s : store) : store :=
  if s.m_eliminate_and = flag then s
  else { flush_cache s with m_eliminate_and := flag }

/-- The call `push_assertion(e, pr, m_asserted_formulas, m_asserted_formula_prs)`. -/
def push_assertion_store (x : externals) (e : expr) (pr : proof) (s : store) : store :=
  let a := push_assertion x e pr ⟨s, s.m_asserted_formulas, s.m_asserted_formula_prs, false, false⟩
  { a.s with m_asserted_formulas := a.new_exprs, m_asserted_formula_prs := a.new_prs }

/-- The function `assert_expr(e, _in_pr)`. -/
def assert_expr (x : externals) (p : smt_params) (e : expr) (in_pr : proof) (s : store) : store :=
  if s.m_inconsistent then s
  else if !p.m_preprocess then push_assertion_store x e in_pr s
  else
    let r1 : simp_out := if p.m_pre_simplifier then run_pre_simplifier x e s else ⟨e, 0, s⟩
    let r2 := run_simplifier x r1.new_n (set_eliminate_and false r1.s)
    let pr2 :=
      if x.proofs_enabled then
        if e = r2.new_n then in_pr
        else x.mk_modus_ponens in_pr (x.mk_transitivity r1.new_pr r2.new_pr)
      else r2.new_pr
    push_assertion_store x r2.new_n pr2 r2.s

/-- The local `r2` of `assert_expr(e, _in_pr)` on its preprocessing path: the
output of the main simplifier on the (pre-simplified) formula. -/
def assert_expr_r2 (x : externals) (p : smt_params) (e : expr) (s : store) : expr :=
  let r1 : simp_out := if p.m_pre_simplifier then run_pre_simplifier x e s else ⟨e, 0, s⟩
  (run_simplifier x r1.new_n (set_eliminate_and false r1.s)).new_n

/-- The function `assert_expr(e)`. -/
def assert_expr1 (x : externals) (p : smt_params) (e : expr) (s : store) : store :=
  if s.m_inconsistent then s
  else assert_expr x p e (x.mk_asserted e) s

/-- The function `get_assertions`: the vector appended to `result`. -/
def get_assertions (s : store) : List expr := s.m_asserted_formulas

/-- The function `commit(new_qhead)`: `mark_forbidden` is handed the
`new_qhead - m_asserted_qhead` slots from index `m_asserted_qhead` on, and
`new_qhead` is stored. -/
def commit_to (x : externals) (new_qhead : Nat) (s : store) : store :=
  let n := usub new_qhead s.m_asserted_qhead
  let es := slots x.stale_expr s.m_asserted_formulas s.m_asserted_qhead n
  { s with
    m_macro_manager := s.m_macro_manager.mark_forbidden es
    m_asserted_qhead := new_qhead
    trace := s.trace ++ [event.mark_forbidden es] }

/-- The function `commit()`. -/
def commit (x : externals) (s : store) : store := commit_to x s.m_asserted_formulas.length s

/-- The conditions that the `SASSERT` lines of `push_scope` state, given the value of the poll. -/
def push_scope_pre (cancel : Bool) (s : store) : Bool :=
  s.m_inconsistent || s.m_asserted_qhead == s.m_asserted_formulas.length || cancel

/-- The function `push_scope`. -/
def push_scope (x : externals) (s : store) : store :=
  commit x { s with
    m_scopes := s.m_scopes ++ [⟨s.m_asserted_formulas.length, s.m_inconsistent⟩]
    m_macro_manager := s.m_macro_manager.push_scope
    m_defined_names := s.m_defined_names.push
    m_bv_sharing := s.m_bv_sharing.push }

/-- What `pop_scope(num_scopes)` does, given the record `sc` that its read of
`m_scopes[new_lvl]` yields.  The size that the record holds is not compared
with the sizes of the two vectors, nor `new_lvl` with the depth. -/
def pop_scope_from (x : externals) (num_scopes : Nat) (sc : scope) (s : store) : store :=
  let new_lvl := usub s.m_scopes.length num_scopes
  let lim := sc.m_asserted_formulas_lim
  flush_cache { s with
    m_bv_sharing := s.m_bv_sharing.pop num_scopes
    m_macro_manager := s.m_macro_manager.pop_scope num_scopes
    m_inconsistent := sc.m_inconsistent_old
    m_defined_names := s.m_defined_names.pop num_scopes
    m_asserted_formulas := shrink x.stale_expr lim s.m_asserted_formulas
    m_asserted_formula_prs :=
      if x.proofs_enabled then shrink x.stale_proof lim s.m_asserted_formula_prs
      else s.m_asserted_formula_prs
    m_asserted_qhead := lim
    m_scopes := shrink x.stale_scope new_lvl s.m_scopes }

/-- The function `pop_scope(num_scopes)`.  The record `m_scopes[new_lvl]`
decides the sizes and the flag; for an index outside the stack no scope was
recorded there and the call has no result. -/
def pop_scope (x : externals) (num_scopes : Nat) (s : store) : Option store :=
  match s.m_scopes.get? (usub s.m_scopes.length num_scopes) with
  | none => none
  | some sc => some (pop_scope_from x num_scopes sc s)

/-- The function `reset`. -/
def reset (s : store) : store :=
  { s with
    m_defined_names := s.m_defined_names.reset
    m_asserted_qhead := 0
    m_asserted_formulas := []
    m_asserted_formula_prs := []
    m_macro_manager := s.m_macro_manager.reset
    m_bv_sharing := s.m_bv_sharing.reset
    m_inconsistent := false }

/-- The function `get_formulas_last_level`. -/
def get_formulas_last_level (s : store) : Nat :=
  match s.m_scopes.getLast? with
  | none => 0
  | some sc => sc.m_asserted_formulas_lim

/-- The loop of `get_inconsistency_proof`, walking both vectors in step;
`none` when it runs off the end (`UNREACHABLE`) or when the proof vector has
no entry at the index found. -/
def get_inconsistency_proof_loop (x : externals) : List expr → List proof → Option proof
  | [], _ => none
  | f :: fs, prs =>
    if f = x.mk_false then prs.head? else get_inconsistency_proof_loop x fs prs.tail

/-- The function `get_inconsistency_proof`; `some 0` is the null proof. -/
def get_inconsistency_proof (x : externals) (s : store) : Option proof :=
  if !s.m_inconsistent then some 0
  else if !x.proofs_enabled then some 0
  else get_inconsistency_proof_loop x s.m_asserted_formulas s.m_asserted_formula_prs

/-! ## The passes

A loop `for (i = lo; i < hi; i++) body` is a left fold of its body over the
indices `lo, ..., hi - 1`.  A body that has executed `return` (field `ret`), or
whose loop condition has become false, skips the remaining indices. -/

/-- The loop `for (i = lo; i < hi; i++)`. -/
def for_range {σ : Type} (lo hi : Nat) (body : Nat → σ → σ) (init : σ) : σ :=
  (List.range' lo (hi - lo)).foldl (fun a i => body i a) init

/-- The loop `i = hi; while (i > lo) { --i; ... }`. -/
def for_range_down {σ : Type} (lo hi : Nat) (body : Nat → σ → σ) (init : σ) : σ :=
  (List.range' lo (hi - lo)).reverse.foldl (fun a i => body i a) init

/-- Reads `m_asserted_formulas.get(i)`. -/
def formula_at (s : store) (i : Nat) : expr := s.m_asserted_formulas.getD i 0

/-- Reads `m_asserted_formula_prs.get(i, 0)`. -/
def proof_at (s : store) (i : Nat) : proof := s.m_asserted_formula_prs.getD i 0

/-- The statements `m_asserted_formulas.set(i, new_n); if (m.proofs_enabled())
m_asserted_formula_prs.set(i, new_pr);` of the passes that rewrite in place. -/
def set_formula (x : externals) (i : Nat) (new_n : expr) (new_pr : proof) (s : store) : store :=
  { s with
    m_asserted_formulas := s.m_asserted_formulas.set i new_n
    m_asserted_formula_prs :=
      if x.proofs_enabled then s.m_asserted_formula_prs.set i new_pr
      else s.m_asserted_formula_prs }

/-- The function `swap_asserted_formulas`.  Its `shrink(m_asserted_qhead)` is
written as `take`: the head is within the size on every store that a sequence
of calls produces from the fresh store, where the two agree. -/
def swap_asserted_formulas (x : externals) (new_exprs : List expr) (new_prs : List proof)
    (s : store) : store :=
  let s1 := { s with
    m_asserted_formulas := s.m_asserted_formulas.take s.m_asserted_qhead ++ new_exprs }
  if x.proofs_enabled then
    { s1 with
      m_asserted_formula_prs := s.m_asserted_formula_prs.take s.m_asserted_qhead ++ new_prs }
  else s1

/-- Body of the loop of `reduce_asserted_formulas`; the loop condition
`!inconsistent()` is tested first. -/
def reduce_asserted_formulas_body (x : externals) (i : Nat) (a : acc) : acc :=
  if a.ret || a.s.m_inconsistent then a
  else
    let n := formula_at a.s i
    let pr := proof_at a.s i
    let r := run_simplifier x n a.s
    let a1 :=
      if n = r.new_n then push_assertion x n pr { a with s := r.s }
      else push_assertion x r.new_n (x.mk_modus_ponens pr r.new_pr) { a with s := r.s }
    { a1 with s := (canceled x a1.s).2, ret := (canceled x a1.s).1 }

/-- The function `reduce_asserted_formulas`. -/
def reduce_asserted_formulas (x : externals) (s : store) : store :=
  if s.m_inconsistent then s
  else
    let a := for_range s.m_asserted_qhead s.m_asserted_formulas.length
      (reduce_asserted_formulas_body x) (acc.start s)
    if a.ret then a.s else swap_asserted_formulas x a.new_exprs a.new_prs a.s

/-- The function `reduce_and_solve`. -/
def reduce_and_solve (x : externals) (s : store) : store :=
  reduce_asserted_formulas x (flush_cache s)

/-- The function `find_macros_core`. -/
def find_macros_core (x : externals) (s : store) : store :=
  let r := x.macro_finder s.m_macro_manager
    (s.m_asserted_formulas.drop s.m_asserted_qhead)
    (s.m_asserted_formula_prs.drop s.m_asserted_qhead)
  let s1 := { s with m_macro_manager := s.m_macro_manager.insert r.2 }
  reduce_and_solve x (swap_asserted_formulas x (r.1.map Prod.fst) (r.1.map Prod.snd) s1)

/-- The function `find_macros`. -/
def find_macros (x : externals) (s : store) : store := find_macros_core x s

/-- The function `expand_macros`. -/
def expand_macros (x : externals) (s : store) : store := find_macros_core x s

/-- The `while` loop of `apply_quasi_macros`. -/
def apply_quasi_macros_loop (x : externals) : Nat → store → Option store
  | 0, _ => none
  | fuel + 1, s =>
    let r := x.quasi_macros s.m_macro_manager
      (s.m_asserted_formulas.drop s.m_asserted_qhead)
      (s.m_asserted_formula_prs.drop s.m_asserted_qhead)
    let s1 := { s with m_macro_manager := s.m_macro_manager.insert r.2.2 }
    if r.1 then
      apply_quasi_macros_loop x fuel
        (swap_asserted_formulas x (r.2.1.map Prod.fst) (r.2.1.map Prod.snd) s1)
    else some s1

/-- The function `apply_quasi_macros`. -/
def apply_quasi_macros (x : externals) (fuel : Nat) (s : store) : Option store :=
  (apply_quasi_macros_loop x fuel s).map (reduce_and_solve x)

/-- Inner loop of `nnf_cnf`, over the vector `push_todo` with its proofs. -/
def nnf_cnf_inner (x : externals) (push_todo : List (expr × proof)) (a : acc) : acc :=
  push_todo.foldl (fun a np =>
    if a.ret then a
    else
      let r := run_simplifier x np.1 a.s
      if (canceled x r.s).1 then { a with s := (canceled x r.s).2, ret := true }
      else
        let pr := if x.proofs_enabled then x.mk_modus_ponens np.2 r.new_pr else 0
        push_assertion x r.new_n pr { a with s := (canceled x r.s).2 }) a

/-- Body of the outer loop of `nnf_cnf`. -/
def nnf_cnf_body (x : externals) (i : Nat) (a : acc) : acc :=
  if a.ret then a
  else
    let n := formula_at a.s i
    let pr := proof_at a.s i
    let r := x.nnf a.s.m_defined_names.m_size n
    let s1 := { a.s with m_defined_names := { a.s.m_defined_names with m_size := r.names } }
    let push_todo := r.defs ++ [(r.r, x.mk_modus_ponens pr r.pr)]
    if (canceled x s1).1 then { a with s := (canceled x s1).2, ret := true }
    else nnf_cnf_inner x push_todo { a with s := (canceled x s1).2 }

/-- The function `nnf_cnf`. -/
def nnf_cnf (x : externals) (s : store) : store :=
  let a := for_range s.m_asserted_qhead s.m_asserted_formulas.length (nnf_cnf_body x) (acc.start s)
  if a.ret then a.s else swap_asserted_formulas x a.new_exprs a.new_prs a.s

/-- Body of the loop of `MK_SIMPLE_SIMPLIFIER`. -/
def MK_SIMPLE_SIMPLIFIER_body (x : externals) (functor : expr → expr) (i : Nat) (a : acc) : acc :=
  let n := formula_at a.s i
  let pr := proof_at a.s i
  let new_n := functor n
  if n = new_n then push_assertion x n pr a
  else if x.proofs_enabled then
    push_assertion x new_n (x.mk_modus_ponens pr (x.mk_rewrite_star n new_n)) a
  else push_assertion x new_n 0 a

/-- The template `MK_SIMPLE_SIMPLIFIER`. -/
def MK_SIMPLE_SIMPLIFIER (x : externals) (functor : expr → expr) (s : store) : store :=
  let a := for_range s.m_asserted_qhead s.m_asserted_formulas.length
    (MK_SIMPLE_SIMPLIFIER_body x functor) (acc.start s)
  reduce_and_solve x (swap_asserted_formulas x a.new_exprs a.new_prs a.s)

/-- The function `apply_distribute_forall`. -/
def apply_distribute_forall (x : externals) (s : store) : store :=
  MK_SIMPLE_SIMPLIFIER x x.distribute_forall s

/-- Body of the loop of `infer_patterns`. -/
def infer_patterns_body (x : externals) (i : Nat) (a : acc) : acc :=
  let n := formula_at a.s i
  let pr := proof_at a.s i
  let r := x.pattern_inference n
  if n = r.1 then push_assertion x n pr a
  else if x.proofs_enabled then push_assertion x r.1 (x.mk_modus_ponens pr r.2) a
  else push_assertion x r.1 0 a

/-- The function `infer_patterns`. -/
def infer_patterns (x : externals) (s : store) : store :=
  let a := for_range s.m_asserted_qhead s.m_asserted_formulas.length
    (infer_patterns_body x) (acc.start s)
  swap_asserted_formulas x a.new_exprs a.new_prs a.s

/-- Body of the loop of `eliminate_term_ite`: `elim` appends its side formulas
to `new_exprs` and `new_prs` itself. -/
def eliminate_term_ite_body (x : externals) (i : Nat) (a : acc) : acc :=
  let n := formula_at a.s i
  let pr := proof_at a.s i
  let r := x.elim_term_ite a.s.m_defined_names.m_size n
  let a1 : acc := { a with
    s := { a.s with m_defined_names := { a.s.m_defined_names with m_size := r.names } }
    new_exprs := a.new_exprs ++ r.defs.map Prod.fst
    new_prs := if x.proofs_enabled then a.new_prs ++ r.defs.map Prod.snd else a.new_prs }
  if n = r.r then push_assertion x n pr a1
  else if x.proofs_enabled then push_assertion x r.r (x.mk_modus_ponens pr r.pr) a1
  else push_assertion x r.r 0 a1

/-- The function `eliminate_term_ite`. -/
def eliminate_term_ite (x : externals) (s : store) : store :=
  let a := for_range s.m_asserted_qhead s.m_asserted_formulas.length
    (eliminate_term_ite_body x) (acc.start s)
  reduce_and_solve x (swap_asserted_formulas x a.new_exprs a.new_prs a.s)

/-- Accumulator of the first loop of `propagate_values`: the sets C
(`new_exprs1`) and R (`new_exprs2`) and the flag `found`. -/
structure pv_acc where
  s : store
  new_exprs1 : List expr
  new_prs1 : List proof
  new_exprs2 : List expr
  new_prs2 : List proof
  found : Bool

/-- The tail of the first loop body of `propagate_values`: the formula goes to R. -/
def propagate_values_rest (x : externals) (i : Nat) (n : expr) (pr : proof) (a : pv_acc) : pv_acc :=
  if i ≥ a.s.m_asserted_qhead then
    { a with
      new_exprs2 := a.new_exprs2 ++ [n]
      new_prs2 := if x.proofs_enabled then a.new_prs2 ++ [pr] else a.new_prs2 }
  else a

/-- The accepting branch of the first loop body of `propagate_values`: the
equation `lhs = rhs` goes to C when pending, and `lhs -> rhs` is cached. -/
def propagate_values_accept (x : externals) (i : Nat) (lhs rhs n : expr) (pr : proof)
    (a : pv_acc) : pv_acc :=
  let a1 : pv_acc :=
    if i ≥ a.s.m_asserted_qhead then
      { a with
        new_exprs1 := a.new_exprs1 ++ [n]
        new_prs1 := if x.proofs_enabled then a.new_prs1 ++ [pr] else a.new_prs1 }
    else a
  { a1 with s := cache_result lhs rhs pr a1.s, found := true }

/-- Body of the first loop of `propagate_values`. -/
def propagate_values_scan (x : externals) (i : Nat) (a : pv_acc) : pv_acc :=
  let n0 := formula_at a.s i
  let pr0 := proof_at a.s i
  match x.is_eq n0 with
  | none => propagate_values_rest x i n0 pr0 a
  | some (lhs0, rhs0) =>
    if x.is_value lhs0 || x.is_value rhs0 then
      let sw := x.is_value lhs0
      let lhs := if sw then rhs0 else lhs0
      let rhs := if sw then lhs0 else rhs0
      let n := if sw then x.mk_eq lhs rhs else n0
      let pr := if sw then x.mk_symmetry pr0 else pr0
      if !x.is_value lhs && !is_cached lhs a.s then propagate_values_accept x i lhs rhs n pr a
      else propagate_values_rest x i n pr a
    else propagate_values_rest x i n0 pr0 a

/-- Body of the second loop of `propagate_values`, over R. -/
def propagate_values_simp (x : externals) (new_exprs2 : List expr) (new_prs2 : List proof)
    (i : Nat) (a : acc) : acc :=
  let n := new_exprs2.getD i 0
  let pr := new_prs2.getD i 0
  let r := run_simplifier x n a.s
  if n = r.new_n then push_assertion x n pr { a with s := r.s }
  else push_assertion x r.new_n (x.mk_modus_ponens pr r.new_pr) { a with s := r.s }

/-- The function `propagate_values`. -/
def propagate_values (x : externals) (s : store) : store :=
  let a := for_range 0 s.m_asserted_formulas.length (propagate_values_scan x)
    ⟨flush_cache s, [], [], [], [], false⟩
  if a.found then
    let b := for_range 0 a.new_exprs2.length (propagate_values_simp x a.new_exprs2 a.new_prs2)
      ⟨a.s, a.new_exprs1, a.new_prs1, false, false⟩
    flush_cache (swap_asserted_formulas x b.new_exprs b.new_prs b.s)
  else a.s

/-- Accumulator of `propagate_booleans`: the store and the flags `cont` and `modified`. -/
structure pb_acc where
  s : store
  cont : Bool
  modified : Bool

/-- The block `PROCESS` of `propagate_booleans`. -/
def PROCESS (x : externals) (i : Nat) (a : pb_acc) : pb_acc :=
  let n := formula_at a.s i
  let pr := proof_at a.s i
  let r := run_simplifier x n a.s
  let new_pr := if x.proofs_enabled then x.mk_modus_ponens pr r.new_pr else r.new_pr
  let s2 := set_formula x i r.new_n new_pr r.s
  let s3 :=
    match x.is_not r.new_n with
    | some arg => cache_result arg x.mk_false (x.mk_iff_false new_pr) s2
    | none => cache_result r.new_n x.mk_true (x.mk_iff_true new_pr) s2
  { s := s3, cont := a.cont || (n != r.new_n), modified := a.modified || (n != r.new_n) }

/-- One round of the `while (cont)` loop of `propagate_booleans`. -/
def propagate_booleans_round (x : externals) (a : pb_acc) : pb_acc :=
  let lo := a.s.m_asserted_qhead
  let sz := a.s.m_asserted_formulas.length
  let a1 := for_range lo sz (PROCESS x) { a with cont := false }
  let a2 := { a1 with s := flush_cache a1.s }
  let a3 := for_range_down a2.s.m_asserted_qhead sz (PROCESS x) a2
  { a3 with s := flush_cache a3.s }

/-- The `while (cont)` loop of `propagate_booleans`. -/
def propagate_booleans_loop (x : externals) : Nat → pb_acc → Option pb_acc
  | 0, _ => none
  | fuel + 1, a =>
    let a1 := propagate_booleans_round x a
    if a1.cont then propagate_booleans_loop x fuel a1 else some a1

/-- The function `propagate_booleans`. -/
def propagate_booleans (x : externals) (fuel : Nat) (s : store) : Option store :=
  (propagate_booleans_loop x fuel ⟨flush_cache s, true, false⟩).map
    (fun a => if a.modified then reduce_asserted_formulas x a.s else a.s)

/-- Body of the loop of `MK_SIMPLIFIER`. -/
def MK_SIMPLIFIER_body (x : externals) (functor : expr → expr × proof) (i : Nat) (a : acc) : acc :=
  let n := formula_at a.s i
  let pr := proof_at a.s i
  let r := functor n
  if n = r.1 then push_assertion x n pr a
  else if x.proofs_enabled then
    let new_pr := if r.2 = 0 then x.mk_rewrite n r.1 else r.2
    push_assertion x r.1 (x.mk_modus_ponens pr new_pr) { a with changed := true }
  else push_assertion x r.1 0 { a with changed := true }

/-- The template `MK_SIMPLIFIER`: the value returned and the store afterwards. -/
def MK_SIMPLIFIER (x : externals) (functor : expr → expr × proof) (REDUCE : Bool)
    (s : store) : Bool × store :=
  let a := for_range s.m_asserted_qhead s.m_asserted_formulas.length
    (MK_SIMPLIFIER_body x functor) (acc.start s)
  let s1 := swap_asserted_formulas x a.new_exprs a.new_prs a.s
  (a.changed, if a.changed && REDUCE then reduce_and_solve x s1 else s1)

/-- The function `pull_cheap_ite_trees`. -/
def pull_cheap_ite_trees (x : externals) (s : store) : Bool × store :=
  MK_SIMPLIFIER x x.pull_cheap_ite_tree_star false s

/-- The function `pull_nested_quantifiers`. -/
def pull_nested_quantifiers (x : externals) (s : store) : Bool × store :=
  MK_SIMPLIFIER x x.pull_nested_quant false s

/-- The function `apply_bit2int`. -/
def apply_bit2int (x : externals) (s : store) : Bool × store :=
  MK_SIMPLIFIER x x.bit2int true s

/-- The function `cheap_quant_fourier_motzkin`. -/
def cheap_quant_fourier_motzkin (x : externals) (s : store) : Bool × store :=
  MK_SIMPLIFIER x x.elim_bounds_star true s

/-- The function `elim_bvs_from_quantifiers`. -/
def elim_bvs_from_quantifiers (x : externals) (s : store) : Bool × store :=
  MK_SIMPLIFIER x x.bv_elim_star true s

/-- Body of the loop of `refine_inj_axiom`. -/
def refine_inj_axiom_body (x : externals) (i : Nat) (s : store) : store :=
  let n := formula_at s i
  let pr := proof_at s i
  if x.is_quantifier n then
    match externals.simplify_inj_axiom x n with
    | some new_n => set_formula x i new_n (x.mk_modus_ponens pr (x.mk_rewrite n new_n)) s
    | none => s
  else s

/-- The function `refine_inj_axiom`. -/
def refine_inj_axiom (x : externals) (s : store) : store :=
  for_range s.m_asserted_qhead s.m_asserted_formulas.length (refine_inj_axiom_body x) s

/-- Body of the loop of `LIFT_ITE`. -/
def LIFT_ITE_body (x : externals) (functor : expr → expr × proof) (i : Nat) (s : store) : store :=
  let n := formula_at s i
  let pr := proof_at s i
  let r := functor n
  set_formula x i r.1 (x.mk_modus_ponens pr r.2) s

/-- The template `LIFT_ITE`. -/
def LIFT_ITE (x : externals) (functor : expr → expr × proof) (s : store) : store :=
  reduce_and_solve x
    (for_range s.m_asserted_qhead s.m_asserted_formulas.length (LIFT_ITE_body x functor) s)

/-- The function `lift_ite`. -/
def lift_ite (x : externals) (p : smt_params) (s : store) : store :=
  LIFT_ITE x (x.push_app_ite (p.m_lift_ite == lift_ite_kind.LI_CONSERVATIVE)) s

/-- The function `ng_lift_ite`. -/
def ng_lift_ite (x : externals) (p : smt_params) (s : store) : store :=
  LIFT_ITE x (x.ng_push_app_ite (p.m_ng_lift_ite == lift_ite_kind.LI_CONSERVATIVE)) s

/-- Body of the loop of `max_bv_sharing`. -/
def max_bv_sharing_body (x : externals) (i : Nat) (s : store) : store :=
  let n := formula_at s i
  let pr := proof_at s i
  let r := x.bv_sharing s.m_bv_sharing.m_size n
  set_formula x i r.1 (x.mk_modus_ponens pr r.2.1)
    { s with m_bv_sharing := { s.m_bv_sharing with m_size := r.2.2 } }

/-- The function `max_bv_sharing`. -/
def max_bv_sharing (x : externals) (s : store) : store :=
  reduce_asserted_formulas x
    (for_range s.m_asserted_qhead s.m_asserted_formulas.length (max_bv_sharing_body x) s)

/-- The function `eliminate_and`. -/
def eliminate_and (x : externals) (s : store) : store :=
  reduce_asserted_formulas x (set_eliminate_and true s)

/-! ## The orchestrator -/

/-- One line `INVOKE(COND, FUNC)` of `reduce`. -/
structure invoke where
  id : pass_id
  cond : store → Bool
  func : store → Option store

/-- The lines `INVOKE(COND, FUNC)` of `reduce`, in order. -/
def invoke_table (x : externals) (p : smt_params) (fuel : Nat) : List invoke :=
  [ ⟨pass_id.propagate_booleans, fun _ => p.m_propagate_booleans, propagate_booleans x fuel⟩,
    ⟨pass_id.propagate_values, fun _ => p.m_propagate_values, fun s => some (propagate_values x s)⟩,
    ⟨pass_id.find_macros, fun s => p.m_macro_finder && has_quantifiers x s,
      fun s => some (find_macros x s)⟩,
    ⟨pass_id.nnf_cnf, fun s => p.m_nnf_cnf || (p.m_mbqi && has_quantifiers x s),
      fun s => some (nnf_cnf x s)⟩,
    ⟨pass_id.eliminate_and, fun _ => p.m_eliminate_and, fun s => some (eliminate_and x s)⟩,
    ⟨pass_id.pull_cheap_ite_trees, fun _ => p.m_pull_cheap_ite_trees,
      fun s => some (pull_cheap_ite_trees x s).2⟩,
    ⟨pass_id.pull_nested_quantifiers, fun s => p.m_pull_nested_quantifiers && has_quantifiers x s,
      fun s => some (pull_nested_quantifiers x s).2⟩,
    ⟨pass_id.ng_lift_ite, fun _ => p.m_ng_lift_ite != lift_ite_kind.LI_NONE,
      fun s => some (ng_lift_ite x p s)⟩,
    ⟨pass_id.lift_ite, fun _ => p.m_lift_ite != lift_ite_kind.LI_NONE,
      fun s => some (lift_ite x p s)⟩,
    ⟨pass_id.eliminate_term_ite,
      fun _ => p.m_eliminate_term_ite && p.m_lift_ite != lift_ite_kind.LI_FULL,
      fun s => some (eliminate_term_ite x s)⟩,
    ⟨ pass_id.refine_inj_axiom, fun s => smt_params.m_refine_inj_axiom p && has_quantifiers x s,
      fun s => some ( refine_inj_axiom x s)⟩,
    ⟨pass_id.apply_distribute_forall, fun s => p.m_distribute_forall && has_quantifiers x s,
      fun s => some (apply_distribute_forall x s)⟩,
    ⟨pass_id.find_macros, fun s => p.m_macro_finder && has_quantifiers x s,
      fun s => some (find_macros x s)⟩,
    ⟨pass_id.apply_quasi_macros, fun s => p.m_quasi_macros && has_quantifiers x s,
      apply_quasi_macros x fuel⟩,
    ⟨pass_id.apply_bit2int, fun _ => p.m_simplify_bit2int, fun s => some (apply_bit2int x s).2⟩,
    ⟨pass_id.cheap_quant_fourier_motzkin, fun s => p.m_eliminate_bounds && has_quantifiers x s,
      fun s => some (cheap_quant_fourier_motzkin x s).2⟩,
    ⟨pass_id.infer_patterns, fun s => p.m_ematching && has_quantifiers x s,
      fun s => some (infer_patterns x s)⟩,
    ⟨pass_id.max_bv_sharing, fun s => p.m_max_bv_sharing && has_bv s,
      fun s => some (max_bv_sharing x s)⟩,
    ⟨pass_id.elim_bvs_from_quantifiers, fun _ => p.m_bb_quantifiers,
      fun s => some (elim_bvs_from_quantifiers x s).2⟩ ]

/-- The store when `reduce` calls a pass: the call is logged. -/
def log_pass (id : pass_id) (s : store) : store :=
  { s with trace := s.trace ++ [event.pass id] }

/-- Runs the lines `INVOKE(COND, FUNC)`: after each line, `if (inconsistent()
|| canceled()) return`.  The flag tells whether `reduce` has returned. -/
def run_invokes (x : externals) : List invoke → store → Option (store × Bool)
  | [], s => some (s, false)
  | c :: cs, s =>
    match (if c.cond s then c.func (log_pass c.id s) else some s) with
    | none => none
    | some s1 =>
      if s1.m_inconsistent then some (s1, true)
      else if (canceled x s1).1 then some ((canceled x s1).2, true)
      else run_invokes x cs (canceled x s1).2

/-- The function `reduce`. -/
def reduce (x : externals) (p : smt_params) (fuel : Nat) (s : store) : Option store :=
  if s.m_inconsistent then some s
  else if (canceled x s).1 then some (canceled x s).2
  else
    let s0 := (canceled x s).2
    if s0.m_asserted_qhead = s0.m_asserted_formulas.length then some s0
    else if !p.m_preprocess then some s0
    else
      let s1 :=
        if s0.m_macro_manager.has_macros then expand_macros x (log_pass pass_id.expand_macros s0)
        else s0
      match run_invokes x (invoke_table x p fuel) (set_eliminate_and false s1) with
      | none => none
      | some (s2, true) => some s2
      | some (s2, false) =>
        some (flush_cache
          (reduce_asserted_formulas x (log_pass pass_id.reduce_asserted_formulas s2)))

/-! ## Sequences of calls -/

/-- A call of a public member function. -/
inductive op where
  | init (fs : List (expr × proof))
  | assert_expr (e : expr) (pr : proof)
  | assert_expr1 (e : expr)
  | reduce (fuel : Nat)
  | commit
  | push_scope
  | pop_scope (num_scopes : Nat)
  | reset
  deriving DecidableEq, Repr

/-- Effect of one call; `none` when the call has no result: `reduce` out of
fuel, `pop_scope` of a scope that is not on the stack. -/
def step (x : externals) (p : smt_params) : op → store → Option store
  | op.init fs, s => some (init x fs s)
  | op.assert_expr e pr, s => some (assert_expr x p e pr s)
  | op.assert_expr1 e, s => some (assert_expr1 x p e s)
  | op.reduce fuel, s => reduce x p fuel s
  | op.commit, s => some (commit x s)
  | op.push_scope, s => some (push_scope x s)
  | op.pop_scope n, s => pop_scope x n s
  | op.reset, s => some (reset s)

/-- Effect of a sequence of calls. -/
def run (x : externals) (p : smt_params) : List op → store → Option store
  | [], s => some s
  | o :: os, s =>
    match step x p o s with
    | none => none
    | some s1 => run x p os s1

/-! ## Predicates of the specification -/

/-- Invariants 1 and 2 of the data model: `qhead ≤ |A|`, and `|P| = |A|` when
proofs are enabled, `|P| = 0` otherwise. -/
def Inv (x : externals) (s : store) : Prop :=
  s.m_asserted_qhead ≤ s.m_asserted_formulas.length ∧
  (if x.proofs_enabled then s.m_asserted_formula_prs.length = s.m_asserted_formulas.length
   else s.m_asserted_formula_prs = [])

instance (x : externals) (s : store) : Decidable (Inv x s) := by
  unfold Inv; infer_instance

/-- The two vectors, the head and the scope stack of both stores agree. -/
def Same (s s' : store) : Prop :=
  s'.m_asserted_formulas = s.m_asserted_formulas ∧
  s'.m_asserted_formula_prs = s.m_asserted_formula_prs ∧
  s'.m_asserted_qhead = s.m_asserted_qhead ∧
  s'.m_scopes = s.m_scopes

/-- The committed prefix, the head and the scope stack of both stores agree. -/
def Frame (s s' : store) : Prop :=
  s'.m_asserted_qhead = s.m_asserted_qhead ∧
  s'.m_scopes = s.m_scopes ∧
  s'.m_asserted_formulas.take s.m_asserted_qhead = s.m_asserted_formulas.take s.m_asserted_qhead ∧
  s'.m_asserted_formula_prs.take s.m_asserted_qhead = s.m_asserted_formula_prs.take s.m_asserted_qhead

/-- The free function `::push_assertion` stores the literal false when given it. -/
def HFlat (x : externals) : Prop :=
  ∀ pr, x.mk_false ∈ (x.flatten x.mk_false pr).map Prod.fst

/-- No entry of the cache rewrites the literal false to another formula. -/
def cache_ok (x : externals) (c : List cache_entry) : Prop :=
  ∀ en ∈ c, en.key = x.mk_false → en.val = x.mk_false

/-- The simplifier keeps the literal false: run on a cache that does not
rewrite the literal false, it returns the literal false for the literal false,
and it memoizes no rewrite of the literal false to another formula. -/
def HSimp (x : externals) : Prop :=
  ∀ flag c, cache_ok x c →
    (x.simplify flag c x.mk_false).e = x.mk_false ∧
    ∀ e, cache_ok x (x.simplify flag c e).cache

/-- Cancellation is never signalled. -/
def NoCancel (x : externals) : Prop := ∀ k, x.canceled k = false

/-- An inconsistent store holds the literal false. -/
def K (x : externals) (s : store) : Prop :=
  s.m_inconsistent = true → x.mk_false ∈ s.m_asserted_formulas

/-- Invariant of a pass that fills local vectors: the store's vectors are
untouched, the local vectors are parallel, and the flag is raised only with
the literal false in `new_exprs`. -/
def AccInv (x : externals) (s0 : store) (a : acc) : Prop :=
  Same s0 a.s ∧
  (x.proofs_enabled = true → a.new_prs.length = a.new_exprs.length) ∧
  (HFlat x → s0.m_inconsistent = false → a.s.m_inconsistent = true → x.mk_false ∈ a.new_exprs)

/-- The vectors, the head, the scope stack and the flag of both stores agree. -/
def Quiet (s s' : store) : Prop := Same s s' ∧ s'.m_inconsistent = s.m_inconsistent

/-- What a pass guarantees on a store that satisfies the invariants: they hold
afterwards, the committed prefix, head and scope stack are untouched, and
(when the free `::push_assertion` stores the literal false and cancellation is
never signalled) a store that was consistent holds the literal false if the
pass raised the flag. -/
def Full (x : externals) (s s' : store) : Prop :=
  Inv x s → Inv x s' ∧ Frame s s' ∧ (HFlat x → NoCancel x → s.m_inconsistent = false → K x s')

/-- Invariant of a loop that may execute `return` only on cancellation. -/
def AccInvR (x : externals) (s0 : store) (a : acc) : Prop :=
  AccInv x s0 a ∧ (NoCancel x → a.ret = false)

/-- Invariant of the first loop of `propagate_values`. -/
def PvInv (x : externals) (s0 : store) (a : pv_acc) : Prop :=
  Quiet s0 a.s ∧
  (x.proofs_enabled = true → a.new_prs1.length = a.new_exprs1.length)

/-- Invariant of a pass that rewrites pending formulas in place. -/
def InPl (x : externals) (s0 s : store) : Prop :=
  Inv x s ∧ Frame s0 s ∧ s.m_inconsistent = s0.m_inconsistent

/-- Invariant of the sweeps of `propagate_booleans`. -/
def PbInv (x : externals) (s0 : store) (a : pb_acc) : Prop :=
  InPl x s0 a.s

/-- Invariant of one sweep of `propagate_booleans` over a store that holds the
literal false: either the sweep has already written the literal false at one of
the indices `done` it has processed, or the cache does not rewrite the literal
false and the store still holds it. -/
def SwInv (x : externals) (done : List Nat) (s : store) : Prop :=
  (∃ j ∈ done, s.m_asserted_formulas[j]? = some x.mk_false) ∨
  (cache_ok x s.m_cache ∧ x.mk_false ∈ s.m_asserted_formulas)

/-- The store grows: the invariants hold afterwards, the head does not move
back, and the formulas and proofs below the old head are untouched. -/
def Grow (x : externals) (s s' : store) : Prop :=
  Inv x s' ∧ s.m_asserted_qhead ≤ s'.m_asserted_qhead ∧
  s'.m_asserted_formulas.take s.m_asserted_qhead = s.m_asserted_formulas.take s.m_asserted_qhead ∧
  s'.m_asserted_formula_prs.take s.m_asserted_qhead
    = s.m_asserted_formula_prs.take s.m_asserted_qhead

/-- Collaborators that rewrite nothing: every transformer returns its input,
proofs are enabled, cancellation is never signalled, the literal false is the
handle 0 and the literal true the handle 1. -/
def externals.plain : externals :=
  { proofs_enabled := true, canceled := fun _ => false, mk_false := 0, mk_true := 1,
    is_not := fun _ => none, is_eq := fun _ => none, is_value := fun _ => false,
    mk_eq := fun a _ => a, is_quantifier := fun _ => false,
    contains_quantifier := fun _ => false,
    mk_asserted := fun e => e + 100, mk_modus_ponens := fun a _ => a,
    mk_transitivity := fun a _ => a, mk_symmetry := fun a => a, mk_rewrite := fun _ _ => 7,
    mk_rewrite_star := fun _ _ => 8, mk_iff_false := fun a => a, mk_iff_true := fun a => a,
    flatten := fun e pr => [(e, pr)],
    pre_simplify := fun e => (e, 0),
    simplify := fun _ c e => ⟨e, 0, c, false⟩,
    macro_finder := fun _ es ps => (es.zip ps, []),
    quasi_macros := fun _ es ps => (false, es.zip ps, []),
    nnf := fun n e => ⟨[], e, 0, n⟩, elim_term_ite := fun n e => ⟨[], e, 0, n⟩,
    distribute_forall := fun e => e, pattern_inference := fun e => (e, 0),
    pull_cheap_ite_tree_star := fun e => (e, 0), pull_nested_quant := fun e => (e, 0),
    bit2int := fun e => (e, 0), elim_bounds_star := fun e => (e, 0),
    bv_elim_star := fun e => (e, 0),
    push_app_ite := fun _ e => (e, 0), ng_push_app_ite := fun _ e => (e, 0),
    simplify_inj_axiom := fun _ => none, bv_sharing := fun n e => (e, 0, n),
    stale_expr := fun i => 900 + i, stale_proof := fun i => 950 + i,
    stale_scope := fun _ => ⟨0, false⟩ }

/-- A configuration with preprocessing and every pass switched on. -/
def smt_params.all_on : smt_params :=
  { m_preprocess := true, m_pre_simplifier := true, m_propagate_booleans := true,
    m_propagate_values := true, m_macro_finder := true, m_nnf_cnf := true, m_mbqi := true,
    m_eliminate_and := true, m_pull_cheap_ite_trees := true,
    m_pull_nested_quantifiers := true, m_ng_lift_ite := lift_ite_kind.LI_CONSERVATIVE,
    m_lift_ite := lift_ite_kind.LI_CONSERVATIVE, m_eliminate_term_ite := true,
    m_refine_inj_axiom := true, m_distribute_forall := true, m_quasi_macros := true,
    m_simplify_bit2int := true, m_eliminate_bounds := true, m_ematching := true,
    m_max_bv_sharing := true, m_bb_quantifiers := true, m_relevancy_lvl := 0,
    m_relevancy_lemma := true, m_display_features := false }

/-- A store with one committed formula, one pending formula and no scope. -/
def store.two : store :=
  { store.fresh with
    m_asserted_formulas := [5, 6], m_asserted_formula_prs := [105, 106], m_asserted_qhead := 1 }

/-- The limits recorded by the scopes ascend from `base` and end below the head `q`. -/
def scopes_ok (base : Nat) : List scope → Nat → Prop
  | [], q => base ≤ q
  | sc :: rest, q => base ≤ sc.m_asserted_formulas_lim ∧ scopes_ok sc.m_asserted_formulas_lim rest q

/-- Scope depth after a call made at depth `d`; `none` for a call that a scoped
run does not make: `init`, `reset`, and a pop of more scopes than were pushed. -/
def op.depth_after (d : Nat) : op → Option Nat
  | op.push_scope => some (d + 1)
  | op.pop_scope n => if n ≤ d then some (d - n) else none
  | op.reset => none
  | op.init _ => none
  | _ => some d

/-- Scope depth after a sequence of calls started at depth `d`. -/
def depth_after : Nat → List op → Option Nat
  | d, [] => some d
  | d, o :: os =>
    match o.depth_after d with
    | none => none
    | some d1 => depth_after d1 os

/-- Every scope pushed on an inconsistent store has the literal false below its limit. -/
def KS (x : externals) (s : store) : Prop :=
  ∀ sc ∈ s.m_scopes, sc.m_inconsistent_old = true →
    x.mk_false ∈ s.m_asserted_formulas.take sc.m_asserted_formulas_lim

/-- A configuration with preprocessing on and every pass switched off. -/
def smt_params.bare : smt_params :=
  { m_preprocess := true, m_pre_simplifier := false, m_propagate_booleans := false,
    m_propagate_values := false, m_macro_finder := false, m_nnf_cnf := false, m_mbqi := false,
    m_eliminate_and := false, m_pull_cheap_ite_trees := false,
    m_pull_nested_quantifiers := false, m_ng_lift_ite := lift_ite_kind.LI_NONE,
    m_lift_ite := lift_ite_kind.LI_NONE, m_eliminate_term_ite := false,
    m_refine_inj_axiom := false, m_distribute_forall := false, m_quasi_macros := false,
    m_simplify_bit2int := false, m_eliminate_bounds := false, m_ematching := false,
    m_max_bv_sharing := false, m_bb_quantifiers := false, m_relevancy_lvl := 0,
    m_relevancy_lemma := false, m_display_features := false }

/-- Collaborators like `externals.plain`, except that the simplifier rewrites
the formula 5 to the literal false and that the 21st poll of `canceled()`,
the one inside the final `reduce_asserted_formulas` of a `reduce` that runs no
other pass, observes cancellation. -/
def externals.cancel_late : externals :=
  { externals.plain with
    simplify := fun _ c e => ⟨if e = 5 then 0 else e, 0, c, false⟩
    canceled := fun k => k == 20 }

/-- A consistent store whose only formula, 5, is pending. -/
def store.one : store :=
  { store.fresh with m_asserted_formulas := [5], m_asserted_formula_prs := [105] }

/-- The free function `::push_assertion` stores the literal false only when given it. -/
def HFlatOnly (x : externals) : Prop :=
  ∀ e pr, x.mk_false ∈ (x.flatten e pr).map Prod.fst → e = x.mk_false

/-- A store that holds the literal false is inconsistent. -/
def J (x : externals) (s : store) : Prop :=
  x.mk_false ∈ s.m_asserted_formulas → s.m_inconsistent = true

/-- No scope pushed on a consistent store has the literal false below its limit. -/
def JS (x : externals) (s : store) : Prop :=
  ∀ sc ∈ s.m_scopes, sc.m_inconsistent_old = false →
    x.mk_false ∉ s.m_asserted_formulas.take sc.m_asserted_formulas_lim

/-- Invariant of the loop of `reduce_asserted_formulas`: while the flag is
down, the literal false is not in `new_exprs`. -/
def AccJ (x : externals) (a : acc) : Prop :=
  a.s.m_inconsistent = false → x.mk_false ∉ a.new_exprs

/-- The free function `::push_assertion` stores the literal false as it is:
one formula, with the proof it was given. -/
def HFlatFalse (x : externals) : Prop :=
  ∀ pr, x.flatten x.mk_false pr = [(x.mk_false, pr)]

/-- An inconsistent store whose second and third formulas are the literal
false of `externals.plain`. -/
def store.refuted : store :=
  { store.fresh with
    m_asserted_formulas := [5, 0, 0], m_asserted_formula_prs := [105, 7, 8],
    m_inconsistent := true }

/-- Whether the main simplifier, called by `assert_expr(e, _in_pr)` on its
preprocessing path, invokes the bit-vector plugin. -/
def assert_expr_bv (x : externals) (p : smt_params) (e : expr) (s : store) : Bool :=
  let r1 : simp_out := if p.m_pre_simplifier then run_pre_simplifier x e s else ⟨e, 0, s⟩
  let s1 := set_eliminate_and false r1.s
  (x.simplify s1.m_eliminate_and s1.m_cache r1.new_n).bv

/-- Collaborators like `externals.plain`, except that the formula 9 stands for
a formula with a bit-vector operation: the simplifier invokes the bit-vector
plugin on it and on no other formula. -/
def externals.with_bv : externals :=
  { externals.plain with simplify := fun _ c e => ⟨e, 0, c, e == 9⟩ }

/-- A call of `assert_expr(e, _in_pr)` or `assert_expr(e)`. -/
def op.is_assert : op → Bool
  | op.assert_expr _ _ => true
  | op.assert_expr1 _ => true
  | _ => false

/-- Collaborators like `externals.plain`, with a macro.  The formula 5 stands
for a quantified definition of a function, 6 for a ground formula that applies
the function, 7 for its expansion.  The macro finder records the macro 42
when the definition is among the pending formulas and no macro is recorded
yet and, once the macro manager holds a macro, rewrites 6 to 7; the simplifier
rewrites 7 to the literal false. -/
def externals.macros : externals :=
  { externals.plain with
    contains_quantifier := fun e => e == 5
    macro_finder := fun mm es ps =>
      ((es.map (fun e => if mm.has_macros && e == 6 then 7 else e)).zip ps,
       if es.contains 5 && !mm.has_macros then [42] else [])
    simplify := fun _ c e => ⟨if e = 7 then 0 else e, 0, c, false⟩ }

/-- A configuration with preprocessing on and only the macro finder, `nnf_cnf`
and `eliminate_and` switched on. -/
def smt_params.macro_nnf : smt_params :=
  { smt_params.bare with m_macro_finder := true, m_nnf_cnf := true, m_eliminate_and := true }

/-- A configuration with preprocessing on and only the macro finder and
`propagate_booleans` switched on. -/
def smt_params.macro_bool : smt_params :=
  { smt_params.bare with m_macro_finder := true, m_propagate_booleans := true }

/-- The store after `push_scope`, `assert_expr(5)`, `push_scope`,
`assert_expr(6)` on the fresh store, with `externals.plain` and
`smt_params.bare`: two scopes are open. -/
def store.nested : store :=
  { m_asserted_formulas := [5, 6], m_asserted_formula_prs := [105, 106],
    m_asserted_qhead := 1, m_inconsistent := false,
    m_scopes := [⟨0, false⟩, ⟨1, false⟩], m_cache := [], m_eliminate_and := false,
    m_reduce_invoked := false, m_macro_manager := ⟨[], [5], [(0, 0), (0, 0)]⟩,
    m_defined_names := ⟨0, [0, 0]⟩, m_bv_sharing := ⟨0, [0, 0]⟩, polls := 0,
    trace := [event.mark_forbidden [], event.simplify false 5, event.mark_forbidden [5],
      event.simplify false 6] }

/-- The loop of `reduce_asserted_formulas` run from the head up to, and
excluding, the index `k`. -/
def reduce_asserted_formulas_upto (x : externals) (s : store) (k : Nat) : acc :=
  for_range s.m_asserted_qhead k (reduce_asserted_formulas_body x) (acc.start s)

/-- A consistent store whose three formulas 6, 7 and 8 are pending. -/
def store.three : store :=
  { store.fresh with
    m_asserted_formulas := [6, 7, 8], m_asserted_formula_prs := [106, 107, 108] }

/-- The pass that a log entry records, if it records one. -/
def event.to_pass : event → Option pass_id
  | event.pass id => some id
  | _ => none

/-- The passes recorded in a log, in order. -/
def passes (t : List event) : List pass_id := t.filterMap event.to_pass

/-- The order of the lines `INVOKE(COND, FUNC)` as the specification lists it. -/
def pass_order : List pass_id :=
  [pass_id.propagate_booleans, pass_id.propagate_values, pass_id.find_macros, pass_id.nnf_cnf,
   pass_id.eliminate_and, pass_id.pull_cheap_ite_trees, pass_id.pull_nested_quantifiers,
   pass_id.ng_lift_ite, pass_id.lift_ite, pass_id.eliminate_term_ite,
   pass_id.refine_inj_axiom, pass_id.apply_distribute_forall, pass_id.find_macros,
   pass_id.apply_quasi_macros, pass_id.apply_bit2int, pass_id.cheap_quant_fourier_motzkin,
   pass_id.infer_patterns, pass_id.max_bv_sharing, pass_id.elim_bvs_from_quantifiers]

/-- The lines of which `reduce` finds the condition true when it reaches
them, in the order of the lines, up to the line after which it returns. -/
def invoked (x : externals) : List invoke → store → List pass_id
  | [], _ => []
  | c :: cs, s =>
    (if c.cond s then [c.id] else []) ++
    match (if c.cond s then c.func (log_pass c.id s) else some s) with
    | none => []
    | some s1 =>
      if s1.m_inconsistent then []
      else if (canceled x s1).1 then []
      else invoked x cs (canceled x s1).2

/-- The store on which `reduce`, once past its four early returns, reaches the
first line `INVOKE(COND, FUNC)`: macros are expanded when there are any, and
the `eliminate_and` flag is forced down. -/
def reduce_entry (x : externals) (s : store) : store :=
  set_eliminate_and false
    (if (canceled x s).2.m_macro_manager.has_macros then
      expand_macros x (log_pass pass_id.expand_macros (canceled x s).2)
    else (canceled x s).2)

/-- The variable and the value of an equality `x = v` or `v = x` between a
term that is not a value and a value. -/
def pv_key (x : externals) (n : expr) : Option (expr × expr) :=
  match x.is_eq n with
  | none => none
  | some (l, r) =>
    if x.is_value l && !x.is_value r then some (r, l)
    else if !x.is_value l && x.is_value r then some (l, r)
    else none

/-- A formula and its proof as value propagation carries them: an equality
with a value on the left is turned around, and its proof with it. -/
def pv_orient (x : externals) (n : expr) (pr : proof) : expr × proof :=
  match x.is_eq n with
  | none => (n, pr)
  | some (l, r) => if x.is_value l then (x.mk_eq r l, x.mk_symmetry pr) else (n, pr)

/-- The variable of the equality at index `i`, if it is an equality between a
variable and a value. -/
def pv_var (x : externals) (A : List expr) (i : Nat) : Option expr :=
  (pv_key x (A.getD i 0)).map Prod.fst

/-- Value propagation accepts the equality at index `i`: it is an equality
between a variable and a value, and no earlier formula is an equality between
the same variable and a value. -/
def pv_accepted (x : externals) (A : List expr) (i : Nat) : Bool :=
  match pv_var x A i with
  | none => false
  | some k => (List.range i).all (fun j => pv_var x A j != some k)

/-- The rewrite rule that value propagation injects for the equality at index `i`. -/
def pv_entry (x : externals) (A : List expr) (P : List proof) (i : Nat) : cache_entry :=
  match pv_key x (A.getD i 0) with
  | none => ⟨0, 0, 0⟩
  | some (k, v) => ⟨k, v, (pv_orient x (A.getD i 0) (P.getD i 0)).2⟩

/-- The rules injected for the accepted equalities below index `i`, committed
or pending, the latest first. -/
def pv_cache (x : externals) (A : List expr) (P : List proof) (i : Nat) : List cache_entry :=
  (((List.range i).filter (pv_accepted x A)).map (pv_entry x A P)).reverse

/-- The accepted pending equalities below index `hi`, each oriented as `x = v`,
in their order. -/
def pv_kept (x : externals) (s : store) (hi : Nat) : List expr :=
  ((List.range' s.m_asserted_qhead (hi - s.m_asserted_qhead)).filter
    (pv_accepted x s.m_asserted_formulas)).map
    (fun i => (pv_orient x (formula_at s i) (proof_at s i)).1)

/-- The pending formulas below index `hi` that are not accepted, in their
order, each with the proof that value propagation keeps for it (none when
proofs are disabled). -/
def pv_rest (x : externals) (s : store) (hi : Nat) : List (expr × proof) :=
  ((List.range' s.m_asserted_qhead (hi - s.m_asserted_qhead)).filter
    (fun i => !pv_accepted x s.m_asserted_formulas i)).map
    (fun i => ((pv_orient x (formula_at s i) (proof_at s i)).1,
      if x.proofs_enabled then (pv_orient x (formula_at s i) (proof_at s i)).2 else 0))

/-- Value propagation accepts some equality of the store. -/
def pv_found (x : externals) (s : store) : Bool :=
  (List.range s.m_asserted_formulas.length).any (pv_accepted x s.m_asserted_formulas)

/-- The store on which value propagation starts to simplify: the cache holds
the injected rules and nothing else. -/
def pv_store (x : externals) (s : store) : store :=
  { flush_cache s with
    m_cache := pv_cache x s.m_asserted_formulas s.m_asserted_formula_prs
      s.m_asserted_formulas.length }

/-- The simplifications of a list of formulas, each with its proof, the
simplifier being called on them in order. -/
def simplified_seq (x : externals) : List (expr × proof) → store → List (expr × proof)
  | [], _ => []
  | np :: rest, t =>
    ((run_simplifier x np.1 t).new_n,
      if np.1 = (run_simplifier x np.1 t).new_n then np.2
      else x.mk_modus_ponens np.2 (run_simplifier x np.1 t).new_pr)
    :: simplified_seq x rest (run_simplifier x np.1 t).s

/-- What the free function `::push_assertion` emits for a list of formulas. -/
def emitted (x : externals) (l : List (expr × proof)) : List expr :=
  (l.flatMap (fun np => x.flatten np.1 np.2)).map Prod.fst

/-- Collaborators like `externals.plain`, with values.  The formula 10 stands
for the equality `x = 3` between the variable 20 and the value 3, the formula
11 for a constraint on `x` and 12 for the same constraint with 3 in place of
`x`: the simplifier rewrites 11 to 12 when its cache holds a rule for 20. -/
def externals.valued : externals :=
  { externals.plain with
    is_eq := fun e => if e = 10 then some (20, 3) else none
    is_value := fun e => e == 3
    simplify := fun _ c e =>
      ⟨if e = 11 ∧ c.any (fun en => en.key == 20) then 12 else e, 0, c, false⟩ }

/-- A consistent store whose two formulas `x = 3` and the constraint on `x`
are pending. -/
def store.valued : store :=
  { store.fresh with m_asserted_formulas := [10, 11], m_asserted_formula_prs := [110, 111] }

/-- The store `store.valued` with the equality `x = 3` committed. -/
def store.valued_committed : store :=
  { store.valued with m_asserted_qhead := 1 }

/-- The member function that the name of a pass stands for. -/
def pass_func (x : externals) (p : smt_params) (fuel : Nat) : pass_id → store → Option store
  | pass_id.expand_macros => fun s => some (expand_macros x s)
  | pass_id.propagate_booleans => propagate_booleans x fuel
  | pass_id.propagate_values => fun s => some (propagate_values x s)
  | pass_id.find_macros => fun s => some (find_macros x s)
  | pass_id.nnf_cnf => fun s => some (nnf_cnf x s)
  | pass_id.eliminate_and => fun s => some (eliminate_and x s)
  | pass_id.pull_cheap_ite_trees => fun s => some (pull_cheap_ite_trees x s).2
  | pass_id.pull_nested_quantifiers => fun s => some (pull_nested_quantifiers x s).2
  | pass_id.ng_lift_ite => fun s => some (ng_lift_ite x p s)
  | pass_id.lift_ite => fun s => some (lift_ite x p s)
  | pass_id.eliminate_term_ite => fun s => some (eliminate_term_ite x s)
  | pass_id.refine_inj_axiom => fun s => some ( refine_inj_axiom x s)
  | pass_id.apply_distribute_forall => fun s => some (apply_distribute_forall x s)
  | pass_id.apply_quasi_macros => apply_quasi_macros x fuel
  | pass_id.apply_bit2int => fun s => some (apply_bit2int x s).2
  | pass_id.cheap_quant_fourier_motzkin => fun s => some (cheap_quant_fourier_motzkin x s).2
  | pass_id.infer_patterns => fun s => some (infer_patterns x s)
  | pass_id.max_bv_sharing => fun s => some (max_bv_sharing x s)
  | pass_id.elim_bvs_from_quantifiers => fun s => some (elim_bvs_from_quantifiers x s).2
  | pass_id.reduce_asserted_formulas => fun s => some (reduce_asserted_formulas x s)

/-- The condition on which `reduce` calls the pass of a name: its configuration
flag and, for the passes on quantifiers or bit-vectors, `has_quantifiers()` or
`has_bv()` on the store at hand. -/
def pass_cond (x : externals) (p : smt_params) : pass_id → store → Bool
  | pass_id.expand_macros => fun s => s.m_macro_manager.has_macros
  | pass_id.propagate_booleans => fun _ => p.m_propagate_booleans
  | pass_id.propagate_values => fun _ => p.m_propagate_values
  | pass_id.find_macros => fun s => p.m_macro_finder && has_quantifiers x s
  | pass_id.nnf_cnf => fun s => p.m_nnf_cnf || (p.m_mbqi && has_quantifiers x s)
  | pass_id.eliminate_and => fun _ => p.m_eliminate_and
  | pass_id.pull_cheap_ite_trees => fun _ => p.m_pull_cheap_ite_trees
  | pass_id.pull_nested_quantifiers => fun s => p.m_pull_nested_quantifiers && has_quantifiers x s
  | pass_id.ng_lift_ite => fun _ => p.m_ng_lift_ite != lift_ite_kind.LI_NONE
  | pass_id.lift_ite => fun _ => p.m_lift_ite != lift_ite_kind.LI_NONE
  | pass_id.eliminate_term_ite =>
    fun _ => p.m_eliminate_term_ite && p.m_lift_ite != lift_ite_kind.LI_FULL
  | pass_id.refine_inj_axiom => fun s => smt_params.m_refine_inj_axiom p && has_quantifiers x s
  | pass_id.apply_distribute_forall => fun s => p.m_distribute_forall && has_quantifiers x s
  | pass_id.apply_quasi_macros => fun s => p.m_quasi_macros && has_quantifiers x s
  | pass_id.apply_bit2int => fun _ => p.m_simplify_bit2int
  | pass_id.cheap_quant_fourier_motzkin => fun s => p.m_eliminate_bounds && has_quantifiers x s
  | pass_id.infer_patterns => fun s => p.m_ematching && has_quantifiers x s
  | pass_id.max_bv_sharing => fun s => p.m_max_bv_sharing && has_bv s
  | pass_id.elim_bvs_from_quantifiers => fun _ => p.m_bb_quantifiers
  | pass_id.reduce_asserted_formulas => fun _ => true

/-- Collaborators like `externals.plain`, with a macro finder that consumes
definitions.  The formula 5 stands for a quantified definition of a function:
the macro finder records the macro 42 for it and removes it from the pending
formulas. -/
def externals.macros_consume : externals :=
  { externals.plain with
    contains_quantifier := fun e => e == 5
    macro_finder := fun _ es ps =>
      ((es.zip ps).filter (fun ep => ep.1 != 5), if es.contains 5 then [42] else []) }

/-- Collaborators like `externals.plain`, except that the free function
`::push_assertion` splits conjunctions: the formula 9 stands for the
conjunction of the formula 8 and the literal false, and is stored as its two
conjuncts. -/
def externals.splitting : externals :=
  { externals.plain with
    flatten := fun e pr => if e = 9 then [(8, pr), (0, pr)] else [(e, pr)] }

/-- Collaborators like `externals.plain`, except that the formula 5 stands for
the negation of the formula 8, which the simplifier rewrites to the literal
false once its cache holds a rule for 8, and that cancellation is signalled
from the second poll on. -/
def externals.cancel_mid : externals :=
  { externals.plain with
    simplify := fun _ c e =>
      ⟨if e = 5 ∧ c.any (fun en => en.key == 8) then 0 else e, 0, c, false⟩
    canceled := fun k => decide (1 ≤ k) }

/-! ## Lemmas -/

theorem Same.refl_s (s : store) : Same s s := ⟨rfl, rfl, rfl, rfl⟩

theorem Same.trans_s {a b c : store} (h1 : Same a b) (h2 : Same b c) : Same a c := by
  obtain ⟨h11, h12, h13, h14⟩ := h1
  obtain ⟨h21, h22, h23, h24⟩ := h2
  exact ⟨h21.trans h11, h22.trans h12, h23.trans h13, h24.trans h14⟩

theorem Frame.refl_f (s : store) : Frame s s := ⟨rfl, rfl, rfl, rfl⟩

theorem Frame.trans_f {a b c : store} (h1 : Frame a b) (h2 : Frame b c) : Frame a c := by
  obtain ⟨h11, h12, h13, h14⟩ := h1
  obtain ⟨h21, h22, h23, h24⟩ := h2
  rw [h11] at h21 h23 h24
  exact ⟨h21, h22.trans h12, h23.trans h13, h24.trans h14⟩

theorem Same.frame {a b : store} (h : Same a b) : Frame a b := by
  obtain ⟨h1, h2, h3, h4⟩ := h
  exact ⟨h3, h4, by rw [h1], by rw [h2]⟩

theorem Same.inv {x : externals} {a b : store} (h : Same a b) (hi : Inv x a) : Inv x b := by
  obtain ⟨h1, h2, h3, h4⟩ := h
  unfold Inv at *
  rw [h1, h2, h3]; exact hi

theorem foldl_inv {σ ι : Type} (Q : σ → Prop) (f : σ → ι → σ) (l : List ι) (a : σ)
    (h0 : Q a) (hstep : ∀ a i, i ∈ l → Q a → Q (f a i)) : Q (l.foldl f a) := by
  induction l generalizing a with
  | nil => exact h0
  | cons i l ih =>
    simp only [List.foldl_cons]
    apply ih
    · exact hstep a i (List.mem_cons_self _ _) h0
    · intro a j hj hq
      exact hstep a j (List.mem_cons_of_mem _ hj) hq

theorem for_range_inv {σ : Type} (Q : σ → Prop) (lo hi : Nat) (body : Nat → σ → σ) (a : σ)
    (h0 : Q a) (hstep : ∀ i a, lo ≤ i → i < hi → Q a → Q (body i a)) :
    Q (for_range lo hi body a) := by
  unfold for_range
  apply foldl_inv Q _ _ a h0
  intro a i hi hq
  rw [List.mem_range'_1] at hi
  exact hstep i a hi.1 (by omega) hq

theorem for_range_down_inv {σ : Type} (Q : σ → Prop) (lo hi : Nat) (body : Nat → σ → σ) (a : σ)
    (h0 : Q a) (hstep : ∀ i a, lo ≤ i → i < hi → Q a → Q (body i a)) :
    Q (for_range_down lo hi body a) := by
  unfold for_range_down
  apply foldl_inv Q _ _ a h0
  intro a i hi hq
  rw [List.mem_reverse, List.mem_range'_1] at hi
  exact hstep i a hi.1 (by omega) hq

theorem push_assertion_of_inconsistent {x : externals} {a : acc} (e : expr) (pr : proof)
    (h : a.s.m_inconsistent = true) : push_assertion x e pr a = a := by
  unfold push_assertion; rw [if_pos h]

theorem push_assertion_of_consistent {x : externals} {a : acc} (e : expr) (pr : proof)
    (h : a.s.m_inconsistent = false) :
    push_assertion x e pr a =
      { a with
        s := if e = x.mk_false then { a.s with m_inconsistent := true } else a.s
        new_exprs := a.new_exprs ++ (x.flatten e pr).map Prod.fst
        new_prs := if x.proofs_enabled then a.new_prs ++ (x.flatten e pr).map Prod.snd
                   else a.new_prs } := by
  unfold push_assertion ast_push_assertion; rw [if_neg (by simp [h])]

theorem AccInv.push_assertion {x : externals} {s0 : store} {a : acc} (e : expr) (pr : proof)
    (h : AccInv x s0 a) : AccInv x s0 (push_assertion x e pr a) := by
  obtain ⟨h1, h2, h3⟩ := h
  cases hi : a.s.m_inconsistent
  · rw [push_assertion_of_consistent e pr hi]
    refine ⟨?_, ?_, ?_⟩
    · by_cases he : e = x.mk_false <;> simp [he] <;> exact h1
    · intro hp; simp [hp, h2 hp]
    · intro hf _ hinc
      by_cases he : e = x.mk_false
      · subst he
        simp only [List.mem_append]
        right; exact hf pr
      · simp [he, hi] at hinc
  · rw [push_assertion_of_inconsistent e pr hi]; exact ⟨h1, h2, h3⟩

/-- The store of a pass in progress may be replaced by one with the same
vectors and the same flag. -/
theorem AccInv.quiet_acc {x : externals} {s0 : store} {a : acc} (s' : store) (r c : Bool)
    (h : AccInv x s0 a) (hs : Same a.s s') (hi : s'.m_inconsistent = a.s.m_inconsistent) :
    AccInv x s0 ⟨s', a.new_exprs, a.new_prs, r, c⟩ := by
  obtain ⟨h1, h2, h3⟩ := h
  refine ⟨h1.trans_s hs, h2, ?_⟩
  intro hf h0 hinc
  simp only at hinc
  rw [hi] at hinc
  exact h3 hf h0 hinc

theorem AccInv.start_acc {x : externals} (s : store) : AccInv x s (acc.start s) :=
  ⟨Same.refl_s s, fun _ => rfl, fun _ h0 h1 => by simp [acc.start] at h1; rw [h0] at h1; cases h1⟩

theorem Quiet.refl_q (s : store) : Quiet s s := ⟨Same.refl_s s, rfl⟩

theorem Quiet.trans_q {a b c : store} (h1 : Quiet a b) (h2 : Quiet b c) : Quiet a c :=
  ⟨h1.1.trans_s h2.1, h2.2.trans h1.2⟩

theorem Quiet.keeps_K {x : externals} {a b : store} (h : Quiet a b) (hk : K x a) : K x b := by
  obtain ⟨⟨h1, _, _, _⟩, h5⟩ := h
  unfold K at *
  rw [h1, h5]; exact hk

theorem quiet_flush_cache (s : store) : Quiet s (flush_cache s) := ⟨⟨rfl, rfl, rfl, rfl⟩, rfl⟩

theorem quiet_cache_result (a b : expr) (p : proof) (s : store) : Quiet s (cache_result a b p s) :=
  ⟨⟨rfl, rfl, rfl, rfl⟩, rfl⟩

theorem quiet_run_simplifier (x : externals) (n : expr) (s : store) :
    Quiet s (run_simplifier x n s).s := ⟨⟨rfl, rfl, rfl, rfl⟩, rfl⟩

theorem quiet_run_pre_simplifier (x : externals) (n : expr) (s : store) :
    Quiet s (run_pre_simplifier x n s).s := ⟨⟨rfl, rfl, rfl, rfl⟩, rfl⟩

theorem quiet_canceled (x : externals) (s : store) : Quiet s (canceled x s).2 :=
  ⟨⟨rfl, rfl, rfl, rfl⟩, rfl⟩

theorem quiet_log_pass (id : pass_id) (s : store) : Quiet s (log_pass id s) :=
  ⟨⟨rfl, rfl, rfl, rfl⟩, rfl⟩

theorem quiet_set_eliminate_and (flag : Bool) (s : store) : Quiet s (set_eliminate_and flag s) := by
  unfold set_eliminate_and
  split
  · exact Quiet.refl_q s
  · exact ⟨⟨rfl, rfl, rfl, rfl⟩, rfl⟩

theorem Full.of_quiet {x : externals} {s s' : store} (h : Quiet s s') : Full x s s' := by
  intro hi
  refine ⟨h.1.inv hi, h.1.frame, ?_⟩
  intro _ _ h0 hinc
  rw [h.2, h0] at hinc; cases hinc

theorem Full.then_quiet {x : externals} {s s1 s2 : store} (h : Full x s s1) (hq : Quiet s1 s2) :
    Full x s s2 := by
  intro hi
  obtain ⟨h1, h2, h3⟩ := h hi
  exact ⟨hq.1.inv h1, h2.trans_f hq.1.frame, fun hf hc h0 => hq.keeps_K (h3 hf hc h0)⟩

theorem Full.after_quiet {x : externals} {s s1 s2 : store} (hq : Quiet s s1) (h : Full x s1 s2) :
    Full x s s2 := by
  intro hi
  obtain ⟨h1, h2, h3⟩ := h (hq.1.inv hi)
  exact ⟨h1, hq.1.frame.trans_f h2, fun hf hc h0 => h3 hf hc (by rw [hq.2]; exact h0)⟩

/-- The function `swap_asserted_formulas` at the end of a pass. -/
theorem swap_full {x : externals} {s0 : store} {a : acc} (h : AccInv x s0 a) :
    Full x s0 (swap_asserted_formulas x a.new_exprs a.new_prs a.s) := by
  intro hi
  obtain ⟨⟨h1, h2, h3, h4⟩, hp, hk⟩ := h
  obtain ⟨hq, hpar⟩ := hi
  unfold swap_asserted_formulas
  cases hpe : x.proofs_enabled
  · simp only [hpe, Bool.false_eq_true, if_false] at hpar ⊢
    refine ⟨⟨?_, ?_⟩, ⟨h3, h4, ?_, ?_⟩, ?_⟩
    · simp only [h3, h1, List.length_append, List.length_take]; omega
    · simp only [hpe, Bool.false_eq_true, if_false, h2]; exact hpar
    · simp only [h3, h1]
      rw [List.take_append_of_le_length (by simp [List.length_take]; omega), List.take_take]
      simp
    · simp only [h2]
    · intro hf _ h0 hinc
      simp only [List.mem_append]
      right; exact hk hf h0 hinc
  · simp only [hpe, if_true] at hpar ⊢
    refine ⟨⟨?_, ?_⟩, ⟨h3, h4, ?_, ?_⟩, ?_⟩
    · simp only [h3, h1, List.length_append, List.length_take]; omega
    · simp only [hpe, if_true, h3, h1, h2, List.length_append, List.length_take, hp hpe]; omega
    · simp only [h3, h1]
      rw [List.take_append_of_le_length (by simp [List.length_take]; omega), List.take_take]
      simp
    · simp only [h3, h2]
      rw [List.take_append_of_le_length (by simp [List.length_take]; omega), List.take_take]
      simp
    · intro hf _ h0 hinc
      simp only [List.mem_append]
      right; exact hk hf h0 hinc

theorem quiet_bv_sharing (s : store) (n : Nat) :
    Quiet s { s with m_bv_sharing := { s.m_bv_sharing with m_size := n } } :=
  ⟨⟨rfl, rfl, rfl, rfl⟩, rfl⟩

theorem quiet_insert (s : store) (ms : List expr) :
    Quiet s { s with m_macro_manager := s.m_macro_manager.insert ms } :=
  ⟨⟨rfl, rfl, rfl, rfl⟩, rfl⟩

/-- A collaborator's output replaces the pending suffix. -/
theorem swap_external_full (x : externals) (s : store) (out : List (expr × proof)) :
    Full x s (swap_asserted_formulas x (out.map Prod.fst) (out.map Prod.snd) s) :=
  @swap_full x s ⟨s, out.map Prod.fst, out.map Prod.snd, false, false⟩
    ⟨Same.refl_s _, fun _ => by simp, fun _ h0 h1 => by simp only at h1; rw [h0] at h1; cases h1⟩

theorem swap_asserted_formulas_formulas (x : externals) (l : List expr) (lp : List proof)
    (s : store) : (swap_asserted_formulas x l lp s).m_asserted_formulas
      = s.m_asserted_formulas.take s.m_asserted_qhead ++ l := by
  unfold swap_asserted_formulas
  dsimp only
  split <;> rfl

theorem swap_asserted_formulas_inconsistent (x : externals) (l : List expr) (lp : List proof)
    (s : store) : (swap_asserted_formulas x l lp s).m_inconsistent = s.m_inconsistent := by
  unfold swap_asserted_formulas
  dsimp only
  split <;> rfl

theorem canceled_of_noCancel {x : externals} (hn : NoCancel x) (s : store) :
    (canceled x s).1 = false := hn _

theorem AccInvR.start_accR {x : externals} (s : store) : AccInvR x s (acc.start s) :=
  ⟨AccInv.start_acc s, fun _ => rfl⟩

theorem reduce_asserted_formulas_body_inv {x : externals} {s0 : store} (i : Nat) (a : acc)
    (h : AccInvR x s0 a) : AccInvR x s0 (reduce_asserted_formulas_body x i a) := by
  unfold reduce_asserted_formulas_body
  split
  · exact h
  · have hq := quiet_run_simplifier x (formula_at a.s i) a.s
    have h1 : AccInv x s0 ⟨(run_simplifier x (formula_at a.s i) a.s).s, a.new_exprs, a.new_prs,
        a.ret, a.changed⟩ := AccInv.quiet_acc _ _ _ h.1 hq.1 hq.2
    dsimp only
    constructor
    · split
      · exact AccInv.quiet_acc _ _ _ (AccInv.push_assertion _ _ h1) (quiet_canceled _ _).1
          (quiet_canceled _ _).2
      · exact AccInv.quiet_acc _ _ _ (AccInv.push_assertion _ _ h1) (quiet_canceled _ _).1
          (quiet_canceled _ _).2
    · intro hc
      exact hc _

/-- The function `reduce_asserted_formulas` keeps the invariants and the
committed prefix; without cancellation it keeps `K`. -/
theorem reduce_asserted_formulas_spec (x : externals) (s : store) (hi : Inv x s) :
    Inv x (reduce_asserted_formulas x s) ∧ Frame s (reduce_asserted_formulas x s) ∧
    (HFlat x → NoCancel x → K x s → K x (reduce_asserted_formulas x s)) := by
  unfold reduce_asserted_formulas
  cases h0 : s.m_inconsistent
  · simp only [Bool.false_eq_true, if_false]
    have hl := for_range_inv (AccInvR x s) s.m_asserted_qhead s.m_asserted_formulas.length
      (reduce_asserted_formulas_body x) (acc.start s) (AccInvR.start_accR s)
      (fun i a _ _ h => reduce_asserted_formulas_body_inv i a h)
    split
    · rename_i hret
      refine ⟨hl.1.1.inv hi, hl.1.1.frame, ?_⟩
      intro _ hc _
      rw [hl.2 hc] at hret; cases hret
    · obtain ⟨h1, h2, h3⟩ := swap_full hl.1 hi
      exact ⟨h1, h2, fun hf hc _ => h3 hf hc h0⟩
  · simp only [if_true]
    exact ⟨hi, Frame.refl_f s, fun _ _ hk => hk⟩

theorem Full.then_reduce_asserted_formulas {x : externals} {s s1 : store} (h : Full x s s1) :
    Full x s (reduce_asserted_formulas x s1) := by
  intro hi
  obtain ⟨h1, h2, h3⟩ := h hi
  obtain ⟨g1, g2, g3⟩ := reduce_asserted_formulas_spec x s1 h1
  exact ⟨g1, h2.trans_f g2, fun hf hc h0 => g3 hf hc (h3 hf hc h0)⟩

theorem Full.then_reduce_and_solve {x : externals} {s s1 : store} (h : Full x s s1) :
    Full x s (reduce_and_solve x s1) := by
  unfold reduce_and_solve
  exact (h.then_quiet (quiet_flush_cache s1)).then_reduce_asserted_formulas

theorem reduce_asserted_formulas_full (x : externals) (s : store) :
    Full x s (reduce_asserted_formulas x s) :=
  (Full.of_quiet (Quiet.refl_q s)).then_reduce_asserted_formulas

/-- A pass whose loop fills the local vectors and then swaps them in. -/
theorem loop_swap_full {x : externals} (s : store) (body : Nat → acc → acc) (a0 : acc)
    (h0 : AccInv x s a0) (hbody : ∀ i a, AccInv x s a → AccInv x s (body i a)) (lo hi : Nat) :
    Full x s (swap_asserted_formulas x (for_range lo hi body a0).new_exprs
      (for_range lo hi body a0).new_prs (for_range lo hi body a0).s) :=
  swap_full (for_range_inv (AccInv x s) lo hi body a0 h0 (fun i a _ _ h => hbody i a h))

theorem find_macros_core_full (x : externals) (s : store) : Full x s (find_macros_core x s) := by
  unfold find_macros_core
  apply Full.then_reduce_and_solve
  dsimp only
  exact Full.after_quiet (quiet_insert s _) (swap_external_full x _ _)

theorem nnf_cnf_inner_inv {x : externals} {s0 : store} (todo : List (expr × proof)) (a : acc)
    (h : AccInvR x s0 a) : AccInvR x s0 (nnf_cnf_inner x todo a) := by
  unfold nnf_cnf_inner
  apply foldl_inv (AccInvR x s0) _ _ a h
  intro a np _ h
  split
  · exact h
  · have hq := (quiet_run_simplifier x np.1 a.s).trans_q (quiet_canceled x _)
    dsimp only
    split
    · rename_i hc
      refine ⟨AccInv.quiet_acc _ _ _ h.1 hq.1 hq.2, fun hn => ?_⟩
      rw [canceled_of_noCancel hn] at hc; cases hc
    · exact ⟨AccInv.push_assertion _ _ (AccInv.quiet_acc _ _ _ h.1 hq.1 hq.2), fun hn => by
        rw [← h.2 hn]
        unfold push_assertion; split <;> rfl⟩

theorem nnf_cnf_body_inv {x : externals} {s0 : store} (i : Nat) (a : acc)
    (h : AccInvR x s0 a) : AccInvR x s0 (nnf_cnf_body x i a) := by
  unfold nnf_cnf_body
  split
  · exact h
  · have hq : Quiet a.s (canceled x { a.s with m_defined_names :=
        { a.s.m_defined_names with m_size :=
          (x.nnf a.s.m_defined_names.m_size (formula_at a.s i)).names } }).2 :=
      ⟨⟨rfl, rfl, rfl, rfl⟩, rfl⟩
    dsimp only
    split
    · rename_i hc
      refine ⟨AccInv.quiet_acc _ _ _ h.1 hq.1 hq.2, fun hn => ?_⟩
      rw [canceled_of_noCancel hn] at hc; cases hc
    · exact nnf_cnf_inner_inv _ _ ⟨AccInv.quiet_acc _ _ _ h.1 hq.1 hq.2, h.2⟩

theorem nnf_cnf_full (x : externals) (s : store) : Full x s (nnf_cnf x s) := by
  intro hi
  unfold nnf_cnf
  have hl := for_range_inv (AccInvR x s) s.m_asserted_qhead s.m_asserted_formulas.length
    (nnf_cnf_body x) (acc.start s) (AccInvR.start_accR s) (fun i a _ _ h => nnf_cnf_body_inv i a h)
  simp only
  split
  · rename_i hret
    refine ⟨hl.1.1.inv hi, hl.1.1.frame, ?_⟩
    intro _ hc _
    rw [hl.2 hc] at hret; cases hret
  · exact swap_full hl.1 hi

theorem MK_SIMPLE_SIMPLIFIER_full (x : externals) (functor : expr → expr) (s : store) :
    Full x s (MK_SIMPLE_SIMPLIFIER x functor s) := by
  unfold MK_SIMPLE_SIMPLIFIER
  apply Full.then_reduce_and_solve
  apply loop_swap_full s _ _ (AccInv.start_acc s)
  intro i a h
  unfold MK_SIMPLE_SIMPLIFIER_body
  dsimp only
  split
  · exact AccInv.push_assertion _ _ h
  · split <;> exact AccInv.push_assertion _ _ h

theorem infer_patterns_full (x : externals) (s : store) : Full x s (infer_patterns x s) := by
  unfold infer_patterns
  apply loop_swap_full s _ _ (AccInv.start_acc s)
  intro i a h
  unfold infer_patterns_body
  dsimp only
  split
  · exact AccInv.push_assertion _ _ h
  · split <;> exact AccInv.push_assertion _ _ h

/-- Formulas that a collaborator appends to the local vectors itself keep the invariant. -/
theorem AccInv.append {x : externals} {s0 : store} {a : acc} (s' : store)
    (defs : List (expr × proof)) (h : AccInv x s0 a) (hs : Same a.s s')
    (hi : s'.m_inconsistent = a.s.m_inconsistent) :
    AccInv x s0 ⟨s', a.new_exprs ++ defs.map Prod.fst,
      if x.proofs_enabled then a.new_prs ++ defs.map Prod.snd else a.new_prs, a.ret, a.changed⟩ := by
  obtain ⟨h1, h2, h3⟩ := h
  refine ⟨h1.trans_s hs, ?_, ?_⟩
  · intro hp; simp [hp, h2 hp]
  · intro hf h0 hinc
    simp only at hinc
    rw [hi] at hinc
    simp only [List.mem_append]
    left; exact h3 hf h0 hinc

theorem AccInv.ite_acc {x : externals} {s0 : store} {c : Prop} [Decidable c] {a b : acc}
    (ha : AccInv x s0 a) (hb : AccInv x s0 b) : AccInv x s0 (if c then a else b) := by
  split
  · exact ha
  · exact hb

theorem eliminate_term_ite_full (x : externals) (s : store) :
    Full x s (eliminate_term_ite x s) := by
  unfold eliminate_term_ite
  apply Full.then_reduce_and_solve
  apply loop_swap_full s _ _ (AccInv.start_acc s)
  intro i a h
  unfold eliminate_term_ite_body
  dsimp only
  have h1 := AccInv.append (x := x)
    { a.s with m_defined_names := { a.s.m_defined_names with
        m_size := (x.elim_term_ite a.s.m_defined_names.m_size (formula_at a.s i)).names } }
    (x.elim_term_ite a.s.m_defined_names.m_size (formula_at a.s i)).defs h
    ⟨rfl, rfl, rfl, rfl⟩ rfl
  exact AccInv.ite_acc (AccInv.push_assertion _ _ h1)
    (AccInv.ite_acc (AccInv.push_assertion _ _ h1) (AccInv.push_assertion _ _ h1))

theorem MK_SIMPLIFIER_full (x : externals) (functor : expr → expr × proof) (REDUCE : Bool)
    (s : store) : Full x s (MK_SIMPLIFIER x functor REDUCE s).2 := by
  unfold MK_SIMPLIFIER
  dsimp only
  have hl : Full x s (swap_asserted_formulas x
      (for_range s.m_asserted_qhead s.m_asserted_formulas.length
        (MK_SIMPLIFIER_body x functor) (acc.start s)).new_exprs
      (for_range s.m_asserted_qhead s.m_asserted_formulas.length
        (MK_SIMPLIFIER_body x functor) (acc.start s)).new_prs
      (for_range s.m_asserted_qhead s.m_asserted_formulas.length
        (MK_SIMPLIFIER_body x functor) (acc.start s)).s) := by
    apply loop_swap_full s _ _ (AccInv.start_acc s)
    intro i a h
    unfold MK_SIMPLIFIER_body
    dsimp only
    split
    · exact AccInv.push_assertion _ _ h
    · split
      · exact AccInv.push_assertion _ _ (AccInv.quiet_acc _ _ _ h (Same.refl_s _) rfl)
      · exact AccInv.push_assertion _ _ (AccInv.quiet_acc _ _ _ h (Same.refl_s _) rfl)
  split
  · exact hl.then_reduce_and_solve
  · exact hl

theorem propagate_values_rest_inv {x : externals} {s0 : store} (i : Nat) (n : expr) (pr : proof)
    (a : pv_acc) (h : PvInv x s0 a) : PvInv x s0 (propagate_values_rest x i n pr a) := by
  unfold propagate_values_rest
  split
  · exact h
  · exact h

theorem propagate_values_accept_inv {x : externals} {s0 : store} (i : Nat) (lhs rhs n : expr)
    (pr : proof) (a : pv_acc) (h : PvInv x s0 a) :
    PvInv x s0 (propagate_values_accept x i lhs rhs n pr a) := by
  unfold propagate_values_accept
  dsimp only
  split
  · refine ⟨h.1.trans_q (quiet_cache_result _ _ _ _), ?_⟩
    intro hp; simp [hp, h.2 hp]
  · exact ⟨h.1.trans_q (quiet_cache_result _ _ _ _), h.2⟩

theorem PvInv.ite_pv {x : externals} {s0 : store} {c : Prop} [Decidable c] {a b : pv_acc}
    (ha : PvInv x s0 a) (hb : PvInv x s0 b) : PvInv x s0 (if c then a else b) := by
  split
  · exact ha
  · exact hb

theorem propagate_values_scan_inv {x : externals} {s0 : store} (i : Nat) (a : pv_acc)
    (h : PvInv x s0 a) : PvInv x s0 (propagate_values_scan x i a) := by
  unfold propagate_values_scan
  dsimp only
  split
  · exact propagate_values_rest_inv _ _ _ _ h
  · exact PvInv.ite_pv
      (PvInv.ite_pv (propagate_values_accept_inv _ _ _ _ _ _ h) (propagate_values_rest_inv _ _ _ _ h))
      (propagate_values_rest_inv _ _ _ _ h)

theorem propagate_values_full (x : externals) (s : store) : Full x s (propagate_values x s) := by
  unfold propagate_values
  dsimp only
  have hl := for_range_inv (PvInv x (flush_cache s)) 0 s.m_asserted_formulas.length
    (propagate_values_scan x) ⟨flush_cache s, [], [], [], [], false⟩
    ⟨Quiet.refl_q _, fun _ => rfl⟩ (fun i a _ _ h => propagate_values_scan_inv i a h)
  have hq := (quiet_flush_cache s).trans_q hl.1
  split
  · apply Full.then_quiet _ (quiet_flush_cache _)
    apply loop_swap_full s
    · refine ⟨hq.1, hl.2, ?_⟩
      intro _ h0 hinc
      simp only at hinc
      rw [hq.2, h0] at hinc; cases hinc
    · intro i a h
      unfold propagate_values_simp
      dsimp only
      have hq := quiet_run_simplifier x (List.getD
        (for_range 0 s.m_asserted_formulas.length (propagate_values_scan x)
          ⟨flush_cache s, [], [], [], [], false⟩).new_exprs2 i 0) a.s
      split <;> exact AccInv.push_assertion _ _ (AccInv.quiet_acc _ _ _ h hq.1 hq.2)
  · exact Full.of_quiet hq

theorem take_set_of_le {α : Type} (l : List α) (a : α) {q i : Nat} (h : q ≤ i) :
    (l.set i a).take q = l.take q := by
  rw [List.set_take]
  apply List.set_eq_of_length_le
  simp only [List.length_take]; omega

theorem InPl.start_inpl {x : externals} {s : store} (hi : Inv x s) : InPl x s s :=
  ⟨hi, Frame.refl_f s, rfl⟩

theorem InPl.quiet_inpl {x : externals} {s0 s s' : store} (h : InPl x s0 s) (hq : Quiet s s') :
    InPl x s0 s' :=
  ⟨hq.1.inv h.1, h.2.1.trans_f hq.1.frame, hq.2.trans h.2.2⟩

/-- Writing a pending formula and (under proofs) its proof in place. -/
theorem InPl.set {x : externals} {s0 s : store} (h : InPl x s0 s) (i : Nat) (v : expr)
    (w : proof) (hlo : s0.m_asserted_qhead ≤ i) : InPl x s0 (set_formula x i v w s) := by
  obtain ⟨⟨hq, hpar⟩, ⟨f1, f2, f3, f4⟩, hinc⟩ := h
  unfold set_formula
  refine ⟨⟨?_, ?_⟩, ⟨f1, f2, ?_, ?_⟩, hinc⟩
  · simp only [List.length_set]; exact hq
  · cases hp : x.proofs_enabled
    · simp only [hp, Bool.false_eq_true, if_false] at hpar ⊢; exact hpar
    · simp only [hp, if_true, List.length_set] at hpar ⊢; exact hpar
  · simp only [take_set_of_le _ _ hlo]; exact f3
  · dsimp only
    split
    · rw [take_set_of_le _ _ hlo]; exact f4
    · exact f4

theorem InPl.full {x : externals} {s s' : store} (h : Inv x s → InPl x s s') : Full x s s' := by
  intro hi
  obtain ⟨h1, h2, h3⟩ := h hi
  refine ⟨h1, h2, ?_⟩
  intro _ _ h0 hinc
  rw [h3, h0] at hinc; cases hinc

theorem refine_inj_axiom_full (x : externals) (s : store) : Full x s ( refine_inj_axiom x s) := by
  apply InPl.full
  intro hi
  unfold refine_inj_axiom
  apply for_range_inv (InPl x s) _ _ _ _ (InPl.start_inpl hi)
  intro i a hlo _ h
  unfold refine_inj_axiom_body
  dsimp only
  split
  · split
    · exact h.set i _ _ hlo
    · exact h
  · exact h

theorem LIFT_ITE_full (x : externals) (functor : expr → expr × proof) (s : store) :
    Full x s (LIFT_ITE x functor s) := by
  unfold LIFT_ITE
  apply Full.then_reduce_and_solve
  apply InPl.full
  intro hi
  apply for_range_inv (InPl x s) _ _ _ _ (InPl.start_inpl hi)
  intro i a hlo _ h
  exact h.set i _ _ hlo

theorem max_bv_sharing_full (x : externals) (s : store) : Full x s (max_bv_sharing x s) := by
  unfold max_bv_sharing
  apply Full.then_reduce_asserted_formulas
  apply InPl.full
  intro hi
  apply for_range_inv (InPl x s) _ _ _ _ (InPl.start_inpl hi)
  intro i a hlo _ h
  exact (h.quiet_inpl (quiet_bv_sharing a _)).set i _ _ hlo

theorem eliminate_and_full (x : externals) (s : store) : Full x s (eliminate_and x s) := by
  unfold eliminate_and
  exact (Full.of_quiet (quiet_set_eliminate_and true s)).then_reduce_asserted_formulas

theorem mem_set_of_mem {α : Type} (l : List α) (i : Nat) (v y d : α) (hy : y ∈ l)
    (hv : l.getD i d = y → v = y) : y ∈ l.set i v := by
  induction l generalizing i with
  | nil => cases hy
  | cons a t ih =>
    cases i with
    | zero =>
      simp only [List.set_cons_zero, List.mem_cons]
      rcases List.mem_cons.mp hy with h | h
      · left; exact (hv (by simp [h])).symm
      · right; exact h
    | succ i =>
      simp only [List.set_cons_succ, List.mem_cons]
      rcases List.mem_cons.mp hy with h | h
      · left; exact h
      · right; exact ih i h (by simpa using hv)

theorem PbInv.quiet_pb {x : externals} {s0 : store} {a : pb_acc} (s' : store) (c m : Bool)
    (h : PbInv x s0 a) (hq : Quiet a.s s') : PbInv x s0 ⟨s', c, m⟩ :=
  InPl.quiet_inpl h hq

theorem PROCESS_inv {x : externals} {s0 : store} (i : Nat) (a : pb_acc)
    (hlo : s0.m_asserted_qhead ≤ i) (h : PbInv x s0 a) : PbInv x s0 (PROCESS x i a) := by
  unfold PROCESS
  dsimp only
  have hq := quiet_run_simplifier x (formula_at a.s i) a.s
  have h1 : PbInv x s0 ⟨set_formula x i (run_simplifier x (formula_at a.s i) a.s).new_n
      (if x.proofs_enabled then x.mk_modus_ponens (proof_at a.s i)
        (run_simplifier x (formula_at a.s i) a.s).new_pr
       else (run_simplifier x (formula_at a.s i) a.s).new_pr)
      (run_simplifier x (formula_at a.s i) a.s).s, a.cont, a.modified⟩ :=
    InPl.set (InPl.quiet_inpl h hq) i _ _ hlo
  split
  · exact h1.quiet_pb _ _ _ (quiet_cache_result _ _ _ _)
  · exact h1.quiet_pb _ _ _ (quiet_cache_result _ _ _ _)

theorem propagate_booleans_round_inv {x : externals} {s0 : store} (a : pb_acc)
    (h : PbInv x s0 a) : PbInv x s0 (propagate_booleans_round x a) := by
  unfold propagate_booleans_round
  dsimp only
  have hq0 : a.s.m_asserted_qhead = s0.m_asserted_qhead := h.2.1.1
  have h1 : PbInv x s0 (for_range a.s.m_asserted_qhead a.s.m_asserted_formulas.length
      (PROCESS x) { a with cont := false }) :=
    for_range_inv (PbInv x s0) _ _ _ _ (h.quiet_pb a.s false a.modified (Quiet.refl_q _))
      (fun i b hlo _ hb => PROCESS_inv i b (by omega) hb)
  have h2 := h1.quiet_pb _ (for_range a.s.m_asserted_qhead a.s.m_asserted_formulas.length
      (PROCESS x) { a with cont := false }).cont (for_range a.s.m_asserted_qhead
      a.s.m_asserted_formulas.length (PROCESS x) { a with cont := false }).modified
      (quiet_flush_cache _)
  have hq2 : (flush_cache (for_range a.s.m_asserted_qhead a.s.m_asserted_formulas.length
      (PROCESS x) { a with cont := false }).s).m_asserted_qhead = s0.m_asserted_qhead :=
    h2.2.1.1
  have h3 := for_range_down_inv (PbInv x s0) (flush_cache (for_range a.s.m_asserted_qhead
      a.s.m_asserted_formulas.length (PROCESS x) { a with cont := false }).s).m_asserted_qhead
      a.s.m_asserted_formulas.length (PROCESS x) _ h2
      (fun i b hlo _ hb => PROCESS_inv i b (by omega) hb)
  exact h3.quiet_pb _ _ _ (quiet_flush_cache _)

theorem propagate_booleans_loop_inv {x : externals} {s0 : store} (fuel : Nat) (a b : pb_acc)
    (h : PbInv x s0 a) (hb : propagate_booleans_loop x fuel a = some b) : PbInv x s0 b := by
  induction fuel generalizing a with
  | zero => simp [propagate_booleans_loop] at hb
  | succ fuel ih =>
    unfold propagate_booleans_loop at hb
    dsimp only at hb
    split at hb
    · exact ih _ (propagate_booleans_round_inv a h) hb
    · cases hb
      exact propagate_booleans_round_inv a h

theorem PROCESS_formulas (x : externals) (i : Nat) (a : pb_acc) :
    (PROCESS x i a).s.m_asserted_formulas = a.s.m_asserted_formulas.set i
      (x.simplify a.s.m_eliminate_and a.s.m_cache (formula_at a.s i)).e := by
  unfold PROCESS
  dsimp only
  split <;> rfl

theorem PROCESS_cache (x : externals) (i : Nat) (a : pb_acc) :
    ∃ en : cache_entry, (PROCESS x i a).s.m_cache
        = en :: (x.simplify a.s.m_eliminate_and a.s.m_cache (formula_at a.s i)).cache ∧
      (en.key = x.mk_false → en.val = x.mk_false ∨
        (x.simplify a.s.m_eliminate_and a.s.m_cache (formula_at a.s i)).e = x.mk_false) := by
  unfold PROCESS
  dsimp only
  split
  · exact ⟨_, rfl, fun _ => Or.inl rfl⟩
  · exact ⟨_, rfl, fun h => Or.inr h⟩

/-- One `PROCESS` keeps the invariant of a sweep. -/
theorem PROCESS_sweep {x : externals} (hs : HSimp x) (done : List Nat) (i : Nat) (a : pb_acc)
    (hi : i < a.s.m_asserted_formulas.length) (hd : i ∉ done) (h : SwInv x done a.s) :
    SwInv x (i :: done) (PROCESS x i a).s := by
  obtain ⟨en, hc1, hc2⟩ := PROCESS_cache x i a
  rcases h with ⟨j, hj, hA⟩ | ⟨hc, hm⟩
  · left
    refine ⟨j, List.mem_cons_of_mem _ hj, ?_⟩
    rw [PROCESS_formulas, List.getElem?_set_ne (fun hij => hd (by rw [hij]; exact hj))]
    exact hA
  · obtain ⟨hs1, hs2⟩ := hs a.s.m_eliminate_and a.s.m_cache hc
    by_cases hn : (x.simplify a.s.m_eliminate_and a.s.m_cache (formula_at a.s i)).e = x.mk_false
    · left
      refine ⟨i, List.mem_cons_self _ _, ?_⟩
      rw [PROCESS_formulas, List.getElem?_set_self hi, hn]
    · right
      constructor
      · rw [hc1]
        intro e he hk
        rcases List.mem_cons.mp he with rfl | he
        · rcases hc2 hk with h | h
          · exact h
          · exact absurd h hn
        · exact hs2 _ e he hk
      · rw [PROCESS_formulas]
        apply mem_set_of_mem _ _ _ _ 0 hm
        intro hf
        have : formula_at a.s i = x.mk_false := hf
        rw [this]; exact hs1

theorem PROCESS_length (x : externals) (i : Nat) (a : pb_acc) :
    (PROCESS x i a).s.m_asserted_formulas.length = a.s.m_asserted_formulas.length := by
  rw [PROCESS_formulas, List.length_set]

/-- A sweep of `PROCESS` over distinct indices keeps the literal false in the store. -/
theorem sweep_keeps_false {x : externals} (hs : HSimp x) (l : List Nat) (hnd : l.Nodup)
    (n : Nat) (hlt : ∀ i ∈ l, i < n) (done : List Nat) (hdis : ∀ i ∈ l, i ∉ done) (a : pb_acc)
    (hlen : a.s.m_asserted_formulas.length = n) (h : SwInv x done a.s) :
    x.mk_false ∈ (l.foldl (fun a i => PROCESS x i a) a).s.m_asserted_formulas := by
  induction l generalizing a done with
  | nil =>
    rcases h with ⟨j, _, hA⟩ | ⟨_, hm⟩
    · exact List.getElem?_mem hA
    · exact hm
  | cons i l ih =>
    simp only [List.foldl_cons]
    have hnd' := List.nodup_cons.mp hnd
    apply ih hnd'.2 (fun k hk => hlt k (List.mem_cons_of_mem _ hk)) (i :: done)
    · intro k hk hmem
      rcases List.mem_cons.mp hmem with rfl | hmem
      · exact hnd'.1 hk
      · exact hdis k (List.mem_cons_of_mem _ hk) hmem
    · rw [PROCESS_length]; exact hlen
    · exact PROCESS_sweep hs done i a (by rw [hlen]; exact hlt i (List.mem_cons_self _ _))
        (hdis i (List.mem_cons_self _ _)) h

theorem sweep_length (x : externals) (l : List Nat) (a : pb_acc) :
    (l.foldl (fun a i => PROCESS x i a) a).s.m_asserted_formulas.length
      = a.s.m_asserted_formulas.length := by
  induction l generalizing a with
  | nil => rfl
  | cons i l ih => simp only [List.foldl_cons]; rw [ih, PROCESS_length]

/-- A round of `propagate_booleans` keeps the literal false in the store. -/
theorem propagate_booleans_round_false {x : externals} (hs : HSimp x) (a : pb_acc)
    (hc : a.s.m_cache = []) (hm : x.mk_false ∈ a.s.m_asserted_formulas) :
    (propagate_booleans_round x a).s.m_cache = [] ∧
    x.mk_false ∈ (propagate_booleans_round x a).s.m_asserted_formulas := by
  unfold propagate_booleans_round
  dsimp only
  refine ⟨rfl, ?_⟩
  have hok : ∀ t : store, t.m_cache = [] → cache_ok x t.m_cache := by
    intro t ht en hen; rw [ht] at hen; cases hen
  have h1 : x.mk_false ∈ (for_range a.s.m_asserted_qhead a.s.m_asserted_formulas.length
      (PROCESS x) { a with cont := false }).s.m_asserted_formulas := by
    unfold for_range
    refine sweep_keeps_false hs _ (List.nodup_range' _ _) a.s.m_asserted_formulas.length
      ?_ [] (fun _ _ hmem => by cases hmem) { a with cont := false } rfl
      (Or.inr ⟨hok _ hc, hm⟩)
    intro i hi
    rw [List.mem_range'_1] at hi
    omega
  have hl1 : (for_range a.s.m_asserted_qhead a.s.m_asserted_formulas.length
      (PROCESS x) { a with cont := false }).s.m_asserted_formulas.length
      = a.s.m_asserted_formulas.length := by
    unfold for_range; exact sweep_length x _ _
  unfold for_range_down
  refine sweep_keeps_false hs _ (List.nodup_reverse.mpr (List.nodup_range' _ _))
    a.s.m_asserted_formulas.length ?_ [] (fun _ _ hmem => by cases hmem)
    ⟨flush_cache (for_range a.s.m_asserted_qhead a.s.m_asserted_formulas.length
      (PROCESS x) { a with cont := false }).s, _, _⟩ hl1
    (Or.inr ⟨hok (flush_cache (for_range a.s.m_asserted_qhead a.s.m_asserted_formulas.length
      (PROCESS x) { a with cont := false }).s) rfl, h1⟩)
  intro i hi
  rw [List.mem_reverse, List.mem_range'_1] at hi
  omega

theorem propagate_booleans_loop_false {x : externals} (hs : HSimp x) (fuel : Nat)
    (a b : pb_acc) (hc : a.s.m_cache = []) (hm : x.mk_false ∈ a.s.m_asserted_formulas)
    (hb : propagate_booleans_loop x fuel a = some b) :
    x.mk_false ∈ b.s.m_asserted_formulas := by
  induction fuel generalizing a with
  | zero => simp [propagate_booleans_loop] at hb
  | succ fuel ih =>
    unfold propagate_booleans_loop at hb
    dsimp only at hb
    obtain ⟨r1, r2⟩ := propagate_booleans_round_false hs a hc hm
    split at hb
    · exact ih _ r1 r2 hb
    · cases hb; exact r2

/-- The function `propagate_booleans` keeps the invariants and the committed
prefix; when the simplifier keeps the literal false it keeps `K`, also on a
store that is inconsistent on entry. -/
theorem propagate_booleans_spec (x : externals) (fuel : Nat) (s s' : store) (hi : Inv x s)
    (h : propagate_booleans x fuel s = some s') :
    Inv x s' ∧ Frame s s' ∧
    (HFlat x → NoCancel x → (s.m_inconsistent = false ∨ HSimp x) → K x s → K x s') := by
  unfold propagate_booleans at h
  simp only [Option.map_eq_some'] at h
  obtain ⟨b, hb, rfl⟩ := h
  have h0 : PbInv x s ⟨flush_cache s, true, false⟩ :=
    (InPl.start_inpl hi).quiet_inpl (quiet_flush_cache s)
  obtain ⟨h1, h2, h3⟩ := propagate_booleans_loop_inv fuel _ b h0 hb
  have hk : HFlat x → NoCancel x → (s.m_inconsistent = false ∨ HSimp x) → K x s → K x b.s := by
    intro _ _ hor hk hinc
    rw [h3] at hinc
    rcases hor with h | h
    · rw [h] at hinc; cases hinc
    · exact propagate_booleans_loop_false h fuel _ b rfl (hk hinc) hb
  split
  · obtain ⟨g1, g2, g3⟩ := reduce_asserted_formulas_spec x b.s h1
    exact ⟨g1, h2.trans_f g2, fun hf hc hor hks => g3 hf hc (hk hf hc hor hks)⟩
  · exact ⟨h1, h2, hk⟩

theorem propagate_booleans_full (x : externals) (fuel : Nat) (s s' : store)
    (h : propagate_booleans x fuel s = some s') : Full x s s' := by
  intro hi
  obtain ⟨h1, h2, h3⟩ := propagate_booleans_spec x fuel s s' hi h
  exact ⟨h1, h2, fun hf hc h0 => h3 hf hc (Or.inl h0) (fun hinc => by rw [h0] at hinc; cases hinc)⟩

theorem apply_quasi_macros_loop_full (x : externals) (fuel : Nat) (s s' : store)
    (h : apply_quasi_macros_loop x fuel s = some s') : Full x s s' := by
  induction fuel generalizing s with
  | zero => simp [apply_quasi_macros_loop] at h
  | succ fuel ih =>
    unfold apply_quasi_macros_loop at h
    dsimp only at h
    generalize x.quasi_macros s.m_macro_manager (s.m_asserted_formulas.drop s.m_asserted_qhead)
      (s.m_asserted_formula_prs.drop s.m_asserted_qhead) = r at h
    split at h
    · have hq := quiet_insert s r.2.2
      have hsw := swap_external_full x
        { s with m_macro_manager := s.m_macro_manager.insert r.2.2 } r.2.1
      have hrec := ih _ h
      intro hi
      obtain ⟨a1, a2, _⟩ := hsw (hq.1.inv hi)
      obtain ⟨b1, b2, b3⟩ := hrec a1
      refine ⟨b1, (hq.1.frame.trans_f a2).trans_f b2, fun hf hc h0 => b3 hf hc ?_⟩
      rw [swap_asserted_formulas_inconsistent]; exact h0
    · cases h
      exact Full.of_quiet (quiet_insert s r.2.2)

theorem apply_quasi_macros_full (x : externals) (fuel : Nat) (s s' : store)
    (h : apply_quasi_macros x fuel s = some s') : Full x s s' := by
  unfold apply_quasi_macros at h
  simp only [Option.map_eq_some'] at h
  obtain ⟨b, hb, rfl⟩ := h
  exact (apply_quasi_macros_loop_full x fuel s b hb).then_reduce_and_solve

/-- Every line of the table is a pass in the sense of `Full`. -/
theorem invoke_table_full (x : externals) (p : smt_params) (fuel : Nat) :
    ∀ c ∈ invoke_table x p fuel, ∀ s s', c.func s = some s' → Full x s s' := by
  intro c hc s s' h
  simp only [invoke_table, List.mem_cons, List.mem_singleton, List.not_mem_nil, or_false] at hc
  rcases hc with rfl | rfl | rfl | rfl | rfl | rfl | rfl | rfl | rfl | rfl | rfl | rfl | rfl | rfl
    | rfl | rfl | rfl | rfl | rfl
  · exact propagate_booleans_full x fuel s s' h
  · cases h; exact propagate_values_full x s
  · cases h; exact find_macros_core_full x s
  · cases h; exact nnf_cnf_full x s
  · cases h; exact eliminate_and_full x s
  · cases h; exact MK_SIMPLIFIER_full x _ _ s
  · cases h; exact MK_SIMPLIFIER_full x _ _ s
  · cases h; exact LIFT_ITE_full x _ s
  · cases h; exact LIFT_ITE_full x _ s
  · cases h; exact eliminate_term_ite_full x s
  · cases h; exact refine_inj_axiom_full x s
  · cases h; exact MK_SIMPLE_SIMPLIFIER_full x _ s
  · cases h; exact find_macros_core_full x s
  · exact apply_quasi_macros_full x fuel s s' h
  · cases h; exact MK_SIMPLIFIER_full x _ _ s
  · cases h; exact MK_SIMPLIFIER_full x _ _ s
  · cases h; exact infer_patterns_full x s
  · cases h; exact max_bv_sharing_full x s
  · cases h; exact MK_SIMPLIFIER_full x _ _ s

/-- One line `INVOKE(COND, FUNC)` run on a store. -/
theorem invoke_step_full {x : externals} (c : invoke) (s s1 : store)
    (hc : ∀ s s', c.func s = some s' → Full x s s')
    (h : (if c.cond s then c.func (log_pass c.id s) else some s) = some s1) : Full x s s1 := by
  split at h
  · exact Full.after_quiet (quiet_log_pass c.id s) (hc _ _ h)
  · cases h; exact Full.of_quiet (Quiet.refl_q s)

/-- The lines of `reduce` run from a consistent store. -/
theorem run_invokes_spec {x : externals} (cs : List invoke)
    (hcs : ∀ c ∈ cs, ∀ s s', c.func s = some s' → Full x s s')
    (s s' : store) (b : Bool) (h : run_invokes x cs s = some (s', b)) (hi : Inv x s) :
    Inv x s' ∧ Frame s s' ∧
    (HFlat x → NoCancel x → s.m_inconsistent = false → K x s') ∧
    (s.m_inconsistent = false → b = false → s'.m_inconsistent = false) ∧
    (NoCancel x → b = true → s'.m_inconsistent = true) := by
  induction cs generalizing s with
  | nil =>
    simp only [run_invokes, Option.some.injEq, Prod.mk.injEq] at h
    obtain ⟨rfl, rfl⟩ := h
    refine ⟨hi, Frame.refl_f s, (fun _ _ h0 hinc => by rw [h0] at hinc; cases hinc), ?_, ?_⟩
    · intro h0 _; exact h0
    · intro _ hb; cases hb
  | cons c cs ih =>
    unfold run_invokes at h
    split at h
    · cases h
    · rename_i s1 hs1
      have hfull := invoke_step_full c s s1 (hcs c (List.mem_cons_self _ _)) hs1
      obtain ⟨i1, f1, k1⟩ := hfull hi
      split at h
      · rename_i hinc
        simp only [Option.some.injEq, Prod.mk.injEq] at h
        obtain ⟨rfl, rfl⟩ := h
        exact ⟨i1, f1, k1, (fun _ hb => by cases hb), fun _ _ => hinc⟩
      · rename_i hinc
        split at h
        · rename_i hcan
          simp only [Option.some.injEq, Prod.mk.injEq] at h
          obtain ⟨rfl, rfl⟩ := h
          refine ⟨(quiet_canceled x s1).1.inv i1, f1.trans_f (quiet_canceled x s1).1.frame,
            (fun hf hc h0 => (quiet_canceled x s1).keeps_K (k1 hf hc h0)),
            (fun _ hb => by cases hb), ?_⟩
          intro hc _
          rw [canceled_of_noCancel hc] at hcan; cases hcan
        · obtain ⟨i2, f2, k2, b2, c2⟩ := ih (fun c hc => hcs c (List.mem_cons_of_mem _ hc))
            _ h ((quiet_canceled x s1).1.inv i1)
          have hinc' : (canceled x s1).2.m_inconsistent = false := by simpa using hinc
          refine ⟨i2, f1.trans_f ((quiet_canceled x s1).1.frame.trans_f f2), ?_, (fun _ => b2 hinc'), c2⟩
          intro hf hc _
          exact k2 hf hc hinc'

/-- The lines of `reduce` keep `K` when the first line keeps it on any store. -/
theorem run_invokes_K {x : externals} (c : invoke) (cs : List invoke)
    (hcs : ∀ c' ∈ c :: cs, ∀ s s', c'.func s = some s' → Full x s s')
    (hhead : ∀ s s', c.func s = some s' → Inv x s → K x s → K x s')
    (hf : HFlat x) (hc : NoCancel x)
    (s s' : store) (b : Bool) (h : run_invokes x (c :: cs) s = some (s', b)) (hi : Inv x s)
    (hk : K x s) : K x s' := by
  unfold run_invokes at h
  split at h
  · cases h
  · rename_i s1 hs1
    have i1 := (invoke_step_full c s s1 (hcs c (List.mem_cons_self _ _)) hs1 hi).1
    have k1 : K x s1 := by
      split at hs1
      · exact hhead _ _ hs1 ((quiet_log_pass c.id s).1.inv hi) ((quiet_log_pass c.id s).keeps_K hk)
      · cases hs1; exact hk
    split at h
    · simp only [Option.some.injEq, Prod.mk.injEq] at h
      obtain ⟨rfl, rfl⟩ := h
      exact k1
    · rename_i hinc
      split at h
      · simp only [Option.some.injEq, Prod.mk.injEq] at h
        obtain ⟨rfl, rfl⟩ := h
        exact (quiet_canceled x s1).keeps_K k1
      · have hinc' : (canceled x s1).2.m_inconsistent = false := by simpa using hinc
        exact (run_invokes_spec cs (fun c hc => hcs c (List.mem_cons_of_mem _ hc)) _ _ _ h
          ((quiet_canceled x s1).1.inv i1)).2.2.1 hf hc hinc'

theorem invoke_table_eq (x : externals) (p : smt_params) (fuel : Nat) :
    ∃ cs, invoke_table x p fuel =
      ⟨pass_id.propagate_booleans, fun _ => p.m_propagate_booleans, propagate_booleans x fuel⟩ :: cs :=
  ⟨_, rfl⟩

/-- The function `reduce` keeps the invariants, the head, the scope stack and
the committed prefix; without cancellation, and with collaborators that keep
the literal false, an inconsistent store still holds the literal false. -/
theorem reduce_spec (x : externals) (p : smt_params) (fuel : Nat) (s s' : store)
    (h : reduce x p fuel s = some s') (hi : Inv x s) :
    Inv x s' ∧ Frame s s' ∧ (HFlat x → HSimp x → NoCancel x → K x s → K x s') := by
  unfold reduce at h
  split at h
  · cases h; exact ⟨hi, Frame.refl_f s, fun _ _ _ hk => hk⟩
  · rename_i hinc
    have hinc0 : s.m_inconsistent = false := by simpa using hinc
    have hq0 := quiet_canceled x s
    split at h
    · cases h; exact ⟨hq0.1.inv hi, hq0.1.frame, fun _ _ _ hk => hq0.keeps_K hk⟩
    · dsimp only at h
      split at h
      · cases h; exact ⟨hq0.1.inv hi, hq0.1.frame, fun _ _ _ hk => hq0.keeps_K hk⟩
      · split at h
        · cases h; exact ⟨hq0.1.inv hi, hq0.1.frame, fun _ _ _ hk => hq0.keeps_K hk⟩
        · have hF1 : Full x s (set_eliminate_and false
              (if (canceled x s).2.m_macro_manager.has_macros = true then
                expand_macros x (log_pass pass_id.expand_macros (canceled x s).2)
              else (canceled x s).2)) := by
            apply Full.then_quiet _ (quiet_set_eliminate_and false _)
            split
            · exact Full.after_quiet (hq0.trans_q (quiet_log_pass _ _)) (find_macros_core_full x _)
            · exact Full.of_quiet hq0
          obtain ⟨i1, f1, k1⟩ := hF1 hi
          obtain ⟨cs, hcs⟩ := invoke_table_eq x p fuel
          have htab := invoke_table_full x p fuel
          split at h
          · cases h
          · rename_i s2 hrun
            cases h
            obtain ⟨i2, f2, _⟩ := run_invokes_spec _ htab _ _ _ hrun i1
            refine ⟨i2, f1.trans_f f2, fun hf hs hc _ => ?_⟩
            rw [hcs] at hrun htab
            exact run_invokes_K _ cs htab
              (fun a b hab hia hka => (propagate_booleans_spec x fuel a b hia hab).2.2 hf hc
                (Or.inr hs) hka) hf hc _ _ _ hrun i1 (k1 hf hc hinc0)
          · rename_i s2 hrun
            cases h
            obtain ⟨i2, f2, _⟩ := run_invokes_spec _ htab _ _ _ hrun i1
            have hq2 := quiet_log_pass pass_id.reduce_asserted_formulas s2
            obtain ⟨i3, f3, k3⟩ := reduce_asserted_formulas_spec x _ (hq2.1.inv i2)
            have hq3 := quiet_flush_cache (reduce_asserted_formulas x
              (log_pass pass_id.reduce_asserted_formulas s2))
            refine ⟨hq3.1.inv i3, f1.trans_f (f2.trans_f (hq2.1.frame.trans_f (f3.trans_f hq3.1.frame))),
              fun hf hs hc _ => ?_⟩
            rw [hcs] at hrun htab
            have k2 := run_invokes_K _ cs htab
              (fun a b hab hia hka => (propagate_booleans_spec x fuel a b hia hab).2.2 hf hc
                (Or.inr hs) hka) hf hc _ _ _ hrun i1 (k1 hf hc hinc0)
            exact hq3.keeps_K (k3 hf hc (hq2.keeps_K k2))

theorem take_append_left_of_le {α : Type} (l l' : List α) {q : Nat} (h : q ≤ l.length) :
    (l ++ l').take q = l.take q := by
  rw [List.take_append_of_le_length h]

theorem Inv.of_proofs {x : externals} {s : store} (hp : x.proofs_enabled = true)
    (h1 : s.m_asserted_qhead ≤ s.m_asserted_formulas.length)
    (h2 : s.m_asserted_formula_prs.length = s.m_asserted_formulas.length) : Inv x s :=
  ⟨h1, by rw [if_pos hp]; exact h2⟩

theorem Inv.of_no_proofs {x : externals} {s : store} (hp : x.proofs_enabled = false)
    (h1 : s.m_asserted_qhead ≤ s.m_asserted_formulas.length)
    (h2 : s.m_asserted_formula_prs = []) : Inv x s :=
  ⟨h1, by rw [if_neg (by simp [hp])]; exact h2⟩

theorem Inv.proofs {x : externals} {s : store} (h : Inv x s) (hp : x.proofs_enabled = true) :
    s.m_asserted_formula_prs.length = s.m_asserted_formulas.length := by
  have := h.2; rw [if_pos hp] at this; exact this

theorem Inv.no_proofs {x : externals} {s : store} (h : Inv x s) (hp : x.proofs_enabled = false) :
    s.m_asserted_formula_prs = [] := by
  have := h.2; rw [if_neg (by simp [hp])] at this; exact this

theorem init_spec (x : externals) (fs : List (expr × proof)) (s : store) (hi : Inv x s) :
    Grow x s (init x fs s) ∧ (init x fs s).m_scopes = s.m_scopes ∧
    (init x fs s).m_inconsistent = s.m_inconsistent ∧
    (init x fs s).m_asserted_qhead = s.m_asserted_qhead := by
  have hq := hi.1
  unfold init
  cases hp : x.proofs_enabled
  · rw [if_neg (by simp)]
    refine ⟨⟨Inv.of_no_proofs hp ?_ (hi.no_proofs hp), le_refl _, ?_, rfl⟩, rfl, rfl, rfl⟩
    · simp only [List.length_append]; omega
    · exact take_append_left_of_le _ _ hq
  · rw [if_pos rfl]
    have hl := hi.proofs hp
    refine ⟨⟨Inv.of_proofs hp ?_ ?_, le_refl _, ?_, ?_⟩, rfl, rfl, rfl⟩
    · simp only [List.length_append]; omega
    · simp only [List.length_append, List.length_map, hl]
    · exact take_append_left_of_le _ _ hq
    · exact take_append_left_of_le _ _ (by omega)

theorem push_assertion_store_spec (x : externals) (e : expr) (pr : proof) (s : store)
    (hi : Inv x s) :
    Grow x s (push_assertion_store x e pr s) ∧
    (push_assertion_store x e pr s).m_scopes = s.m_scopes ∧
    (push_assertion_store x e pr s).m_asserted_qhead = s.m_asserted_qhead ∧
    (HFlat x → K x s → K x (push_assertion_store x e pr s)) ∧
    (s.m_inconsistent = true → (push_assertion_store x e pr s).m_inconsistent = true) := by
  have hq := hi.1
  unfold push_assertion_store
  dsimp only
  cases hinc : s.m_inconsistent
  · rw [push_assertion_of_consistent e pr (by exact hinc)]
    dsimp only
    have hsc : (if e = x.mk_false then { s with m_inconsistent := true } else s).m_scopes
        = s.m_scopes := by split <;> rfl
    have hqh : (if e = x.mk_false then { s with m_inconsistent := true } else s).m_asserted_qhead
        = s.m_asserted_qhead := by split <;> rfl
    refine ⟨⟨?_, ?_, ?_, ?_⟩, hsc, hqh, ?_, ?_⟩
    · cases hp : x.proofs_enabled
      · apply Inv.of_no_proofs hp
        · simp only [hqh, List.length_append]; omega
        · rw [if_neg (by simp)]; exact hi.no_proofs hp
      · apply Inv.of_proofs hp
        · simp only [hqh, List.length_append]; omega
        · rw [if_pos rfl]
          simp only [List.length_append, List.length_map, hi.proofs hp]
    · simp only [hqh]; exact le_refl _
    · exact take_append_left_of_le _ _ hq
    · dsimp only
      split
      · rename_i hp
        have := hi.proofs hp
        exact take_append_left_of_le _ _ (by omega)
      · rfl
    · intro hf _ hi2
      simp only [List.mem_append]
      by_cases he : e = x.mk_false
      · subst he; right; exact hf pr
      · simp [he, hinc] at hi2
    · intro h; cases h
  · rw [push_assertion_of_inconsistent e pr (by exact hinc)]
    dsimp only
    refine ⟨⟨hi, le_refl _, rfl, rfl⟩, rfl, rfl, ?_, fun _ => hinc⟩
    intro _ hk _
    exact hk hinc

theorem assert_expr_spec (x : externals) (p : smt_params) (e : expr) (pr : proof) (s : store)
    (hi : Inv x s) :
    Grow x s (assert_expr x p e pr s) ∧
    (assert_expr x p e pr s).m_scopes = s.m_scopes ∧
    (assert_expr x p e pr s).m_asserted_qhead = s.m_asserted_qhead ∧
    (HFlat x → K x s → K x (assert_expr x p e pr s)) ∧
    (s.m_inconsistent = true → assert_expr x p e pr s = s) := by
  unfold assert_expr
  split
  · rename_i hinc
    exact ⟨⟨hi, le_refl _, rfl, rfl⟩, rfl, rfl, fun _ hk => hk, fun _ => rfl⟩
  · rename_i hinc
    split
    · obtain ⟨h1, h2, h3, h4, _⟩ := push_assertion_store_spec x e pr s hi
      exact ⟨h1, h2, h3, h4, fun h => absurd h hinc⟩
    · dsimp only
      have hq1 : Quiet s (if p.m_pre_simplifier = true then run_pre_simplifier x e s
          else ⟨e, 0, s⟩).s := by
        split
        · exact quiet_run_pre_simplifier x e s
        · exact Quiet.refl_q s
      have hq := (hq1.trans_q (quiet_set_eliminate_and false _)).trans_q
        (quiet_run_simplifier x (if p.m_pre_simplifier = true then run_pre_simplifier x e s
          else ⟨e, 0, s⟩).new_n _)
      obtain ⟨⟨g1, g2, g3, g4⟩, h2, h3, h4, _⟩ := push_assertion_store_spec x
        (run_simplifier x (if p.m_pre_simplifier = true then run_pre_simplifier x e s
          else ⟨e, 0, s⟩).new_n (set_eliminate_and false (if p.m_pre_simplifier = true then
            run_pre_simplifier x e s else ⟨e, 0, s⟩).s)).new_n
        (if x.proofs_enabled = true then
          if e = (run_simplifier x (if p.m_pre_simplifier = true then run_pre_simplifier x e s
            else ⟨e, 0, s⟩).new_n (set_eliminate_and false (if p.m_pre_simplifier = true then
              run_pre_simplifier x e s else ⟨e, 0, s⟩).s)).new_n then pr
          else x.mk_modus_ponens pr (x.mk_transitivity (if p.m_pre_simplifier = true then
            run_pre_simplifier x e s else ⟨e, 0, s⟩).new_pr
            (run_simplifier x (if p.m_pre_simplifier = true then run_pre_simplifier x e s
              else ⟨e, 0, s⟩).new_n (set_eliminate_and false (if p.m_pre_simplifier = true then
                run_pre_simplifier x e s else ⟨e, 0, s⟩).s)).new_pr)
        else (run_simplifier x (if p.m_pre_simplifier = true then run_pre_simplifier x e s
            else ⟨e, 0, s⟩).new_n (set_eliminate_and false (if p.m_pre_simplifier = true then
              run_pre_simplifier x e s else ⟨e, 0, s⟩).s)).new_pr)
        _ (hq.1.inv hi)
      obtain ⟨⟨q1, q2, q3, q4⟩, q5⟩ := hq
      rw [q3] at g2 g3 g4 h3
      rw [q1] at g3
      rw [q2] at g4
      refine ⟨⟨g1, g2, g3, g4⟩, h2.trans q4, h3, ?_, fun h => absurd h hinc⟩
      intro hf hk
      exact h4 hf (Quiet.keeps_K ⟨⟨q1, q2, q3, q4⟩, q5⟩ hk)

theorem assert_expr1_spec (x : externals) (p : smt_params) (e : expr) (s : store)
    (hi : Inv x s) :
    Grow x s (assert_expr1 x p e s) ∧
    (assert_expr1 x p e s).m_scopes = s.m_scopes ∧
    (assert_expr1 x p e s).m_asserted_qhead = s.m_asserted_qhead ∧
    (HFlat x → K x s → K x (assert_expr1 x p e s)) ∧
    (s.m_inconsistent = true → assert_expr1 x p e s = s) := by
  unfold assert_expr1
  split
  · exact ⟨⟨hi, le_refl _, rfl, rfl⟩, rfl, rfl, fun _ hk => hk, fun _ => rfl⟩
  · exact assert_expr_spec x p e _ s hi

theorem usub_le (a b : Nat) (h : b ≤ a) : b + usub a b ≤ a := by
  unfold usub; omega

theorem usub_eq (a b : Nat) (h : b ≤ a) (ha : a < 4294967296) : usub a b = a - b := by
  unfold usub; omega

theorem slots_length {α : Type} (stale : Nat → α) (l : List α) (i n : Nat) :
    (slots stale l i n).length = n := by
  unfold slots; simp

/-- Within the size, a range of slots is a range of elements. -/
theorem slots_eq_drop_take {α : Type} (stale : Nat → α) (l : List α) (i n : Nat)
    (h : i + n ≤ l.length) : slots stale l i n = (l.drop i).take n := by
  apply List.ext_getElem
  · rw [slots_length, List.length_take, List.length_drop]; omega
  · intro k h1 h2
    rw [slots_length] at h1
    unfold slots slot
    rw [List.getElem_map, List.getElem_range, List.getElem_take, List.getElem_drop,
      List.getD_eq_getElem _ _ (by omega)]

theorem shrink_length {α : Type} (stale : Nat → α) (n : Nat) (l : List α) :
    (shrink stale n l).length = n := slots_length stale l 0 n

/-- Within the size, `shrink(n)` keeps the first `n` elements. -/
theorem shrink_of_le {α : Type} (stale : Nat → α) (n : Nat) (l : List α)
    (h : n ≤ l.length) : shrink stale n l = l.take n := by
  unfold shrink
  rw [slots_eq_drop_take stale l 0 n (by omega), List.drop_zero]

/-- What `commit()` changes: the head, the forbidden marks and the log. -/
theorem commit_eq (x : externals) (s s' : store) (h : commit x s = s') :
    s'.m_asserted_formulas = s.m_asserted_formulas ∧
    s'.m_asserted_formula_prs = s.m_asserted_formula_prs ∧
    s'.m_inconsistent = s.m_inconsistent ∧
    s'.m_scopes = s.m_scopes ∧
    s'.m_asserted_qhead = s.m_asserted_formulas.length := by
  cases h; exact ⟨rfl, rfl, rfl, rfl, rfl⟩

/-- What `push_scope` changes: it records a scope and commits. -/
theorem push_scope_eq (x : externals) (s s' : store) (h : push_scope x s = s') :
    s'.m_asserted_formulas = s.m_asserted_formulas ∧
    s'.m_asserted_formula_prs = s.m_asserted_formula_prs ∧
    s'.m_inconsistent = s.m_inconsistent ∧
    s'.m_scopes = s.m_scopes ++ [⟨s.m_asserted_formulas.length, s.m_inconsistent⟩] ∧
    s'.m_asserted_qhead = s.m_asserted_formulas.length := by
  cases h; exact ⟨rfl, rfl, rfl, rfl, rfl⟩

/-- Whatever record `pop_scope` reads, the store it builds from the record on
a store that satisfies the second invariant of the data model satisfies both:
both vectors get the size that the record holds, and the head is set to it. -/
theorem pop_scope_from_inv (x : externals) (n : Nat) (sc : scope) (s : store) (hi : Inv x s) :
    Inv x (pop_scope_from x n sc s) ∧
    (pop_scope_from x n sc s).m_asserted_qhead
      = (pop_scope_from x n sc s).m_asserted_formulas.length := by
  have a1 : (pop_scope_from x n sc s).m_asserted_formulas
      = shrink x.stale_expr sc.m_asserted_formulas_lim s.m_asserted_formulas := rfl
  have a2 : (pop_scope_from x n sc s).m_asserted_formula_prs =
      (if x.proofs_enabled then
        shrink x.stale_proof sc.m_asserted_formulas_lim s.m_asserted_formula_prs
       else s.m_asserted_formula_prs) := rfl
  have a3 : (pop_scope_from x n sc s).m_asserted_qhead = sc.m_asserted_formulas_lim := rfl
  refine ⟨?_, by rw [a1, a3, shrink_length]⟩
  cases hp : x.proofs_enabled
  · apply Inv.of_no_proofs hp
    · rw [a1, a3, shrink_length]
    · rw [a2, if_neg (by simp [hp])]; exact hi.no_proofs hp
  · apply Inv.of_proofs hp
    · rw [a1, a3, shrink_length]
    · rw [a1, a2, if_pos hp, shrink_length, shrink_length]

/-- What `pop_scope` changes when it has a result. -/
theorem pop_scope_shrink (x : externals) (n : Nat) (s s' : store) (h : pop_scope x n s = some s') :
    ∃ sc, s.m_scopes.get? (usub s.m_scopes.length n) = some sc ∧
      s' = pop_scope_from x n sc s ∧
      s'.m_asserted_formulas = shrink x.stale_expr sc.m_asserted_formulas_lim s.m_asserted_formulas ∧
      s'.m_asserted_formula_prs =
        (if x.proofs_enabled then
          shrink x.stale_proof sc.m_asserted_formulas_lim s.m_asserted_formula_prs
         else s.m_asserted_formula_prs) ∧
      s'.m_asserted_qhead = sc.m_asserted_formulas_lim ∧
      s'.m_scopes = s.m_scopes.take (usub s.m_scopes.length n) ∧
      s'.m_inconsistent = sc.m_inconsistent_old := by
  unfold pop_scope at h
  split at h
  · cases h
  · rename_i sc hsc
    cases h
    have hlt : usub s.m_scopes.length n < s.m_scopes.length := by
      rw [List.get?_eq_some] at hsc
      exact hsc.1
    refine ⟨sc, hsc, rfl, rfl, rfl, rfl, ?_, rfl⟩
    show shrink x.stale_scope (usub s.m_scopes.length n) s.m_scopes = _
    exact shrink_of_le _ _ _ (le_of_lt hlt)

/-- The call `pop_scope` has a result whenever the scope it names is on the stack. -/
theorem pop_scope_isSome (x : externals) (n : Nat) (s : store) (sc : scope)
    (h1 : s.m_scopes.get? (usub s.m_scopes.length n) = some sc) :
    ∃ s', pop_scope x n s = some s' := by
  unfold pop_scope
  rw [h1]
  exact ⟨_, rfl⟩

/-- What `pop_scope` changes when the size that the scope recorded is within
both vectors. -/
theorem pop_scope_eq (x : externals) (n : Nat) (s s' : store) (sc : scope)
    (h1 : s.m_scopes.get? (usub s.m_scopes.length n) = some sc)
    (h2 : sc.m_asserted_formulas_lim ≤ s.m_asserted_formulas.length)
    (h3 : x.proofs_enabled = true → sc.m_asserted_formulas_lim ≤ s.m_asserted_formula_prs.length)
    (h : pop_scope x n s = some s') :
    s'.m_asserted_formulas = s.m_asserted_formulas.take sc.m_asserted_formulas_lim ∧
    s'.m_asserted_formula_prs =
      (if x.proofs_enabled then s.m_asserted_formula_prs.take sc.m_asserted_formulas_lim
       else s.m_asserted_formula_prs) ∧
    s'.m_asserted_qhead = sc.m_asserted_formulas_lim ∧
    s'.m_scopes = s.m_scopes.take (usub s.m_scopes.length n) ∧
    s'.m_inconsistent = sc.m_inconsistent_old := by
  obtain ⟨sc', g1, _, a1, a2, a3, a4, a5⟩ := pop_scope_shrink x n s s' h
  rw [h1] at g1
  cases g1
  refine ⟨?_, ?_, a3, a4, a5⟩
  · rw [a1, shrink_of_le _ _ _ h2]
  · rw [a2]
    cases hp : x.proofs_enabled
    · rfl
    · rw [if_pos rfl, if_pos rfl, shrink_of_le _ _ _ (h3 hp)]

/-- Every `pop_scope` keeps the invariants 1 and 2 of the data model: both
vectors get the size that the scope recorded, and the head is set to it. -/
theorem pop_scope_inv (x : externals) (n : Nat) (s s' : store) (hi : Inv x s)
    (h : pop_scope x n s = some s') : Inv x s' := by
  obtain ⟨sc, _, hs, _⟩ := pop_scope_shrink x n s s' h
  rw [hs]
  exact (pop_scope_from_inv x n sc s hi).1

theorem inv_fresh (x : externals) : Inv x store.fresh := by
  unfold Inv store.fresh
  simp

theorem reset_inv (x : externals) (s : store) : Inv x (reset s) := by
  unfold Inv reset
  simp

theorem commit_inv (x : externals) (s : store) (hi : Inv x s) : Inv x (commit x s) := by
  obtain ⟨h1, h2, _, _, h5⟩ := commit_eq x s _ rfl
  unfold Inv at *
  rw [h1, h2, h5]
  exact ⟨le_refl _, hi.2⟩

theorem push_scope_inv (x : externals) (s : store) (hi : Inv x s) : Inv x (push_scope x s) := by
  obtain ⟨h1, h2, _, _, h5⟩ := push_scope_eq x s _ rfl
  unfold Inv at *
  rw [h1, h2, h5]
  exact ⟨le_refl _, hi.2⟩

/-- Every call keeps the invariants 1 and 2 of the data model. -/
theorem step_inv (x : externals) (p : smt_params) (o : op) (s s' : store) (hi : Inv x s)
    (h : step x p o s = some s') : Inv x s' := by
  cases o with
  | init fs => cases h; exact (init_spec x fs s hi).1.1
  | assert_expr e pr => cases h; exact (assert_expr_spec x p e pr s hi).1.1
  | assert_expr1 e => cases h; exact (assert_expr1_spec x p e s hi).1.1
  | reduce fuel => exact (reduce_spec x p fuel s s' h hi).1
  | commit => cases h; exact commit_inv x s hi
  | push_scope => cases h; exact push_scope_inv x s hi
  | pop_scope n => exact pop_scope_inv x n s s' hi h
  | reset => cases h; exact reset_inv x s

theorem run_inv (x : externals) (p : smt_params) (ops : List op) (s s' : store) (hi : Inv x s)
    (h : run x p ops s = some s') : Inv x s' := by
  induction ops generalizing s with
  | nil => cases h; exact hi
  | cons o os ih =>
    unfold run at h
    split at h
    · cases h
    · rename_i s1 hs1
      exact ih s1 (step_inv x p o s s1 hi hs1) h

theorem scopes_ok_base_le {base : Nat} {l : List scope} {q : Nat} (h : scopes_ok base l q) :
    base ≤ q := by
  induction l generalizing base with
  | nil => exact h
  | cons sc rest ih => exact le_trans h.1 (ih h.2)

theorem scopes_ok_mono {base : Nat} {l : List scope} {q q' : Nat} (h : scopes_ok base l q)
    (hq : q ≤ q') : scopes_ok base l q' := by
  induction l generalizing base with
  | nil => exact le_trans h hq
  | cons sc rest ih => exact ⟨h.1, ih h.2⟩

theorem scopes_ok_push {base : Nat} {l : List scope} {q a : Nat} (b : Bool)
    (h : scopes_ok base l q) (hq : q ≤ a) : scopes_ok base (l ++ [⟨a, b⟩]) a := by
  induction l generalizing base with
  | nil => exact ⟨le_trans h hq, le_refl _⟩
  | cons sc rest ih => exact ⟨h.1, ih h.2⟩

theorem scopes_ok_lim_le {base : Nat} {l : List scope} {q : Nat} (h : scopes_ok base l q) :
    ∀ sc ∈ l, base ≤ sc.m_asserted_formulas_lim ∧ sc.m_asserted_formulas_lim ≤ q := by
  induction l generalizing base with
  | nil => intro sc hsc; cases hsc
  | cons a rest ih =>
    intro sc hsc
    rcases List.mem_cons.mp hsc with rfl | hm
    · exact ⟨h.1, scopes_ok_base_le h.2⟩
    · exact ⟨le_trans h.1 (ih h.2 sc hm).1, (ih h.2 sc hm).2⟩

theorem scopes_ok_pop {base : Nat} {l : List scope} {q j : Nat} {sc : scope}
    (h : scopes_ok base l q) (hj : l.get? j = some sc) :
    scopes_ok base (l.take j) sc.m_asserted_formulas_lim ∧
    sc.m_asserted_formulas_lim ≤ q := by
  induction l generalizing base j with
  | nil => simp at hj
  | cons a rest ih =>
    cases j with
    | zero =>
      simp only [List.get?_cons_zero, Option.some.injEq] at hj
      subst hj
      exact ⟨h.1, scopes_ok_base_le h.2⟩
    | succ j =>
      simp only [List.get?_cons_succ] at hj
      obtain ⟨h1, h2⟩ := ih h.2 hj
      exact ⟨⟨h.1, h1⟩, h2⟩

theorem take_of_take_eq {α : Type} {l l' : List α} {q b : Nat} (h : l'.take q = l.take q)
    (hb : b ≤ q) : l'.take b = l.take b := by
  have h1 : (l'.take q).take b = (l.take q).take b := by rw [h]
  rw [List.take_take, List.take_take, Nat.min_eq_left hb] at h1
  exact h1

/-- A call that grows the store and leaves the scope stack alone keeps the scoped shape. -/
theorem grow_scoped {x : externals} {s s' : store} {outer inner : List scope} {base : Nat}
    (hsc : s.m_scopes = outer ++ inner) (hok : scopes_ok base inner s.m_asserted_qhead)
    (hg : Grow x s s') (hs : s'.m_scopes = s.m_scopes) :
    Inv x s' ∧ ∃ inner', s'.m_scopes = outer ++ inner' ∧ inner'.length = inner.length ∧
      scopes_ok base inner' s'.m_asserted_qhead ∧
      s'.m_asserted_formulas.take base = s.m_asserted_formulas.take base ∧
      s'.m_asserted_formula_prs.take base = s.m_asserted_formula_prs.take base := by
  obtain ⟨g1, g2, g3, g4⟩ := hg
  have hb := scopes_ok_base_le hok
  exact ⟨g1, inner, hs.trans hsc, rfl, scopes_ok_mono hok g2, take_of_take_eq g3 hb,
    take_of_take_eq g4 hb⟩

/-- What `pop_scope` changes on a store that satisfies the invariants and
whose scopes recorded ascending sizes: the size it restores is within both
vectors, which it cuts back to it. -/
theorem pop_scope_ok (x : externals) (n : Nat) (s s' : store) {base : Nat} (hi : Inv x s)
    (hok : scopes_ok base s.m_scopes s.m_asserted_qhead) (h : pop_scope x n s = some s') :
    ∃ sc, s.m_scopes.get? (usub s.m_scopes.length n) = some sc ∧
      sc.m_asserted_formulas_lim ≤ s.m_asserted_formulas.length ∧
      (x.proofs_enabled = true → sc.m_asserted_formulas_lim ≤ s.m_asserted_formula_prs.length) ∧
      s'.m_asserted_formulas = s.m_asserted_formulas.take sc.m_asserted_formulas_lim ∧
      s'.m_asserted_formula_prs =
        (if x.proofs_enabled then s.m_asserted_formula_prs.take sc.m_asserted_formulas_lim
         else s.m_asserted_formula_prs) ∧
      s'.m_asserted_qhead = sc.m_asserted_formulas_lim ∧
      s'.m_scopes = s.m_scopes.take (usub s.m_scopes.length n) ∧
      s'.m_inconsistent = sc.m_inconsistent_old := by
  obtain ⟨sc, g1, _⟩ := pop_scope_shrink x n s s' h
  have k2 := (scopes_ok_pop hok g1).2
  have h2 := k2.trans hi.1
  have h3 : x.proofs_enabled = true →
      sc.m_asserted_formulas_lim ≤ s.m_asserted_formula_prs.length :=
    fun hp => by rw [hi.proofs hp]; exact h2
  obtain ⟨g4, g5, g6, g7, g8⟩ := pop_scope_eq x n s s' sc g1 h2 h3 h
  exact ⟨sc, g1, h2, h3, g4, g5, g6, g7, g8⟩

theorem frame_grow {x : externals} {s s' : store} (hi : Inv x s') (hf : Frame s s') :
    Grow x s s' :=
  ⟨hi, le_of_eq hf.1.symm, hf.2.2.1, hf.2.2.2⟩

/-- Every call of a scoped run keeps the invariants, the scopes below the run,
and the formulas and proofs below the base. -/
theorem step_scoped (x : externals) (p : smt_params) (outer inner : List scope) (base d' : Nat)
    (o : op) (s s' : store) (hi : Inv x s) (hsc : s.m_scopes = outer ++ inner)
    (hok : scopes_ok base inner s.m_asserted_qhead) (hlen : s.m_scopes.length < 4294967296)
    (hd : o.depth_after inner.length = some d') (h : step x p o s = some s') :
    Inv x s' ∧ ∃ inner', s'.m_scopes = outer ++ inner' ∧ inner'.length = d' ∧
      scopes_ok base inner' s'.m_asserted_qhead ∧
      s'.m_asserted_formulas.take base = s.m_asserted_formulas.take base ∧
      s'.m_asserted_formula_prs.take base = s.m_asserted_formula_prs.take base := by
  have hb := scopes_ok_base_le hok
  cases o with
  | init fs => simp [op.depth_after] at hd
  | reset => simp [op.depth_after] at hd
  | assert_expr e pr =>
    simp only [op.depth_after, Option.some.injEq] at hd
    cases h; subst hd
    obtain ⟨g, hs, _⟩ := assert_expr_spec x p e pr s hi
    exact grow_scoped hsc hok g hs
  | assert_expr1 e =>
    simp only [op.depth_after, Option.some.injEq] at hd
    cases h; subst hd
    obtain ⟨g, hs, _⟩ := assert_expr1_spec x p e s hi
    exact grow_scoped hsc hok g hs
  | reduce fuel =>
    simp only [op.depth_after, Option.some.injEq] at hd
    subst hd
    obtain ⟨i1, f1, _⟩ := reduce_spec x p fuel s s' h hi
    exact grow_scoped hsc hok (frame_grow i1 f1) f1.2.1
  | commit =>
    simp only [op.depth_after, Option.some.injEq] at hd
    subst hd
    cases h
    obtain ⟨h1, h2, _, h4, h5⟩ := commit_eq x s _ rfl
    refine ⟨commit_inv x s hi, inner, h4.trans hsc, rfl, ?_, by rw [h1], by rw [h2]⟩
    rw [h5]; exact scopes_ok_mono hok hi.1
  | push_scope =>
    simp only [op.depth_after, Option.some.injEq] at hd
    subst hd
    cases h
    obtain ⟨h1, h2, _, h4, h5⟩ := push_scope_eq x s _ rfl
    refine ⟨push_scope_inv x s hi, inner ++ [⟨s.m_asserted_formulas.length, s.m_inconsistent⟩],
      ?_, by simp, ?_, by rw [h1], by rw [h2]⟩
    · rw [h4, hsc, List.append_assoc]
    · rw [h5]; exact scopes_ok_push _ hok hi.1
  | pop_scope n =>
    simp only [op.depth_after] at hd
    split at hd
    · rename_i hn
      simp only [Option.some.injEq] at hd
      subst hd
      obtain ⟨sc, g0, _⟩ := pop_scope_shrink x n s s' h
      have hl : s.m_scopes.length = outer.length + inner.length := by rw [hsc]; simp
      have hu : usub s.m_scopes.length n = outer.length + (inner.length - n) := by
        rw [usub_eq _ _ (by omega) hlen]; omega
      have g1 := g0
      rw [hu] at g1
      have hget : inner.get? (inner.length - n) = some sc := by
        rw [hsc, List.get?_eq_getElem?, List.getElem?_append_right (by omega)] at g1
        rw [List.get?_eq_getElem?]
        simpa using g1
      obtain ⟨k1, k2⟩ := scopes_ok_pop hok hget
      have hbl := scopes_ok_base_le k1
      obtain ⟨g4, g5, g6, g7, _⟩ := pop_scope_eq x n s s' sc g0 (k2.trans hi.1)
        (fun hp => by rw [hi.proofs hp]; exact k2.trans hi.1) h
      rw [hu] at g7
      refine ⟨pop_scope_inv x n s s' hi h, inner.take (inner.length - n), ?_, ?_, ?_, ?_, ?_⟩
      · rw [g7, hsc, List.take_append]
      · rw [List.length_take]; omega
      · rw [g6]; exact k1
      · rw [g4, List.take_take, Nat.min_eq_left hbl]
      · rw [g5]
        split
        · rw [List.take_take, Nat.min_eq_left hbl]
        · rfl
    · cases hd

theorem depth_after_le (o : op) (d d' : Nat) (h : o.depth_after d = some d') : d' ≤ d + 1 := by
  cases o <;> simp only [op.depth_after, Option.some.injEq] at h
  · cases h
  · omega
  · omega
  · omega
  · omega
  · omega
  · split at h
    · simp only [Option.some.injEq] at h; omega
    · cases h
  · cases h

/-- A scoped run keeps the invariants, the scopes below the run, and the
formulas and proofs below the base. -/
theorem run_scoped (x : externals) (p : smt_params) (outer : List scope) (base : Nat)
    (ops : List op) (d : Nat) (s s' : store) (inner : List scope) (hi : Inv x s)
    (hsc : s.m_scopes = outer ++ inner) (hok : scopes_ok base inner s.m_asserted_qhead)
    (hlen : s.m_scopes.length + ops.length < 4294967296)
    (hd : depth_after inner.length ops = some d) (h : run x p ops s = some s') :
    Inv x s' ∧ ∃ inner', s'.m_scopes = outer ++ inner' ∧ inner'.length = d ∧
      scopes_ok base inner' s'.m_asserted_qhead ∧
      s'.m_asserted_formulas.take base = s.m_asserted_formulas.take base ∧
      s'.m_asserted_formula_prs.take base = s.m_asserted_formula_prs.take base := by
  induction ops generalizing s inner with
  | nil =>
    simp only [depth_after, Option.some.injEq] at hd
    cases h
    exact ⟨hi, inner, hsc, hd, hok, rfl, rfl⟩
  | cons o os ih =>
    unfold depth_after at hd
    unfold run at h
    split at hd
    · cases hd
    · rename_i d1 hd1
      split at h
      · cases h
      · rename_i s1 hs1
        simp only [List.length_cons] at hlen
        obtain ⟨i1, inner1, c1, c2, c3, c4, c5⟩ := step_scoped x p outer inner base d1 o s s1 hi
          hsc hok (by omega) hd1 hs1
        have hle := depth_after_le o _ _ hd1
        have hl : s.m_scopes.length = outer.length + inner.length := by rw [hsc]; simp
        have hl1 : s1.m_scopes.length = outer.length + inner1.length := by rw [c1]; simp
        obtain ⟨i2, inner2, e1, e2, e3, e4, e5⟩ := ih s1 inner1 i1 c1 c3 (by omega)
          (by rw [c2]; exact hd) h
        exact ⟨i2, inner2, e1, e2, e3, e4.trans c4, e5.trans c5⟩

/-- Popping the scope that `push_scope` opened, after a scoped run that closed
every scope it opened, restores the vectors, the flag and the scope stack. -/
theorem rollback (x : externals) (p : smt_params) (ops : List op) (s0 s1 : store)
    (hi : Inv x s0) (hb : depth_after 0 ops = some 0)
    (hlen : s0.m_scopes.length + ops.length + 1 < 4294967296)
    (h : run x p (op.push_scope :: ops) s0 = some s1) :
    ∃ s', pop_scope x 1 s1 = some s' ∧
      s'.m_asserted_formulas = s0.m_asserted_formulas ∧
      s'.m_asserted_formula_prs = s0.m_asserted_formula_prs ∧
      s'.m_inconsistent = s0.m_inconsistent ∧
      s'.m_scopes = s0.m_scopes ∧
      s'.m_asserted_qhead = s0.m_asserted_formulas.length := by
  unfold run at h
  simp only [step] at h
  obtain ⟨sp, hsp⟩ : ∃ sp, push_scope x s0 = sp := ⟨_, rfl⟩
  rw [hsp] at h
  · obtain ⟨p1, p2, p3, p4, p5⟩ := push_scope_eq x s0 sp hsp
    have hip : Inv x sp := hsp ▸ push_scope_inv x s0 hi
    have hlp : sp.m_scopes.length = s0.m_scopes.length + 1 := by rw [p4]; simp
    obtain ⟨i1, inner, c1, c2, c3, c4, c5⟩ := run_scoped x p
      (s0.m_scopes ++ [⟨s0.m_asserted_formulas.length, s0.m_inconsistent⟩])
      s0.m_asserted_formulas.length ops 0 sp s1 [] hip (by rw [p4]; simp)
      (by simp only [scopes_ok]; rw [p5]) (by omega) hb h
    have hin : inner = [] := List.length_eq_zero.mp c2
    subst hin
    simp only [List.append_nil] at c1
    rw [p1, List.take_length] at c4
    rw [p2] at c5
    have hq1 := (scopes_ok_base_le c3).trans i1.1
    have hl1 : s1.m_scopes.length = s0.m_scopes.length + 1 := by rw [c1]; simp
    have hget : s1.m_scopes.get? (usub s1.m_scopes.length 1)
        = some ⟨s0.m_asserted_formulas.length, s0.m_inconsistent⟩ := by
      rw [usub_eq _ _ (by omega) (by omega), hl1, c1, List.get?_eq_getElem?,
        List.getElem?_append_right (by omega)]
      simp
    have hpl : x.proofs_enabled = true →
        s0.m_asserted_formulas.length ≤ s1.m_asserted_formula_prs.length := by
      intro hp; rw [i1.proofs hp]; exact hq1
    obtain ⟨s', hs'⟩ := pop_scope_isSome x 1 s1 _ hget
    obtain ⟨g4, g5, g6, g7, g8⟩ := pop_scope_eq x 1 s1 s' _ hget hq1 hpl hs'
    refine ⟨s', hs', by rw [g4]; exact c4, ?_, g8, ?_, g6⟩
    · rw [g5]
      cases hp : x.proofs_enabled
      · rw [if_neg (by simp), i1.no_proofs hp, hi.no_proofs hp]
      · rw [if_pos rfl]
        dsimp only
        rw [c5, List.take_of_length_le (by rw [hi.proofs hp])]
    · rw [g7, usub_eq _ _ (by omega) (by omega), hl1, c1]
      simp

theorem mem_of_get? {α : Type} {l : List α} {j : Nat} {a : α} (h : l.get? j = some a) :
    a ∈ l := by
  exact List.get?_mem h

/-- Every call of a scoped run keeps `K` and `KS`, when the collaborators keep
the literal false and cancellation is never signalled. -/
theorem step_K (x : externals) (p : smt_params) (hf : HFlat x) (hs : HSimp x) (hc : NoCancel x)
    (d' : Nat) (o : op) (s s' : store) (hi : Inv x s)
    (hok : scopes_ok 0 s.m_scopes s.m_asserted_qhead)
    (hd : o.depth_after s.m_scopes.length = some d') (hk : K x s) (hks : KS x s)
    (h : step x p o s = some s') : K x s' ∧ KS x s' := by
  have hlim := scopes_ok_lim_le hok
  have grow : ∀ t : store, Grow x s t → t.m_scopes = s.m_scopes → KS x t := by
    intro t hg ht sc hsc hold
    rw [ht] at hsc
    rw [take_of_take_eq hg.2.2.1 (hlim sc hsc).2]
    exact hks sc hsc hold
  cases o with
  | init fs => simp [op.depth_after] at hd
  | reset => simp [op.depth_after] at hd
  | assert_expr e pr =>
    cases h
    obtain ⟨g, h2, _, h4, _⟩ := assert_expr_spec x p e pr s hi
    exact ⟨h4 hf hk, grow _ g h2⟩
  | assert_expr1 e =>
    cases h
    obtain ⟨g, h2, _, h4, _⟩ := assert_expr1_spec x p e s hi
    exact ⟨h4 hf hk, grow _ g h2⟩
  | reduce fuel =>
    obtain ⟨i1, f1, k1⟩ := reduce_spec x p fuel s s' h hi
    exact ⟨k1 hf hs hc hk, grow _ (frame_grow i1 f1) f1.2.1⟩
  | commit =>
    obtain ⟨h1, _, h3, h4, _⟩ := commit_eq x s s' (Option.some.inj h)
    refine ⟨fun hinc => ?_, fun sc hsc hold => ?_⟩
    · rw [h1]; rw [h3] at hinc; exact hk hinc
    · rw [h1]; rw [h4] at hsc; exact hks sc hsc hold
  | push_scope =>
    obtain ⟨h1, _, h3, h4, _⟩ := push_scope_eq x s s' (Option.some.inj h)
    refine ⟨fun hinc => ?_, fun sc hsc hold => ?_⟩
    · rw [h1]; rw [h3] at hinc; exact hk hinc
    · rw [h1]
      rw [h4, List.mem_append, List.mem_singleton] at hsc
      rcases hsc with hsc | rfl
      · exact hks sc hsc hold
      · simp only [List.take_length]
        exact hk hold
  | pop_scope n =>
    simp only [op.depth_after] at hd
    split at hd
    · rename_i hn
      obtain ⟨sc, g1, _, _, g4, _, _, g7, g8⟩ := pop_scope_ok x n s s' hi hok h
      obtain ⟨k1, _⟩ := scopes_ok_pop hok g1
      have hsc := mem_of_get? g1
      refine ⟨fun hinc => ?_, fun sc' hsc' hold => ?_⟩
      · rw [g8] at hinc
        rw [g4]
        exact hks sc hsc hinc
      · rw [g7] at hsc'
        have hle := (scopes_ok_lim_le k1 sc' hsc').2
        rw [g4, List.take_take, Nat.min_eq_left hle]
        exact hks sc' (List.mem_of_mem_take hsc') hold
    · cases hd

/-- In a scoped run from the fresh store, an inconsistent store holds the literal false. -/
theorem run_K (x : externals) (p : smt_params) (hf : HFlat x) (hs : HSimp x) (hc : NoCancel x)
    (ops : List op) (d : Nat) (s s' : store) (hi : Inv x s)
    (hok : scopes_ok 0 s.m_scopes s.m_asserted_qhead)
    (hlen : s.m_scopes.length + ops.length < 4294967296)
    (hd : depth_after s.m_scopes.length ops = some d) (hk : K x s) (hks : KS x s)
    (h : run x p ops s = some s') : Inv x s' ∧ K x s' := by
  induction ops generalizing s with
  | nil => cases h; exact ⟨hi, hk⟩
  | cons o os ih =>
    unfold depth_after at hd
    unfold run at h
    split at hd
    · cases hd
    · rename_i d1 hd1
      split at h
      · cases h
      · rename_i s1 hs1
        simp only [List.length_cons] at hlen
        obtain ⟨i1, inner1, c1, c2, c3, _, _⟩ := step_scoped x p [] s.m_scopes 0 d1 o s s1 hi
          (by simp) hok (by omega) hd1 hs1
        simp only [List.nil_append] at c1
        obtain ⟨k1, k2⟩ := step_K x p hf hs hc d1 o s s1 hi hok hd1 hk hks hs1
        have hle := depth_after_le o _ _ hd1
        rw [← c1] at c2 c3
        exact ih s1 i1 c3 (by omega) (by rw [c2]; exact hd) k1 k2 h

theorem get_inconsistency_proof_loop_isSome (x : externals) (fs : List expr) (prs : List proof)
    (hm : x.mk_false ∈ fs) (hl : fs.length ≤ prs.length) :
    ∃ pr, get_inconsistency_proof_loop x fs prs = some pr := by
  induction fs generalizing prs with
  | nil => cases hm
  | cons f fs ih =>
    unfold get_inconsistency_proof_loop
    split
    · cases prs with
      | nil => simp at hl
      | cons q qs => exact ⟨q, rfl⟩
    · rename_i hne
      rcases List.mem_cons.mp hm with h | h
      · exact absurd h.symm hne
      · apply ih _ h
        cases prs with
        | nil => simp at hl
        | cons q qs => simpa using hl

theorem push_assertion_accJ {x : externals} (ho : HFlatOnly x) (e : expr) (pr : proof) (a : acc)
    (h : AccJ x a) : AccJ x (push_assertion x e pr a) := by
  cases hi : a.s.m_inconsistent
  · rw [push_assertion_of_consistent e pr hi]
    intro hinc
    by_cases he : e = x.mk_false
    · simp [he] at hinc
    · simp only [List.mem_append, not_or]
      exact ⟨h hi, fun hm => he (ho e pr hm)⟩
  · rw [push_assertion_of_inconsistent e pr hi]; exact h

theorem reduce_asserted_formulas_body_accJ {x : externals} (ho : HFlatOnly x) (i : Nat) (a : acc)
    (h : AccJ x a) : AccJ x (reduce_asserted_formulas_body x i a) := by
  unfold reduce_asserted_formulas_body
  split
  · exact h
  · dsimp only
    have h1 : AccJ x ⟨(run_simplifier x (formula_at a.s i) a.s).s, a.new_exprs, a.new_prs,
        a.ret, a.changed⟩ := h
    split
    · exact push_assertion_accJ ho _ _ _ h1
    · exact push_assertion_accJ ho _ _ _ h1

/-- Without cancellation, a `reduce_asserted_formulas` that starts and ends
consistent leaves no literal false in the store if the committed prefix had none. -/
theorem reduce_asserted_formulas_J (x : externals) (ho : HFlatOnly x) (hc : NoCancel x)
    (s : store) (h0 : s.m_inconsistent = false)
    (hpre : x.mk_false ∉ s.m_asserted_formulas.take s.m_asserted_qhead)
    (h1 : (reduce_asserted_formulas x s).m_inconsistent = false) :
    x.mk_false ∉ (reduce_asserted_formulas x s).m_asserted_formulas := by
  unfold reduce_asserted_formulas at h1 ⊢
  rw [if_neg (by simp [h0])] at h1 ⊢
  dsimp only at h1 ⊢
  have hl := for_range_inv (fun a => AccInvR x s a ∧ AccJ x a) s.m_asserted_qhead
    s.m_asserted_formulas.length (reduce_asserted_formulas_body x) (acc.start s)
    ⟨AccInvR.start_accR s, fun _ hm => by simp [acc.start] at hm⟩
    (fun i a _ _ h => ⟨reduce_asserted_formulas_body_inv i a h.1,
      reduce_asserted_formulas_body_accJ ho i a h.2⟩)
  obtain ⟨⟨⟨⟨e1, e2, e3, e4⟩, _, _⟩, hret⟩, hj⟩ := hl
  rw [if_neg (by simp [hret hc])] at h1 ⊢
  rw [swap_asserted_formulas_inconsistent] at h1
  rw [swap_asserted_formulas_formulas, e1, e3, List.mem_append, not_or]
  exact ⟨hpre, hj h1⟩

/-- Without cancellation, `reduce` keeps `J`. -/
theorem reduce_J (x : externals) (p : smt_params) (ho : HFlatOnly x) (hc : NoCancel x)
    (fuel : Nat) (s s' : store) (hi : Inv x s) (hj : J x s)
    (h : reduce x p fuel s = some s') : J x s' := by
  have hsame : ∀ t : store, Quiet s t → J x t := by
    intro t ht hm
    rw [ht.1.1] at hm
    rw [ht.2]; exact hj hm
  unfold reduce at h
  split at h
  · cases h; exact hj
  · rename_i hinc
    have hinc0 : s.m_inconsistent = false := by simpa using hinc
    have hq0 := quiet_canceled x s
    split at h
    · cases h; exact hsame _ hq0
    · dsimp only at h
      split at h
      · cases h; exact hsame _ hq0
      · split at h
        · cases h; exact hsame _ hq0
        · have hF1 : Full x s (set_eliminate_and false
              (if (canceled x s).2.m_macro_manager.has_macros = true then
                expand_macros x (log_pass pass_id.expand_macros (canceled x s).2)
              else (canceled x s).2)) := by
            apply Full.then_quiet _ (quiet_set_eliminate_and false _)
            split
            · exact Full.after_quiet (hq0.trans_q (quiet_log_pass _ _))
                (find_macros_core_full x _)
            · exact Full.of_quiet hq0
          obtain ⟨i1, f1, _⟩ := hF1 hi
          have htab := invoke_table_full x p fuel
          split at h
          · cases h
          · rename_i s2 hrun
            cases h
            obtain ⟨_, _, _, _, c2⟩ := run_invokes_spec _ htab _ _ _ hrun i1
            intro _
            exact c2 hc rfl
          · rename_i s2 hrun
            cases h
            obtain ⟨i2, f2, _⟩ := run_invokes_spec _ htab _ _ _ hrun i1
            have hq2 := quiet_log_pass pass_id.reduce_asserted_formulas s2
            have hq3 := quiet_flush_cache (reduce_asserted_formulas x
              (log_pass pass_id.reduce_asserted_formulas s2))
            have hfr := (f1.trans_f f2).trans_f hq2.1.frame
            intro hm
            rw [hq3.2]
            rw [hq3.1.1] at hm
            cases h2 : (log_pass pass_id.reduce_asserted_formulas s2).m_inconsistent
            · cases h3 : (reduce_asserted_formulas x
                (log_pass pass_id.reduce_asserted_formulas s2)).m_inconsistent
              · exfalso
                refine reduce_asserted_formulas_J x ho hc _ h2 ?_ h3 hm
                rw [hfr.1, hfr.2.2.1]
                intro hmem
                have := hj (List.mem_of_mem_take hmem)
                rw [hinc0] at this; cases this
              · rfl
            · unfold reduce_asserted_formulas
              rw [if_pos h2]; exact h2

theorem push_assertion_store_J (x : externals) (ho : HFlatOnly x) (e : expr) (pr : proof)
    (s : store) (hj : J x s) : J x (push_assertion_store x e pr s) := by
  unfold push_assertion_store
  dsimp only
  cases hinc : s.m_inconsistent
  · rw [push_assertion_of_consistent e pr (by exact hinc)]
    dsimp only
    intro hm
    rw [List.mem_append] at hm
    rcases hm with hm | hm
    · have := hj hm; rw [hinc] at this; cases this
    · have he := ho e pr hm
      rw [if_pos he]
  · rw [push_assertion_of_inconsistent e pr (by exact hinc)]
    intro _; exact hinc

theorem assert_expr_J (x : externals) (p : smt_params) (ho : HFlatOnly x) (e : expr) (pr : proof)
    (s : store) (hj : J x s) : J x (assert_expr x p e pr s) := by
  unfold assert_expr
  split
  · exact hj
  · split
    · exact push_assertion_store_J x ho e pr s hj
    · dsimp only
      apply push_assertion_store_J x ho
      have hq1 : Quiet s (if p.m_pre_simplifier = true then run_pre_simplifier x e s
          else ⟨e, 0, s⟩).s := by
        split
        · exact quiet_run_pre_simplifier x e s
        · exact Quiet.refl_q s
      have hq := (hq1.trans_q (quiet_set_eliminate_and false _)).trans_q
        (quiet_run_simplifier x (if p.m_pre_simplifier = true then run_pre_simplifier x e s
          else ⟨e, 0, s⟩).new_n _)
      intro hm
      rw [hq.1.1] at hm
      rw [hq.2]; exact hj hm

theorem assert_expr1_J (x : externals) (p : smt_params) (ho : HFlatOnly x) (e : expr)
    (s : store) (hj : J x s) : J x (assert_expr1 x p e s) := by
  unfold assert_expr1
  split
  · exact hj
  · exact assert_expr_J x p ho e _ s hj

/-- Every call of a scoped run keeps `J` and `JS`, when the free
`::push_assertion` stores the literal false only for the literal false and
cancellation is never signalled. -/
theorem step_J (x : externals) (p : smt_params) (ho : HFlatOnly x) (hc : NoCancel x)
    (d' : Nat) (o : op) (s s' : store) (hi : Inv x s)
    (hok : scopes_ok 0 s.m_scopes s.m_asserted_qhead)
    (hd : o.depth_after s.m_scopes.length = some d') (hj : J x s) (hjs : JS x s)
    (h : step x p o s = some s') : J x s' ∧ JS x s' := by
  have hlim := scopes_ok_lim_le hok
  have grow : ∀ t : store, Grow x s t → t.m_scopes = s.m_scopes → JS x t := by
    intro t hg ht sc hsc hold
    rw [ht] at hsc
    rw [take_of_take_eq hg.2.2.1 (hlim sc hsc).2]
    exact hjs sc hsc hold
  cases o with
  | init fs => simp [op.depth_after] at hd
  | reset => simp [op.depth_after] at hd
  | assert_expr e pr =>
    cases h
    obtain ⟨g, h2, _⟩ := assert_expr_spec x p e pr s hi
    exact ⟨assert_expr_J x p ho e pr s hj, grow _ g h2⟩
  | assert_expr1 e =>
    cases h
    obtain ⟨g, h2, _⟩ := assert_expr1_spec x p e s hi
    exact ⟨assert_expr1_J x p ho e s hj, grow _ g h2⟩
  | reduce fuel =>
    obtain ⟨i1, f1, _⟩ := reduce_spec x p fuel s s' h hi
    exact ⟨reduce_J x p ho hc fuel s s' hi hj h, grow _ (frame_grow i1 f1) f1.2.1⟩
  | commit =>
    obtain ⟨h1, _, h3, h4, _⟩ := commit_eq x s s' (Option.some.inj h)
    refine ⟨fun hm => ?_, fun sc hsc hold => ?_⟩
    · rw [h3]; rw [h1] at hm; exact hj hm
    · rw [h1]; rw [h4] at hsc; exact hjs sc hsc hold
  | push_scope =>
    obtain ⟨h1, _, h3, h4, _⟩ := push_scope_eq x s s' (Option.some.inj h)
    refine ⟨fun hm => ?_, fun sc hsc hold => ?_⟩
    · rw [h3]; rw [h1] at hm; exact hj hm
    · rw [h1]
      rw [h4, List.mem_append, List.mem_singleton] at hsc
      rcases hsc with hsc | rfl
      · exact hjs sc hsc hold
      · simp only [List.take_length]
        intro hm
        have := hj hm
        simp only at hold
        rw [hold] at this; cases this
  | pop_scope n =>
    simp only [op.depth_after] at hd
    split at hd
    · obtain ⟨sc, g1, _, _, g4, _, _, g7, g8⟩ := pop_scope_ok x n s s' hi hok h
      obtain ⟨k1, _⟩ := scopes_ok_pop hok g1
      have hsc := mem_of_get? g1
      refine ⟨fun hm => ?_, fun sc' hsc' hold => ?_⟩
      · rw [g8]
        rw [g4] at hm
        cases hold : sc.m_inconsistent_old
        · exact absurd hm (hjs sc hsc hold)
        · rfl
      · rw [g7] at hsc'
        have hle := (scopes_ok_lim_le k1 sc' hsc').2
        rw [g4, List.take_take, Nat.min_eq_left hle]
        exact hjs sc' (List.mem_of_mem_take hsc') hold
    · cases hd

/-- In a scoped run, a store that holds the literal false is inconsistent. -/
theorem run_J (x : externals) (p : smt_params) (ho : HFlatOnly x) (hc : NoCancel x)
    (ops : List op) (d : Nat) (s s' : store) (hi : Inv x s)
    (hok : scopes_ok 0 s.m_scopes s.m_asserted_qhead)
    (hlen : s.m_scopes.length + ops.length < 4294967296)
    (hd : depth_after s.m_scopes.length ops = some d) (hj : J x s) (hjs : JS x s)
    (h : run x p ops s = some s') : J x s' := by
  induction ops generalizing s with
  | nil => cases h; exact hj
  | cons o os ih =>
    unfold depth_after at hd
    unfold run at h
    split at hd
    · cases hd
    · rename_i d1 hd1
      split at h
      · cases h
      · rename_i s1 hs1
        simp only [List.length_cons] at hlen
        obtain ⟨i1, inner1, c1, c2, c3, _, _⟩ := step_scoped x p [] s.m_scopes 0 d1 o s s1 hi
          (by simp) hok (by omega) hd1 hs1
        simp only [List.nil_append] at c1
        obtain ⟨k1, k2⟩ := step_J x p ho hc d1 o s s1 hi hok hd1 hj hjs hs1
        have hle := depth_after_le o _ _ hd1
        rw [← c1] at c2 c3
        exact ih s1 i1 c3 (by omega) (by rw [c2]; exact hd) k1 k2 h

/-- On a consistent store `push_assertion` appends what the free function
`::push_assertion` emits and raises the flag exactly for the literal false. -/
theorem push_assertion_store_eq (x : externals) (e : expr) (pr : proof) (s : store)
    (hinc : s.m_inconsistent = false) :
    push_assertion_store x e pr s =
      { s with
        m_asserted_formulas := s.m_asserted_formulas ++ (x.flatten e pr).map Prod.fst
        m_asserted_formula_prs :=
          if x.proofs_enabled then s.m_asserted_formula_prs ++ (x.flatten e pr).map Prod.snd
          else s.m_asserted_formula_prs
        m_inconsistent := decide (e = x.mk_false) } := by
  unfold push_assertion_store
  dsimp only
  rw [push_assertion_of_consistent e pr (by exact hinc)]
  dsimp only
  by_cases he : e = x.mk_false
  · rw [if_pos he]; simp [he]
  · rw [if_neg he]
    cases s
    simp only [he, decide_False] at hinc ⊢
    cases hinc; rfl

/-- With preprocessing on, `assert_expr` on a consistent store hands the local
`r2` to `push_assertion`, on a store whose vectors, head, scopes and flag are
those of the start. -/
theorem assert_expr_preprocess (x : externals) (p : smt_params) (e : expr) (pr : proof)
    (s : store) (hinc : s.m_inconsistent = false) (hp : p.m_preprocess = true) :
    ∃ pr2 s2, Quiet s s2 ∧
      assert_expr x p e pr s = push_assertion_store x (assert_expr_r2 x p e s) pr2 s2 := by
  unfold assert_expr assert_expr_r2
  rw [if_neg (by simp [hinc]), if_neg (by simp [hp])]
  dsimp only
  refine ⟨_, _, ?_, rfl⟩
  refine Quiet.trans_q ?_ (quiet_run_simplifier x _ _)
  refine Quiet.trans_q ?_ (quiet_set_eliminate_and false _)
  split
  · exact quiet_run_pre_simplifier x e s
  · exact Quiet.refl_q s

theorem mark_forbidden_nil (mm : macro_manager) : mm.mark_forbidden [] = mm := by
  unfold macro_manager.mark_forbidden
  cases mm
  simp

theorem usub_self (a : Nat) : usub a a = 0 := by
  unfold usub; omega

/-- On a store whose head is within the assertion vector, `commit()` marks
the pending formulas. -/
theorem commit_pending (x : externals) (s : store)
    (hq : s.m_asserted_qhead ≤ s.m_asserted_formulas.length)
    (hsz : s.m_asserted_formulas.length < 4294967296) :
    commit x s = { s with
      m_macro_manager :=
        s.m_macro_manager.mark_forbidden (s.m_asserted_formulas.drop s.m_asserted_qhead)
      m_asserted_qhead := s.m_asserted_formulas.length
      trace := s.trace ++
        [event.mark_forbidden (s.m_asserted_formulas.drop s.m_asserted_qhead)] } := by
  unfold commit commit_to
  dsimp only
  rw [usub_eq _ _ hq hsz, slots_eq_drop_take _ _ _ _ (by omega),
    List.take_of_length_le (by simp)]

/-- With the head at the end of the assertion vector, `commit()` marks nothing. -/
theorem commit_nothing (x : externals) (s : store)
    (hq : s.m_asserted_qhead = s.m_asserted_formulas.length) :
    commit x s = { s with trace := s.trace ++ [event.mark_forbidden []] } := by
  unfold commit commit_to
  dsimp only
  rw [hq, usub_self]
  unfold slots
  simp only [List.range_zero, List.map_nil, mark_forbidden_nil]

/-- The loop of `get_inconsistency_proof` stops at the first literal false and
reads the proof vector at that index. -/
theorem get_inconsistency_proof_loop_least (x : externals) :
    ∀ (es : List expr) (prs : List proof) (i : Nat), es[i]? = some x.mk_false →
      (∀ j, j < i → es[j]? ≠ some x.mk_false) →
      get_inconsistency_proof_loop x es prs = prs[i]? := by
  intro es
  induction es with
  | nil => intro prs i h _; simp at h
  | cons f fs ih =>
    intro prs i h hmin
    unfold get_inconsistency_proof_loop
    cases i with
    | zero =>
      have hf : f = x.mk_false := by simpa using h
      rw [if_pos hf]
      cases prs <;> simp
    | succ k =>
      have hf : f ≠ x.mk_false := by
        intro hf
        exact hmin 0 (Nat.succ_pos k) (by simp [hf])
      rw [if_neg hf]
      rw [ih prs.tail k (by simpa using h)
        (fun j hj => by simpa using hmin (j + 1) (Nat.succ_lt_succ hj))]
      cases prs <;> simp

theorem push_assertion_store_reduce_invoked (x : externals) (e : expr) (pr : proof) (s : store) :
    (push_assertion_store x e pr s).m_reduce_invoked = s.m_reduce_invoked := by
  unfold push_assertion_store push_assertion
  dsimp only
  split
  · rfl
  · dsimp only
    split <;> rfl

theorem has_bv_assert_expr (x : externals) (p : smt_params) (e : expr) (pr : proof) (s : store) :
    has_bv (assert_expr x p e pr s) =
      (has_bv s || (!s.m_inconsistent && p.m_preprocess && assert_expr_bv x p e s)) := by
  unfold has_bv assert_expr assert_expr_bv
  cases hinc : s.m_inconsistent
  · cases hp : p.m_preprocess
    · rw [if_neg (by simp), if_pos (by simp), push_assertion_store_reduce_invoked]
      simp
    · rw [if_neg (by simp), if_neg (by simp)]
      dsimp only
      rw [push_assertion_store_reduce_invoked]
      have hq : ∀ t : store, (set_eliminate_and false t).m_reduce_invoked = t.m_reduce_invoked := by
        intro t
        unfold set_eliminate_and flush_cache
        split <;> rfl
      unfold run_simplifier
      dsimp only
      rw [hq]
      split
      · simp [run_pre_simplifier]
      · simp
  · rw [if_pos rfl]
    simp

theorem has_bv_assert_expr1 (x : externals) (p : smt_params) (e : expr) (s : store) :
    has_bv (assert_expr1 x p e s) =
      (has_bv s || (!s.m_inconsistent && p.m_preprocess && assert_expr_bv x p e s)) := by
  unfold assert_expr1
  cases hinc : s.m_inconsistent
  · rw [if_neg (by simp), has_bv_assert_expr, hinc]
  · rw [if_pos rfl]
    simp

/-- While the first loop of `propagate_values` has accepted no equality, the
cache is as the initial flush left it. -/
theorem propagate_values_scan_cache (x : externals) (i : Nat) (a : pv_acc)
    (h : a.found = false → a.s.m_cache = []) :
    (propagate_values_scan x i a).found = false → (propagate_values_scan x i a).s.m_cache = [] := by
  have hrest : ∀ n pr, (propagate_values_rest x i n pr a).found = a.found ∧
      (propagate_values_rest x i n pr a).s = a.s := by
    intro n pr
    unfold propagate_values_rest
    split <;> exact ⟨rfl, rfl⟩
  have hacc : ∀ lhs rhs n pr, (propagate_values_accept x i lhs rhs n pr a).found = true := by
    intro lhs rhs n pr
    unfold propagate_values_accept
    rfl
  have hR : ∀ n pr, (propagate_values_rest x i n pr a).found = false →
      (propagate_values_rest x i n pr a).s.m_cache = [] := by
    intro n pr
    rw [(hrest n pr).1, (hrest n pr).2]; exact h
  have hA : ∀ lhs rhs n pr, (propagate_values_accept x i lhs rhs n pr a).found = false →
      (propagate_values_accept x i lhs rhs n pr a).s.m_cache = [] := by
    intro lhs rhs n pr hf
    rw [hacc] at hf; cases hf
  unfold propagate_values_scan
  dsimp only
  repeat' split
  all_goals first | exact hA _ _ _ _ | exact hR _ _

/-- On a store whose scopes record ascending sizes below the head, popping the
top scope has a result, which keeps the invariants. -/
theorem pop_scope_one (x : externals) (s : store) (hi : Inv x s)
    (hok : scopes_ok 0 s.m_scopes s.m_asserted_qhead)
    (hlen : s.m_scopes.length < 4294967296) (hd : 1 ≤ s.m_scopes.length) :
    ∃ t top, pop_scope x 1 s = some t ∧
      s.m_scopes.get? (s.m_scopes.length - 1) = some top ∧
      t.m_scopes = s.m_scopes.take (s.m_scopes.length - 1) ∧
      t.m_asserted_qhead = top.m_asserted_formulas_lim ∧
      t.m_asserted_formulas = s.m_asserted_formulas.take top.m_asserted_formulas_lim ∧
      t.m_asserted_formula_prs =
        (if x.proofs_enabled then s.m_asserted_formula_prs.take top.m_asserted_formulas_lim
         else s.m_asserted_formula_prs) ∧
      top.m_asserted_formulas_lim ≤ s.m_asserted_formulas.length ∧
      Inv x t ∧ scopes_ok 0 t.m_scopes t.m_asserted_qhead := by
  have hu : usub s.m_scopes.length 1 = s.m_scopes.length - 1 := usub_eq _ _ hd hlen
  have hlt : s.m_scopes.length - 1 < s.m_scopes.length := by omega
  have hget : s.m_scopes.get? (s.m_scopes.length - 1)
      = some (s.m_scopes.get ⟨s.m_scopes.length - 1, hlt⟩) := List.get?_eq_get hlt
  obtain ⟨k1, k2⟩ := scopes_ok_pop hok hget
  have hle := k2.trans hi.1
  have hpl : x.proofs_enabled = true →
      (s.m_scopes.get ⟨s.m_scopes.length - 1, hlt⟩).m_asserted_formulas_lim
        ≤ s.m_asserted_formula_prs.length := by
    intro hp; rw [hi.proofs hp]; exact hle
  obtain ⟨t, ht⟩ := pop_scope_isSome x 1 s _ (by rw [hu]; exact hget)
  obtain ⟨g4, g5, g6, g7, _⟩ := pop_scope_eq x 1 s t _ (by rw [hu]; exact hget) hle hpl ht
  rw [hu] at g7
  refine ⟨t, _, ht, hget, g7, g6, g4, g5, hle, pop_scope_inv x 1 s t hi ht, ?_⟩
  rw [g7, g6]; exact k1

/-- Popping `n + 1` scopes at once agrees, on the vectors, the head, the flag
and the scope stack, with popping `n` scopes after the top scope was popped. -/
theorem pop_scope_succ (x : externals) (s t : store) (n : Nat) (hi : Inv x s)
    (hok : scopes_ok 0 s.m_scopes s.m_asserted_qhead)
    (hlen : s.m_scopes.length < 4294967296) (h1 : 1 ≤ n) (hn : n + 1 ≤ s.m_scopes.length)
    (ht : pop_scope x 1 s = some t) :
    ∃ s1 t1, pop_scope x (n + 1) s = some s1 ∧ pop_scope x n t = some t1 ∧
      s1.m_asserted_formulas = t1.m_asserted_formulas ∧
      s1.m_asserted_formula_prs = t1.m_asserted_formula_prs ∧
      s1.m_asserted_qhead = t1.m_asserted_qhead ∧
      s1.m_inconsistent = t1.m_inconsistent ∧
      s1.m_scopes = t1.m_scopes := by
  obtain ⟨t', top, ht', hget, e1, e2, e3, e4, e5, e6, e7⟩ :=
    pop_scope_one x s hi hok hlen (by omega)
  rw [ht] at ht'
  simp only [Option.some.injEq] at ht'
  subst ht'
  have hj : s.m_scopes.length - (n + 1) < s.m_scopes.length - 1 := by omega
  have hjl : s.m_scopes.length - (n + 1) < s.m_scopes.length := by omega
  have hgs : s.m_scopes.get? (s.m_scopes.length - (n + 1))
      = some (s.m_scopes.get ⟨s.m_scopes.length - (n + 1), hjl⟩) := List.get?_eq_get hjl
  have htl : t.m_scopes.length = s.m_scopes.length - 1 := by
    rw [e1, List.length_take]; omega
  have hgt : t.m_scopes.get? (s.m_scopes.length - (n + 1))
      = some (s.m_scopes.get ⟨s.m_scopes.length - (n + 1), hjl⟩) := by
    rw [e1, List.get?_eq_getElem?, List.getElem?_take_of_lt hj, ← List.get?_eq_getElem?]
    exact hgs
  have hsc_le := (scopes_ok_pop e7 hgt).2
  rw [e2] at hsc_le
  have hus : usub s.m_scopes.length (n + 1) = s.m_scopes.length - (n + 1) :=
    usub_eq _ _ hn hlen
  have hut : usub t.m_scopes.length n = s.m_scopes.length - (n + 1) := by
    rw [usub_eq _ _ (by omega) (by omega), htl]; omega
  have hAt : t.m_asserted_formulas.length = top.m_asserted_formulas_lim := by
    rw [e3, List.length_take]; omega
  obtain ⟨s1, hs1⟩ := pop_scope_isSome x (n + 1) s _ (by rw [hus]; exact hgs)
  obtain ⟨t1, ht1⟩ := pop_scope_isSome x n t _ (by rw [hut]; exact hgt)
  obtain ⟨a4, a5, a6, a7, a8⟩ := pop_scope_eq x (n + 1) s s1 _ (by rw [hus]; exact hgs)
    (hsc_le.trans e5) (fun hp => by rw [hi.proofs hp]; exact hsc_le.trans e5) hs1
  obtain ⟨b4, b5, b6, b7, b8⟩ := pop_scope_eq x n t t1 _ (by rw [hut]; exact hgt)
    (by rw [hAt]; exact hsc_le) (fun hp => by rw [e6.proofs hp, hAt]; exact hsc_le) ht1
  refine ⟨s1, t1, hs1, ht1, ?_, ?_, a6.trans b6.symm, a8.trans b8.symm, ?_⟩
  · rw [a4, b4, e3, List.take_take, Nat.min_eq_left hsc_le]
  · rw [a5, b5, e4]
    cases x.proofs_enabled
    · simp
    · simp only [if_true]
      rw [List.take_take, Nat.min_eq_left hsc_le]
  · rw [a7, b7, hus, hut, e1, List.take_take, Nat.min_eq_left (by omega)]

/-- One call `pop_scope(n)` agrees with `n` calls `pop_scope(1)`. -/
theorem pop_scope_many (x : externals) (p : smt_params) (n : Nat) :
    ∀ s : store, Inv x s → scopes_ok 0 s.m_scopes s.m_asserted_qhead →
      s.m_scopes.length < 4294967296 → n + 1 ≤ s.m_scopes.length →
      ∃ s1 s2, pop_scope x (n + 1) s = some s1 ∧
        run x p (List.replicate (n + 1) (op.pop_scope 1)) s = some s2 ∧
        s2.m_asserted_formulas = s1.m_asserted_formulas ∧
        s2.m_asserted_formula_prs = s1.m_asserted_formula_prs ∧
        s2.m_asserted_qhead = s1.m_asserted_qhead ∧
        s2.m_inconsistent = s1.m_inconsistent ∧
        s2.m_scopes = s1.m_scopes := by
  induction n with
  | zero =>
    intro s hi hok hlen hd
    obtain ⟨t, _, ht, _⟩ := pop_scope_one x s hi hok hlen hd
    refine ⟨t, t, ht, ?_, rfl, rfl, rfl, rfl, rfl⟩
    simp only [List.replicate, run, step, ht]
  | succ n ih =>
    intro s hi hok hlen hd
    obtain ⟨t, top, ht, _, e1, _, _, _, _, e6, e7⟩ := pop_scope_one x s hi hok hlen (by omega)
    have htl : t.m_scopes.length = s.m_scopes.length - 1 := by
      rw [e1, List.length_take]; omega
    obtain ⟨t1, t2, c1, c2, c3, c4, c5, c6, c7⟩ := ih t e6 e7 (by omega) (by omega)
    obtain ⟨s1, t1', d1, d2, d3, d4, d5, d6, d7⟩ :=
      pop_scope_succ x s t (n + 1) hi hok hlen (by omega) hd ht
    rw [c1] at d2
    simp only [Option.some.injEq] at d2
    subst d2
    refine ⟨s1, t2, d1, ?_, c3.trans d3.symm, c4.trans d4.symm, c5.trans d5.symm,
      c6.trans d6.symm, c7.trans d7.symm⟩
    rw [List.replicate_succ]
    unfold run
    simp only [step, ht]
    exact c2

theorem depth_after_bound (ops : List op) :
    ∀ d0 d : Nat, depth_after d0 ops = some d → d ≤ d0 + ops.length := by
  induction ops with
  | nil =>
    intro d0 d h
    simp only [depth_after, Option.some.injEq] at h
    simp only [List.length_nil]; omega
  | cons o os ih =>
    intro d0 d h
    unfold depth_after at h
    split at h
    · cases h
    · rename_i d1 hd1
      have h1 := depth_after_le o _ _ hd1
      have h2 := ih d1 d h
      simp only [List.length_cons]; omega

theorem for_range_self {σ : Type} (lo : Nat) (body : Nat → σ → σ) (a : σ) :
    for_range lo lo body a = a := by
  unfold for_range; simp

theorem for_range_succ {σ : Type} (lo k : Nat) (body : Nat → σ → σ) (a : σ) (h : lo ≤ k) :
    for_range lo (k + 1) body a = body k (for_range lo k body a) := by
  unfold for_range
  have e : k + 1 - lo = (k - lo) + 1 := by omega
  rw [e, List.range'_1_concat, List.foldl_append]
  have e2 : lo + (k - lo) = k := by omega
  simp [e2]

theorem for_range_split {σ : Type} (lo k hi : Nat) (body : Nat → σ → σ) (a : σ)
    (h1 : lo ≤ k) (h2 : k ≤ hi) :
    for_range lo hi body a = for_range k hi body (for_range lo k body a) := by
  unfold for_range
  have e : hi - lo = (hi - k) + (k - lo) := by omega
  have e2 : lo + (k - lo) = k := by omega
  rw [e, ← List.range'_append_1, List.foldl_append, e2]

/-- The loop of `reduce_asserted_formulas` does nothing more once the flag is up. -/
theorem reduce_asserted_formulas_skip (x : externals) (lo hi : Nat) (a : acc)
    (h : a.s.m_inconsistent = true) :
    for_range lo hi (reduce_asserted_formulas_body x) a = a := by
  apply for_range_inv (fun b => b = a) lo hi _ a rfl
  intro i b _ _ hb
  subst hb
  unfold reduce_asserted_formulas_body
  rw [if_pos (by simp [h])]

/-- One iteration of the loop of `reduce_asserted_formulas` on a consistent
store, without cancellation. -/
theorem reduce_asserted_formulas_body_eq (x : externals) (hnc : NoCancel x) (i : Nat) (a : acc)
    (hr : a.ret = false) (hinc : a.s.m_inconsistent = false) :
    ∃ pr, reduce_asserted_formulas_body x i a =
      { a with
        s := { (run_simplifier x (formula_at a.s i) a.s).s with
          m_inconsistent :=
            decide ((run_simplifier x (formula_at a.s i) a.s).new_n = x.mk_false)
          polls := (run_simplifier x (formula_at a.s i) a.s).s.polls + 1 }
        new_exprs := a.new_exprs ++
          (x.flatten (run_simplifier x (formula_at a.s i) a.s).new_n pr).map Prod.fst
        new_prs :=
          if x.proofs_enabled then a.new_prs ++
            (x.flatten (run_simplifier x (formula_at a.s i) a.s).new_n pr).map Prod.snd
          else a.new_prs
        ret := false } := by
  have hrs : (run_simplifier x (formula_at a.s i) a.s).s.m_inconsistent = false := hinc
  have key : ∀ (e : expr) (pr : proof),
      e = (run_simplifier x (formula_at a.s i) a.s).new_n →
      (fun b : acc => ({ b with s := (canceled x b.s).2, ret := (canceled x b.s).1 } : acc))
        (push_assertion x e pr { a with s := (run_simplifier x (formula_at a.s i) a.s).s }) =
      { a with
        s := { (run_simplifier x (formula_at a.s i) a.s).s with
          m_inconsistent :=
            decide ((run_simplifier x (formula_at a.s i) a.s).new_n = x.mk_false)
          polls := (run_simplifier x (formula_at a.s i) a.s).s.polls + 1 }
        new_exprs := a.new_exprs ++
          (x.flatten (run_simplifier x (formula_at a.s i) a.s).new_n pr).map Prod.fst
        new_prs :=
          if x.proofs_enabled then a.new_prs ++
            (x.flatten (run_simplifier x (formula_at a.s i) a.s).new_n pr).map Prod.snd
          else a.new_prs
        ret := false } := by
    intro e pr he
    subst he
    rw [push_assertion_of_consistent _ _ (by exact hrs)]
    dsimp only
    have hc : ∀ t : store, (canceled x t).1 = false := fun t => hnc _
    rw [hc]
    unfold canceled
    dsimp only
    by_cases hf : (run_simplifier x (formula_at a.s i) a.s).new_n = x.mk_false
    · rw [if_pos hf]; simp [hf]
    · rw [if_neg hf]
      simp only [hf, decide_False]
      rw [← hrs]
  unfold reduce_asserted_formulas_body
  rw [if_neg (by simp [hr, hinc])]
  dsimp only
  split
  · rename_i hn
    exact ⟨_, key _ _ hn⟩
  · exact ⟨_, key _ _ rfl⟩

theorem swap_asserted_formulas_trace (x : externals) (l : List expr) (lp : List proof)
    (s : store) : (swap_asserted_formulas x l lp s).trace = s.trace := by
  unfold swap_asserted_formulas
  dsimp only
  split <;> rfl

/-- The loop of `reduce_asserted_formulas`, run on a prefix of the pending
formulas, leaves the vectors and the head of the store alone and, without
cancellation, does not execute `return`. -/
theorem reduce_asserted_formulas_upto_inv (x : externals) (s : store) (k : Nat) :
    AccInvR x s (reduce_asserted_formulas_upto x s k) :=
  for_range_inv (AccInvR x s) s.m_asserted_qhead k (reduce_asserted_formulas_body x)
    (acc.start s) (AccInvR.start_accR s) (fun i a _ _ h => reduce_asserted_formulas_body_inv i a h)

theorem reduce_asserted_formulas_upto_formula (x : externals) (s : store) (k i : Nat) :
    formula_at (reduce_asserted_formulas_upto x s k).s i = formula_at s i := by
  unfold formula_at
  rw [(reduce_asserted_formulas_upto_inv x s k).1.1.1]

/-- While no simplification is the literal false, the loop of
`reduce_asserted_formulas` keeps the flag down. -/
theorem reduce_asserted_formulas_upto_consistent (x : externals) (hnc : NoCancel x) (s : store)
    (hinc : s.m_inconsistent = false) (k : Nat)
    (hleast : ∀ i, s.m_asserted_qhead ≤ i → i < k →
      (run_simplifier x (formula_at s i) (reduce_asserted_formulas_upto x s i).s).new_n
        ≠ x.mk_false) :
    ∀ j, s.m_asserted_qhead + j ≤ k →
      (reduce_asserted_formulas_upto x s (s.m_asserted_qhead + j)).s.m_inconsistent = false := by
  intro j
  induction j with
  | zero =>
    intro _
    unfold reduce_asserted_formulas_upto
    rw [Nat.add_zero, for_range_self]
    exact hinc
  | succ j ih =>
    intro hj
    have h0 := ih (by omega)
    have hr := (reduce_asserted_formulas_upto_inv x s (s.m_asserted_qhead + j)).2 hnc
    obtain ⟨pr, hb⟩ := reduce_asserted_formulas_body_eq x hnc (s.m_asserted_qhead + j)
      (reduce_asserted_formulas_upto x s (s.m_asserted_qhead + j)) hr h0
    have hstep : reduce_asserted_formulas_upto x s (s.m_asserted_qhead + (j + 1)) =
        reduce_asserted_formulas_body x (s.m_asserted_qhead + j)
          (reduce_asserted_formulas_upto x s (s.m_asserted_qhead + j)) := by
      unfold reduce_asserted_formulas_upto
      rw [← Nat.add_assoc, for_range_succ _ _ _ _ (by omega)]
    rw [hstep, hb]
    dsimp only
    rw [reduce_asserted_formulas_upto_formula]
    have := hleast (s.m_asserted_qhead + j) (by omega) (by omega)
    simp [this]

/-! ### The passes recorded in the log -/

theorem passes_append (t u : List event) : passes (t ++ u) = passes t ++ passes u := by
  unfold passes; rw [List.filterMap_append]

theorem passes_run_simplifier (x : externals) (n : expr) (s : store) :
    passes (run_simplifier x n s).s.trace = passes s.trace := by
  unfold run_simplifier
  dsimp only
  rw [passes_append]
  simp [passes, event.to_pass]

theorem passes_flush_cache (s : store) : passes (flush_cache s).trace = passes s.trace := by
  unfold flush_cache
  dsimp only
  rw [passes_append]
  simp [passes, event.to_pass]

theorem passes_log_pass (id : pass_id) (s : store) :
    passes (log_pass id s).trace = passes s.trace ++ [id] := by
  unfold log_pass
  dsimp only
  rw [passes_append]
  simp [passes, event.to_pass]

theorem passes_set_eliminate_and (flag : Bool) (s : store) :
    passes (set_eliminate_and flag s).trace = passes s.trace := by
  unfold set_eliminate_and
  split
  · rfl
  · exact passes_flush_cache s

theorem trace_push_assertion (x : externals) (e : expr) (pr : proof) (a : acc) :
    (push_assertion x e pr a).s.trace = a.s.trace := by
  unfold push_assertion
  split
  · rfl
  · dsimp only
    split <;> rfl

theorem passes_reduce_asserted_formulas (x : externals) (s : store) :
    passes (reduce_asserted_formulas x s).trace = passes s.trace := by
  unfold reduce_asserted_formulas
  split
  · rfl
  · have hl := for_range_inv (fun a : acc => passes a.s.trace = passes s.trace)
      s.m_asserted_qhead s.m_asserted_formulas.length (reduce_asserted_formulas_body x)
      (acc.start s) rfl
      (fun i a _ _ h => by
        unfold reduce_asserted_formulas_body
        split
        · exact h
        · dsimp only
          split
          · show passes (push_assertion _ _ _ _).s.trace = _
            rw [trace_push_assertion]
            exact (passes_run_simplifier x _ _).trans h
          · show passes (push_assertion _ _ _ _).s.trace = _
            rw [trace_push_assertion]
            exact (passes_run_simplifier x _ _).trans h)
    dsimp only
    split
    · exact hl
    · rw [swap_asserted_formulas_trace]; exact hl

theorem passes_reduce_and_solve (x : externals) (s : store) :
    passes (reduce_and_solve x s).trace = passes s.trace := by
  unfold reduce_and_solve
  rw [passes_reduce_asserted_formulas, passes_flush_cache]

theorem passes_find_macros_core (x : externals) (s : store) :
    passes (find_macros_core x s).trace = passes s.trace := by
  unfold find_macros_core
  dsimp only
  rw [passes_reduce_and_solve, swap_asserted_formulas_trace]

theorem passes_nnf_cnf (x : externals) (s : store) :
    passes (nnf_cnf x s).trace = passes s.trace := by
  unfold nnf_cnf
  have hin : ∀ (todo : List (expr × proof)) (a : acc), passes a.s.trace = passes s.trace →
      passes (nnf_cnf_inner x todo a).s.trace = passes s.trace := by
    intro todo a h
    unfold nnf_cnf_inner
    apply foldl_inv (fun a : acc => passes a.s.trace = passes s.trace) _ _ a h
    intro a np _ h
    split
    · exact h
    · dsimp only
      split
      · exact (passes_run_simplifier x _ _).trans h
      · rw [trace_push_assertion]
        exact (passes_run_simplifier x _ _).trans h
  have hl := for_range_inv (fun a : acc => passes a.s.trace = passes s.trace)
    s.m_asserted_qhead s.m_asserted_formulas.length (nnf_cnf_body x) (acc.start s) rfl
    (fun i a _ _ h => by
      unfold nnf_cnf_body
      split
      · exact h
      · dsimp only
        split
        · exact h
        · exact hin _ _ h)
  dsimp only
  split
  · exact hl
  · rw [swap_asserted_formulas_trace]; exact hl

theorem passes_MK_SIMPLE_SIMPLIFIER (x : externals) (functor : expr → expr) (s : store) :
    passes (MK_SIMPLE_SIMPLIFIER x functor s).trace = passes s.trace := by
  unfold MK_SIMPLE_SIMPLIFIER
  have hl := for_range_inv (fun a : acc => a.s.trace = s.trace)
    s.m_asserted_qhead s.m_asserted_formulas.length (MK_SIMPLE_SIMPLIFIER_body x functor)
    (acc.start s) rfl
    (fun i a _ _ h => by
      unfold MK_SIMPLE_SIMPLIFIER_body
      dsimp only
      split
      · rw [trace_push_assertion]; exact h
      · split
        · rw [trace_push_assertion]; exact h
        · rw [trace_push_assertion]; exact h)
  dsimp only
  rw [passes_reduce_and_solve, swap_asserted_formulas_trace, hl]

theorem passes_infer_patterns (x : externals) (s : store) :
    passes (infer_patterns x s).trace = passes s.trace := by
  unfold infer_patterns
  have hl := for_range_inv (fun a : acc => a.s.trace = s.trace)
    s.m_asserted_qhead s.m_asserted_formulas.length (infer_patterns_body x)
    (acc.start s) rfl
    (fun i a _ _ h => by
      unfold infer_patterns_body
      dsimp only
      split
      · rw [trace_push_assertion]; exact h
      · split
        · rw [trace_push_assertion]; exact h
        · rw [trace_push_assertion]; exact h)
  dsimp only
  rw [swap_asserted_formulas_trace, hl]

theorem passes_eliminate_term_ite (x : externals) (s : store) :
    passes (eliminate_term_ite x s).trace = passes s.trace := by
  unfold eliminate_term_ite
  have hl := for_range_inv (fun a : acc => a.s.trace = s.trace)
    s.m_asserted_qhead s.m_asserted_formulas.length (eliminate_term_ite_body x)
    (acc.start s) rfl
    (fun i a _ _ h => by
      unfold eliminate_term_ite_body
      dsimp only
      split
      · rw [trace_push_assertion]; exact h
      · split
        · rw [trace_push_assertion]; exact h
        · rw [trace_push_assertion]; exact h)
  dsimp only
  rw [passes_reduce_and_solve, swap_asserted_formulas_trace, hl]

theorem passes_MK_SIMPLIFIER (x : externals) (functor : expr → expr × proof) (REDUCE : Bool)
    (s : store) : passes (MK_SIMPLIFIER x functor REDUCE s).2.trace = passes s.trace := by
  unfold MK_SIMPLIFIER
  have hl := for_range_inv (fun a : acc => a.s.trace = s.trace)
    s.m_asserted_qhead s.m_asserted_formulas.length (MK_SIMPLIFIER_body x functor)
    (acc.start s) rfl
    (fun i a _ _ h => by
      unfold MK_SIMPLIFIER_body
      dsimp only
      split
      · rw [trace_push_assertion]; exact h
      · split
        · rw [trace_push_assertion]; exact h
        · rw [trace_push_assertion]; exact h)
  dsimp only
  split
  · rw [passes_reduce_and_solve, swap_asserted_formulas_trace, hl]
  · rw [swap_asserted_formulas_trace, hl]

theorem passes_refine_inj_axiom (x : externals) (s : store) :
    passes ( refine_inj_axiom x s).trace = passes s.trace := by
  unfold refine_inj_axiom
  have hl := for_range_inv (fun t : store => t.trace = s.trace)
    s.m_asserted_qhead s.m_asserted_formulas.length (refine_inj_axiom_body x) s rfl
    (fun i t _ _ h => by
      unfold refine_inj_axiom_body
      dsimp only
      split
      · split
        · exact h
        · exact h
      · exact h)
  rw [hl]

theorem passes_LIFT_ITE (x : externals) (functor : expr → expr × proof) (s : store) :
    passes (LIFT_ITE x functor s).trace = passes s.trace := by
  unfold LIFT_ITE
  have hl := for_range_inv (fun t : store => t.trace = s.trace)
    s.m_asserted_qhead s.m_asserted_formulas.length (LIFT_ITE_body x functor) s rfl
    (fun i t _ _ h => h)
  rw [passes_reduce_and_solve, hl]

theorem passes_max_bv_sharing (x : externals) (s : store) :
    passes (max_bv_sharing x s).trace = passes s.trace := by
  unfold max_bv_sharing
  have hl := for_range_inv (fun t : store => t.trace = s.trace)
    s.m_asserted_qhead s.m_asserted_formulas.length (max_bv_sharing_body x) s rfl
    (fun i t _ _ h => h)
  rw [passes_reduce_asserted_formulas, hl]

theorem passes_eliminate_and (x : externals) (s : store) :
    passes (eliminate_and x s).trace = passes s.trace := by
  unfold eliminate_and
  rw [passes_reduce_asserted_formulas, passes_set_eliminate_and]

theorem passes_apply_quasi_macros (x : externals) (fuel : Nat) (s s' : store)
    (h : apply_quasi_macros x fuel s = some s') : passes s'.trace = passes s.trace := by
  have hloop : ∀ (fuel : Nat) (s t : store), apply_quasi_macros_loop x fuel s = some t →
      t.trace = s.trace := by
    intro fuel
    induction fuel with
    | zero => intro s t h; cases h
    | succ n ih =>
      intro s t h
      unfold apply_quasi_macros_loop at h
      dsimp only at h
      split at h
      · rw [ih _ _ h, swap_asserted_formulas_trace]
      · cases h; rfl
  unfold apply_quasi_macros at h
  cases hl : apply_quasi_macros_loop x fuel s with
  | none => rw [hl] at h; cases h
  | some t =>
    rw [hl] at h
    simp only [Option.map_some', Option.some.injEq] at h
    subst h
    rw [passes_reduce_and_solve, hloop fuel s t hl]

theorem passes_propagate_values (x : externals) (s : store) :
    passes (propagate_values x s).trace = passes s.trace := by
  unfold propagate_values
  have hl := for_range_inv (fun a : pv_acc => a.s.trace = (flush_cache s).trace)
    0 s.m_asserted_formulas.length (propagate_values_scan x)
    ⟨flush_cache s, [], [], [], [], false⟩ rfl
    (fun i a _ _ h => by
      have hR : ∀ n pr, (propagate_values_rest x i n pr a).s.trace = (flush_cache s).trace := by
        intro n pr
        unfold propagate_values_rest
        split <;> exact h
      have hA : ∀ lhs rhs n pr,
          (propagate_values_accept x i lhs rhs n pr a).s.trace = (flush_cache s).trace := by
        intro lhs rhs n pr
        unfold propagate_values_accept
        dsimp only
        split <;> exact h
      unfold propagate_values_scan
      dsimp only
      repeat' split
      all_goals first | exact hA _ _ _ _ | exact hR _ _)
  dsimp only
  split
  · rw [passes_flush_cache, swap_asserted_formulas_trace]
    have hb := for_range_inv (fun b : acc => passes b.s.trace = passes s.trace)
      0 (for_range 0 s.m_asserted_formulas.length (propagate_values_scan x)
        ⟨flush_cache s, [], [], [], [], false⟩).new_exprs2.length
      (propagate_values_simp x
        (for_range 0 s.m_asserted_formulas.length (propagate_values_scan x)
          ⟨flush_cache s, [], [], [], [], false⟩).new_exprs2
        (for_range 0 s.m_asserted_formulas.length (propagate_values_scan x)
          ⟨flush_cache s, [], [], [], [], false⟩).new_prs2)
      ⟨(for_range 0 s.m_asserted_formulas.length (propagate_values_scan x)
          ⟨flush_cache s, [], [], [], [], false⟩).s,
        (for_range 0 s.m_asserted_formulas.length (propagate_values_scan x)
          ⟨flush_cache s, [], [], [], [], false⟩).new_exprs1,
        (for_range 0 s.m_asserted_formulas.length (propagate_values_scan x)
          ⟨flush_cache s, [], [], [], [], false⟩).new_prs1, false, false⟩
      (by dsimp only; rw [hl, passes_flush_cache])
      (fun i b _ _ h => by
        unfold propagate_values_simp
        dsimp only
        split
        · rw [trace_push_assertion]
          exact (passes_run_simplifier x _ _).trans h
        · rw [trace_push_assertion]
          exact (passes_run_simplifier x _ _).trans h)
    exact hb
  · rw [hl, passes_flush_cache]

theorem passes_propagate_booleans (x : externals) (fuel : Nat) (s s' : store)
    (h : propagate_booleans x fuel s = some s') : passes s'.trace = passes s.trace := by
  have hP : ∀ (i : Nat) (a : pb_acc), passes (PROCESS x i a).s.trace = passes a.s.trace := by
    intro i a
    unfold PROCESS
    dsimp only
    split
    · exact passes_run_simplifier x _ _
    · exact passes_run_simplifier x _ _
  have hround : ∀ a : pb_acc,
      passes (propagate_booleans_round x a).s.trace = passes a.s.trace := by
    intro a
    unfold propagate_booleans_round
    dsimp only
    rw [passes_flush_cache]
    have h1 := for_range_inv (fun b : pb_acc => passes b.s.trace = passes a.s.trace)
      a.s.m_asserted_qhead a.s.m_asserted_formulas.length (PROCESS x)
      { a with cont := false } rfl (fun i b _ _ h => (hP i b).trans h)
    refine for_range_down_inv (fun b : pb_acc => passes b.s.trace = passes a.s.trace)
      _ _ (PROCESS x) _ ?_ (fun i b _ _ h => (hP i b).trans h)
    dsimp only
    rw [passes_flush_cache]
    exact h1
  have hloop : ∀ (fuel : Nat) (a b : pb_acc), propagate_booleans_loop x fuel a = some b →
      passes b.s.trace = passes a.s.trace := by
    intro fuel
    induction fuel with
    | zero => intro a b h; cases h
    | succ n ih =>
      intro a b h
      unfold propagate_booleans_loop at h
      dsimp only at h
      split at h
      · exact (ih _ _ h).trans (hround a)
      · cases h; exact hround a
  unfold propagate_booleans at h
  cases hl : propagate_booleans_loop x fuel ⟨flush_cache s, true, false⟩ with
  | none => rw [hl] at h; cases h
  | some b =>
    rw [hl] at h
    simp only [Option.map_some', Option.some.injEq] at h
    subst h
    have hb := hloop fuel _ b hl
    dsimp only at hb
    rw [passes_flush_cache] at hb
    split
    · rw [passes_reduce_asserted_formulas]; exact hb
    · exact hb

theorem invoke_table_passes (x : externals) (p : smt_params) (fuel : Nat) :
    ∀ c ∈ invoke_table x p fuel, ∀ s s', c.func s = some s' →
      passes s'.trace = passes s.trace := by
  intro c hc s s' h
  simp only [invoke_table, List.mem_cons, List.mem_singleton, List.not_mem_nil, or_false] at hc
  rcases hc with rfl | rfl | rfl | rfl | rfl | rfl | rfl | rfl | rfl | rfl | rfl | rfl | rfl | rfl
    | rfl | rfl | rfl | rfl | rfl
  · exact passes_propagate_booleans x fuel s s' h
  · cases h; exact passes_propagate_values x s
  · cases h; exact passes_find_macros_core x s
  · cases h; exact passes_nnf_cnf x s
  · cases h; exact passes_eliminate_and x s
  · cases h; exact passes_MK_SIMPLIFIER x _ _ s
  · cases h; exact passes_MK_SIMPLIFIER x _ _ s
  · cases h; exact passes_LIFT_ITE x _ s
  · cases h; exact passes_LIFT_ITE x _ s
  · cases h; exact passes_eliminate_term_ite x s
  · cases h; exact passes_refine_inj_axiom x s
  · cases h; exact passes_MK_SIMPLE_SIMPLIFIER x _ s
  · cases h; exact passes_find_macros_core x s
  · exact passes_apply_quasi_macros x fuel s s' h
  · cases h; exact passes_MK_SIMPLIFIER x _ _ s
  · cases h; exact passes_MK_SIMPLIFIER x _ _ s
  · cases h; exact passes_infer_patterns x s
  · cases h; exact passes_max_bv_sharing x s
  · cases h; exact passes_MK_SIMPLIFIER x _ _ s

/-- The passes that the lines of `reduce` add to the log are the lines whose
condition held. -/
theorem run_invokes_passes {x : externals} (cs : List invoke)
    (hcs : ∀ c ∈ cs, ∀ s s', c.func s = some s' → passes s'.trace = passes s.trace)
    (s s' : store) (b : Bool) (h : run_invokes x cs s = some (s', b)) :
    passes s'.trace = passes s.trace ++ invoked x cs s := by
  induction cs generalizing s with
  | nil =>
    simp only [run_invokes, Option.some.injEq, Prod.mk.injEq] at h
    obtain ⟨rfl, rfl⟩ := h
    simp [invoked]
  | cons c cs ih =>
    unfold run_invokes at h
    unfold invoked
    split at h
    · cases h
    · rename_i s1 hs1
      try rw [hs1]
      try dsimp only
      have h1 : passes s1.trace = passes s.trace ++ (if c.cond s = true then [c.id] else []) := by
        split at hs1
        · rename_i hc
          rw [if_pos hc, hcs c (List.mem_cons_self _ _) _ _ hs1, passes_log_pass]
        · rename_i hc
          cases hs1
          rw [if_neg hc, List.append_nil]
      split at h
      · rename_i hinc
        simp only [Option.some.injEq, Prod.mk.injEq] at h
        obtain ⟨rfl, rfl⟩ := h
        rw [if_pos hinc, List.append_nil, h1]
      · rename_i hinc
        rw [if_neg hinc]
        split at h
        · rename_i hcan
          simp only [Option.some.injEq, Prod.mk.injEq] at h
          obtain ⟨rfl, rfl⟩ := h
          rw [if_pos hcan, List.append_nil]
          exact h1
        · rename_i hcan
          rw [if_neg hcan, ih (fun c hc => hcs c (List.mem_cons_of_mem _ hc)) _ h,
            ← List.append_assoc]
          congr 1

theorem invoked_sublist (x : externals) (cs : List invoke) :
    ∀ s : store, (invoked x cs s).Sublist (cs.map invoke.id) := by
  induction cs with
  | nil => intro s; simp [invoked]
  | cons c cs ih =>
    intro s
    unfold invoked
    have hrest : ∀ l : List pass_id, l.Sublist (cs.map invoke.id) →
        ((if c.cond s = true then [c.id] else []) ++ l).Sublist ((c :: cs).map invoke.id) := by
      intro l hl
      split
      · simpa using hl
      · simpa using hl.cons c.id
    apply hrest
    split
    · exact List.nil_sublist _
    · split
      · exact List.nil_sublist _
      · split
        · exact List.nil_sublist _
        · exact ih _

/-- A line that `reduce` is found to have called has a condition that held. -/
theorem invoked_cond (x : externals) (cs : List invoke) (id : pass_id) :
    ∀ s : store, id ∈ invoked x cs s → ∃ c ∈ cs, c.id = id ∧ ∃ t, c.cond t = true := by
  induction cs with
  | nil => intro s h; simp [invoked] at h
  | cons c cs ih =>
    intro s h
    unfold invoked at h
    rcases List.mem_append.mp h with h | h
    · split at h
      · rename_i hc
        simp only [List.mem_singleton] at h
        exact ⟨c, List.mem_cons_self _ _, h.symm, s, hc⟩
      · cases h
    · split at h
      · cases h
      · split at h
        · cases h
        · split at h
          · cases h
          · obtain ⟨c', hc', h1, h2⟩ := ih _ h
            exact ⟨c', List.mem_cons_of_mem _ hc', h1, h2⟩

/-- When `reduce` runs through all lines, every line whose condition holds on
every store is called. -/
theorem invoked_of_cond (x : externals) (cs : List invoke) (c0 : invoke)
    (h0 : ∀ t, c0.cond t = true) :
    ∀ (s s' : store), run_invokes x cs s = some (s', false) → c0 ∈ cs →
      c0.id ∈ invoked x cs s := by
  induction cs with
  | nil => intro s s' _ hm; cases hm
  | cons c cs ih =>
    intro s s' h hm
    unfold run_invokes at h
    unfold invoked
    split at h
    · cases h
    · rename_i s1 hs1
      try rw [hs1]
      try dsimp only
      split at h
      · simp only [Option.some.injEq, Prod.mk.injEq] at h
        cases h.2
      · rename_i hinc
        rw [if_neg hinc]
        split at h
        · simp only [Option.some.injEq, Prod.mk.injEq] at h
          cases h.2
        · rename_i hcan
          rw [if_neg hcan]
          rcases List.mem_cons.mp hm with rfl | hm'
          · rw [if_pos (h0 s)]
            simp
          · exact List.mem_append_right _ (ih _ _ h hm')

theorem passes_reduce_entry (x : externals) (s : store) :
    passes (reduce_entry x s).trace = passes s.trace ++
      (if (canceled x s).2.m_macro_manager.has_macros then [pass_id.expand_macros] else []) := by
  unfold reduce_entry
  rw [passes_set_eliminate_and]
  split
  · unfold expand_macros
    rw [passes_find_macros_core, passes_log_pass]
    rfl
  · rw [List.append_nil]; rfl

/-! ### Value propagation -/

theorem for_range_ind {σ : Type} (Q : Nat → σ → Prop) (lo : Nat) (body : Nat → σ → σ) (a : σ)
    (h0 : Q lo a) :
    ∀ n, (∀ i b, lo ≤ i → i < lo + n → Q i b → Q (i + 1) (body i b)) →
      Q (lo + n) (for_range lo (lo + n) body a) := by
  intro n
  induction n with
  | zero =>
    intro _
    rw [Nat.add_zero, for_range_self]
    exact h0
  | succ n ih =>
    intro hstep
    rw [← Nat.add_assoc, for_range_succ _ _ _ _ (Nat.le_add_right lo n)]
    exact hstep _ _ (Nat.le_add_right lo n) (by omega)
      (ih (fun i b h1 h2 hq => hstep i b h1 (by omega) hq))

theorem pv_cache_succ (x : externals) (A : List expr) (P : List proof) (i : Nat) :
    pv_cache x A P (i + 1) =
      (if pv_accepted x A i then [pv_entry x A P i] else []) ++ pv_cache x A P i := by
  unfold pv_cache
  rw [List.range_succ, List.filter_append, List.map_append, List.reverse_append]
  by_cases h : pv_accepted x A i = true <;> simp [h]

theorem pv_entry_key (x : externals) (A : List expr) (P : List proof) (i : Nat) (k : expr)
    (h : pv_var x A i = some k) : (pv_entry x A P i).key = k := by
  unfold pv_var at h
  unfold pv_entry
  cases hk : pv_key x (A.getD i 0) with
  | none => rw [hk] at h; cases h
  | some kv =>
    rw [hk] at h
    simp only [Option.map_some', Option.some.injEq] at h
    obtain ⟨k', v⟩ := kv
    exact h

/-- A variable has a rule in the cache exactly when an earlier formula is an
equality between it and a value. -/
theorem pv_cache_keys (x : externals) (A : List expr) (P : List proof) (k : expr) :
    ∀ i, (pv_cache x A P i).any (fun c => c.key == k)
      = (List.range i).any (fun j => pv_var x A j == some k) := by
  intro i
  induction i with
  | zero => simp [pv_cache]
  | succ i ih =>
    rw [pv_cache_succ, List.any_append, ih, List.range_succ, List.any_append]
    simp only [List.any_cons, List.any_nil, Bool.or_false]
    cases hv : pv_var x A i with
    | none =>
      have hacc : pv_accepted x A i = false := by unfold pv_accepted; rw [hv]
      simp [hacc]
    | some k0 =>
      have hacc : pv_accepted x A i = (List.range i).all (fun j => pv_var x A j != some k0) := by
        unfold pv_accepted; rw [hv]
      by_cases hk : k0 = k
      · subst hk
        cases hall : (List.range i).all (fun j => pv_var x A j != some k0) with
        | true =>
          rw [hacc, hall]
          simp [pv_entry_key x A P i k0 hv]
        | false =>
          rw [hacc, hall]
          have : (List.range i).any (fun j => pv_var x A j == some k0) = true := by
            rw [List.all_eq_false] at hall
            obtain ⟨j, hj, hne⟩ := hall
            rw [List.any_eq_true]
            exact ⟨j, hj, by simpa using hne⟩
          simp [this]
      · have hne : (some k0 == some k) = false := by simpa using hk
        rw [hne, Bool.or_false]
        by_cases ha : pv_accepted x A i = true
        · rw [if_pos ha]
          simp [pv_entry_key x A P i k0 hv, hk]
        · rw [if_neg ha]
          simp

theorem all_ne_eq_not_any {α : Type} (f : Nat → Option α) [DecidableEq α] (k : α)
    (l : List Nat) :
    l.all (fun j => f j != some k) = !l.any (fun j => f j == some k) := by
  induction l with
  | nil => rfl
  | cons a l ih =>
    simp only [List.all_cons, List.any_cons, Bool.not_or, bne] at ih ⊢
    rw [ih]

theorem range'_succ_sub (q i : Nat) :
    List.range' q (i + 1 - q) =
      if q ≤ i then List.range' q (i - q) ++ [i] else List.range' q (i - q) := by
  split
  · rename_i h
    have e : i + 1 - q = (i - q) + 1 := by omega
    rw [e, List.range'_1_concat]
    have e2 : q + (i - q) = i := by omega
    rw [e2]
  · rename_i h
    have e : i + 1 - q = 0 := by omega
    have e2 : i - q = 0 := by omega
    rw [e, e2]

theorem pv_kept_succ (x : externals) (s : store) (i : Nat) :
    pv_kept x s (i + 1) = pv_kept x s i ++
      (if s.m_asserted_qhead ≤ i ∧ pv_accepted x s.m_asserted_formulas i = true then
        [(pv_orient x (formula_at s i) (proof_at s i)).1] else []) := by
  unfold pv_kept
  rw [range'_succ_sub]
  by_cases hq : s.m_asserted_qhead ≤ i
  · rw [if_pos hq, List.filter_append, List.map_append]
    by_cases ha : pv_accepted x s.m_asserted_formulas i = true
    · simp [hq, ha]
    · simp [hq, ha]
  · rw [if_neg hq]
    simp [hq]

theorem pv_rest_succ (x : externals) (s : store) (i : Nat) :
    pv_rest x s (i + 1) = pv_rest x s i ++
      (if s.m_asserted_qhead ≤ i ∧ pv_accepted x s.m_asserted_formulas i = false then
        [((pv_orient x (formula_at s i) (proof_at s i)).1,
          if x.proofs_enabled then (pv_orient x (formula_at s i) (proof_at s i)).2 else 0)]
       else []) := by
  unfold pv_rest
  rw [range'_succ_sub]
  by_cases hq : s.m_asserted_qhead ≤ i
  · rw [if_pos hq, List.filter_append, List.map_append]
    by_cases ha : pv_accepted x s.m_asserted_formulas i = true
    · simp [hq, ha]
    · simp [hq, ha]
  · rw [if_neg hq]
    simp [hq]

/-- The first loop body of `propagate_values`, on a store whose cache holds
the rules injected so far, accepts exactly the equalities that `pv_accepted`
describes. -/
theorem propagate_values_scan_eq (x : externals) (s : store) (i : Nat) (a : pv_acc)
    (hs : a.s = { flush_cache s with
      m_cache := pv_cache x s.m_asserted_formulas s.m_asserted_formula_prs i }) :
    propagate_values_scan x i a =
      if pv_accepted x s.m_asserted_formulas i then
        propagate_values_accept x i
          (pv_entry x s.m_asserted_formulas s.m_asserted_formula_prs i).key
          (pv_entry x s.m_asserted_formulas s.m_asserted_formula_prs i).val
          (pv_orient x (formula_at s i) (proof_at s i)).1
          (pv_orient x (formula_at s i) (proof_at s i)).2 a
      else
        propagate_values_rest x i (pv_orient x (formula_at s i) (proof_at s i)).1
          (pv_orient x (formula_at s i) (proof_at s i)).2 a := by
  have hf : formula_at a.s i = formula_at s i := by rw [hs]; rfl
  have hp : proof_at a.s i = proof_at s i := by rw [hs]; rfl
  have hcached : ∀ k, is_cached k a.s
      = (List.range i).any (fun j => pv_var x s.m_asserted_formulas j == some k) := by
    intro k
    rw [← pv_cache_keys x s.m_asserted_formulas s.m_asserted_formula_prs k i, hs]
    rfl
  have hget : s.m_asserted_formulas.getD i 0 = formula_at s i := rfl
  have hgetp : s.m_asserted_formula_prs.getD i 0 = proof_at s i := rfl
  unfold propagate_values_scan
  dsimp only
  rw [hf, hp]
  unfold pv_accepted pv_var pv_entry pv_orient pv_key
  rw [hget, hgetp]
  cases he : x.is_eq (formula_at s i) with
  | none => simp
  | some lr =>
    obtain ⟨l0, r0⟩ := lr
    dsimp only
    cases hl : x.is_value l0 <;> cases hr : x.is_value r0
    · simp
    · simp only [hl, hr, Bool.false_or, if_true, Bool.false_eq_true, if_false, Bool.not_false,
        Bool.true_and, Bool.false_and, Bool.and_true, Option.map_some', Bool.not_true,
        Bool.and_self]
      rw [hcached l0, all_ne_eq_not_any]
      unfold pv_var pv_key
      rfl
    · simp only [hl, hr, Bool.true_or, if_true, Bool.not_false, Bool.true_and, Bool.and_true,
        Option.map_some', Bool.and_self, Bool.not_true, Bool.false_eq_true, if_false,
        Bool.false_and]
      rw [hcached r0, all_ne_eq_not_any]
      unfold pv_var pv_key
      rfl
    · simp [hl, hr]

theorem pv_entry_eta (x : externals) (s : store) (i : Nat)
    (h : pv_accepted x s.m_asserted_formulas i = true) :
    (⟨(pv_entry x s.m_asserted_formulas s.m_asserted_formula_prs i).key,
      (pv_entry x s.m_asserted_formulas s.m_asserted_formula_prs i).val,
      (pv_orient x (formula_at s i) (proof_at s i)).2⟩ : cache_entry)
      = pv_entry x s.m_asserted_formulas s.m_asserted_formula_prs i := by
  unfold pv_accepted pv_var at h
  unfold pv_entry
  cases hk : pv_key x (s.m_asserted_formulas.getD i 0) with
  | none => rw [hk] at h; cases h
  | some kv => rfl

/-- What the first loop of `propagate_values` has computed after the indices
below `i`. -/
theorem propagate_values_scan_upto (x : externals) (s : store) (n : Nat) :
    (for_range 0 (0 + n) (propagate_values_scan x)
        ⟨flush_cache s, [], [], [], [], false⟩).s
      = { flush_cache s with
          m_cache := pv_cache x s.m_asserted_formulas s.m_asserted_formula_prs (0 + n) } ∧
    (for_range 0 (0 + n) (propagate_values_scan x)
        ⟨flush_cache s, [], [], [], [], false⟩).new_exprs1 = pv_kept x s (0 + n) ∧
    (for_range 0 (0 + n) (propagate_values_scan x)
        ⟨flush_cache s, [], [], [], [], false⟩).new_exprs2
      = (pv_rest x s (0 + n)).map Prod.fst ∧
    (for_range 0 (0 + n) (propagate_values_scan x)
        ⟨flush_cache s, [], [], [], [], false⟩).new_prs2
      = (if x.proofs_enabled then (pv_rest x s (0 + n)).map Prod.snd else []) ∧
    (for_range 0 (0 + n) (propagate_values_scan x)
        ⟨flush_cache s, [], [], [], [], false⟩).found
      = (List.range (0 + n)).any (pv_accepted x s.m_asserted_formulas) := by
  apply for_range_ind (fun i (a : pv_acc) =>
    a.s = { flush_cache s with
      m_cache := pv_cache x s.m_asserted_formulas s.m_asserted_formula_prs i } ∧
    a.new_exprs1 = pv_kept x s i ∧
    a.new_exprs2 = (pv_rest x s i).map Prod.fst ∧
    a.new_prs2 = (if x.proofs_enabled then (pv_rest x s i).map Prod.snd else []) ∧
    a.found = (List.range i).any (pv_accepted x s.m_asserted_formulas)) 0
    (propagate_values_scan x) ⟨flush_cache s, [], [], [], [], false⟩
  · refine ⟨rfl, ?_, ?_, ?_, rfl⟩
    · simp [pv_kept]
    · simp [pv_rest]
    · simp [pv_rest]
  · intro i a _ _ hq
    obtain ⟨hs, h1, h2, h3, h4⟩ := hq
    have hqh : a.s.m_asserted_qhead = s.m_asserted_qhead := by rw [hs]; rfl
    rw [propagate_values_scan_eq x s i a hs, pv_kept_succ, pv_rest_succ, pv_cache_succ,
      List.range_succ, List.any_append]
    by_cases hacc : pv_accepted x s.m_asserted_formulas i = true
    · rw [if_pos hacc]
      unfold propagate_values_accept
      dsimp only
      rw [hqh]
      have hent := pv_entry_eta x s i hacc
      by_cases hge : i ≥ s.m_asserted_qhead
      · rw [if_pos hge]
        dsimp only
        refine ⟨?_, ?_, ?_, ?_, ?_⟩
        · unfold cache_result
          rw [hs, hent]
          simp [hacc]
        · rw [h1]; simp [hge, hacc]
        · rw [h2]; simp [hacc]
        · rw [h3]; simp [hacc]
        · simp [hacc]
      · rw [if_neg hge]
        refine ⟨?_, ?_, ?_, ?_, ?_⟩
        · unfold cache_result
          rw [hs, hent]
          simp [hacc]
        · rw [h1]; simp [hge]
        · rw [h2]; simp [hacc]
        · rw [h3]; simp [hacc]
        · simp [hacc]
    · rw [if_neg hacc]
      have hacc' : pv_accepted x s.m_asserted_formulas i = false := by simpa using hacc
      unfold propagate_values_rest
      rw [hqh]
      by_cases hge : i ≥ s.m_asserted_qhead
      · rw [if_pos hge]
        dsimp only
        refine ⟨?_, ?_, ?_, ?_, ?_⟩
        · rw [hs]; simp [hacc']
        · rw [h1]; simp [hacc']
        · rw [h2]; simp [hge, hacc']
        · rw [h3]
          cases x.proofs_enabled <;> simp [hge, hacc']
        · rw [h4]; simp [hacc']
      · rw [if_neg hge]
        refine ⟨?_, ?_, ?_, ?_, ?_⟩
        · rw [hs]; simp [hacc']
        · rw [h1]; simp [hacc']
        · rw [h2]; simp [hge]
        · rw [h3]; simp [hge]
        · rw [h4]; simp [hacc']

/-- The second loop of `propagate_values` as a fold over the formulas of R,
each with the proof read for it. -/
theorem propagate_values_simp_fold (x : externals) (R : List (expr × proof))
    (Rp : List proof) (hP : ∀ i, i < R.length → Rp.getD i 0 = (R.getD i (0, 0)).2) (b0 : acc) :
    ∀ n, n ≤ R.length →
      for_range 0 (0 + n) (propagate_values_simp x (R.map Prod.fst) Rp) b0
        = (R.take (0 + n)).foldl (fun b np => propagate_values_simp x [np.1] [np.2] 0 b) b0 := by
  intro n hn
  have key := for_range_ind (fun i (b : acc) => i ≤ R.length →
      b = (R.take i).foldl (fun b np => propagate_values_simp x [np.1] [np.2] 0 b) b0) 0
    (propagate_values_simp x (R.map Prod.fst) Rp) b0 (fun _ => by simp) n
    (fun i b _ _ hq hi => by
      have hlt : i < R.length := by omega
      rw [List.take_succ, List.foldl_append, ← hq (by omega)]
      have hget : R[i]? = some (R.getD i (0, 0)) := by
        rw [List.getD_eq_getElem?_getD, List.getElem?_eq_getElem hlt]; rfl
      rw [hget]
      simp only [Option.toList_some, List.foldl_cons, List.foldl_nil]
      unfold propagate_values_simp
      have h1 : (R.map Prod.fst).getD i 0 = (R.getD i (0, 0)).1 := by
        rw [List.getD_eq_getElem?_getD, List.getD_eq_getElem?_getD, List.getElem?_map,
          List.getElem?_eq_getElem hlt]
        rfl
      rw [h1, hP i hlt]
      rfl)
  exact key (by omega)

/-- The second loop of `propagate_values`, on a consistent store and as long
as no simplification is the literal false, appends what the free function
`::push_assertion` emits for the simplifications, in order. -/
theorem propagate_values_simp_chain (x : externals) (R : List (expr × proof)) :
    ∀ b : acc, b.s.m_inconsistent = false →
      (∀ np ∈ simplified_seq x R b.s, np.1 ≠ x.mk_false) →
      ((R.foldl (fun b np => propagate_values_simp x [np.1] [np.2] 0 b) b).new_exprs
        = b.new_exprs ++ emitted x (simplified_seq x R b.s)) ∧
      (R.foldl (fun b np => propagate_values_simp x [np.1] [np.2] 0 b) b).s.m_inconsistent
        = false ∧
      (R.foldl (fun b np => propagate_values_simp x [np.1] [np.2] 0 b) b).s.m_asserted_formulas
        = b.s.m_asserted_formulas ∧
      (R.foldl (fun b np => propagate_values_simp x [np.1] [np.2] 0 b) b).s.m_asserted_qhead
        = b.s.m_asserted_qhead := by
  induction R with
  | nil =>
    intro b hinc _
    exact ⟨by simp [simplified_seq, emitted], hinc, rfl, rfl⟩
  | cons np R ih =>
    intro b hinc hno
    have hne : (run_simplifier x np.1 b.s).new_n ≠ x.mk_false :=
      hno _ (by unfold simplified_seq; exact List.mem_cons_self _ _)
    have heq0 : propagate_values_simp x [np.1] [np.2] 0 b =
        { b with
          s := (run_simplifier x np.1 b.s).s
          new_exprs := b.new_exprs ++ (x.flatten (run_simplifier x np.1 b.s).new_n
            (if np.1 = (run_simplifier x np.1 b.s).new_n then np.2
             else x.mk_modus_ponens np.2 (run_simplifier x np.1 b.s).new_pr)).map Prod.fst
          new_prs := if x.proofs_enabled then
              b.new_prs ++ (x.flatten (run_simplifier x np.1 b.s).new_n
                (if np.1 = (run_simplifier x np.1 b.s).new_n then np.2
                 else x.mk_modus_ponens np.2 (run_simplifier x np.1 b.s).new_pr)).map Prod.snd
            else b.new_prs } := by
      have hrs : (run_simplifier x np.1 b.s).s.m_inconsistent = false := hinc
      unfold propagate_values_simp
      simp only [List.getD_cons_zero]
      split
      · rename_i heq
        rw [push_assertion_of_consistent _ _ (by exact hrs)]
        dsimp only
        rw [if_neg (by rw [heq]; exact hne)]
        rw [← heq]
      · rw [push_assertion_of_consistent _ _ (by exact hrs)]
        dsimp only
        rw [if_neg hne]
    have hstep : ∃ b1 : acc, propagate_values_simp x [np.1] [np.2] 0 b = b1 ∧
        b1.s = (run_simplifier x np.1 b.s).s ∧
        b1.new_exprs = b.new_exprs ++ (x.flatten (run_simplifier x np.1 b.s).new_n
            (if np.1 = (run_simplifier x np.1 b.s).new_n then np.2
             else x.mk_modus_ponens np.2 (run_simplifier x np.1 b.s).new_pr)).map Prod.fst :=
      ⟨_, rfl, by rw [heq0], by rw [heq0]⟩
    obtain ⟨b1, e0, e1, e2⟩ := hstep
    simp only [List.foldl_cons]
    rw [e0]
    obtain ⟨h1, h2, h3, h4⟩ := ih b1 (by rw [e1]; exact hinc)
      (fun q hq => hno q (by
        unfold simplified_seq
        rw [e1] at hq
        exact List.mem_cons_of_mem _ hq))
    refine ⟨?_, h2, by rw [h3, e1]; rfl, by rw [h4, e1]; rfl⟩
    rw [h1, e2, e1]
    conv_rhs => unfold simplified_seq
    unfold emitted
    simp

theorem pv_rest_proofs (x : externals) (s : store) (hi : Nat) :
    ∀ i, i < (pv_rest x s hi).length →
      (if x.proofs_enabled then (pv_rest x s hi).map Prod.snd else []).getD i 0
        = ((pv_rest x s hi).getD i (0, 0)).2 := by
  intro i hlt
  cases hp : x.proofs_enabled
  · have h0 : ∀ np ∈ pv_rest x s hi, np.2 = 0 := by
      intro np hnp
      unfold pv_rest at hnp
      rw [List.mem_map] at hnp
      obtain ⟨j, _, rfl⟩ := hnp
      simp [hp]
    have hm : (pv_rest x s hi).getD i (0, 0) ∈ pv_rest x s hi := by
      rw [List.getD_eq_getElem?_getD, List.getElem?_eq_getElem hlt]
      exact List.getElem_mem hlt
    rw [h0 _ hm]
    simp
  · simp only [if_true]
    rw [List.getD_eq_getElem?_getD, List.getD_eq_getElem?_getD, List.getElem?_map,
      List.getElem?_eq_getElem hlt]
    rfl

/-- The vectors that `propagate_values` leaves when it accepts an equality
and, on a consistent store, no simplification is the literal false. -/
theorem propagate_values_found (x : externals) (s : store) (hf : pv_found x s = true)
    (hinc : s.m_inconsistent = false)
    (hno : ∀ np ∈ simplified_seq x (pv_rest x s s.m_asserted_formulas.length) (pv_store x s),
      np.1 ≠ x.mk_false) :
    (propagate_values x s).m_asserted_formulas =
      s.m_asserted_formulas.take s.m_asserted_qhead ++ pv_kept x s s.m_asserted_formulas.length ++
        emitted x (simplified_seq x (pv_rest x s s.m_asserted_formulas.length) (pv_store x s)) := by
  have ha := propagate_values_scan_upto x s s.m_asserted_formulas.length
  rw [Nat.zero_add] at ha
  obtain ⟨hs, h1, h2, h3, h4⟩ := ha
  have hfound : (for_range 0 s.m_asserted_formulas.length (propagate_values_scan x)
      ⟨flush_cache s, [], [], [], [], false⟩).found = true := by rw [h4]; exact hf
  unfold propagate_values
  dsimp only
  rw [if_pos hfound]
  have hlen : (for_range 0 s.m_asserted_formulas.length (propagate_values_scan x)
      ⟨flush_cache s, [], [], [], [], false⟩).new_exprs2.length
      = (pv_rest x s s.m_asserted_formulas.length).length := by rw [h2, List.length_map]
  have hfold := propagate_values_simp_fold x (pv_rest x s s.m_asserted_formulas.length)
    (if x.proofs_enabled then (pv_rest x s s.m_asserted_formulas.length).map Prod.snd else [])
    (pv_rest_proofs x s _)
    ⟨(for_range 0 s.m_asserted_formulas.length (propagate_values_scan x)
        ⟨flush_cache s, [], [], [], [], false⟩).s,
      (for_range 0 s.m_asserted_formulas.length (propagate_values_scan x)
        ⟨flush_cache s, [], [], [], [], false⟩).new_exprs1,
      (for_range 0 s.m_asserted_formulas.length (propagate_values_scan x)
        ⟨flush_cache s, [], [], [], [], false⟩).new_prs1, false, false⟩
    (pv_rest x s s.m_asserted_formulas.length).length (le_refl _)
  rw [Nat.zero_add, List.take_length] at hfold
  rw [hlen, h2, h3, hfold]
  have hst : (for_range 0 s.m_asserted_formulas.length (propagate_values_scan x)
      ⟨flush_cache s, [], [], [], [], false⟩).s = pv_store x s := hs
  rw [hst, h1]
  obtain ⟨c1, _, c3, c4⟩ := propagate_values_simp_chain x
    (pv_rest x s s.m_asserted_formulas.length)
    ⟨pv_store x s, pv_kept x s s.m_asserted_formulas.length,
      (for_range 0 s.m_asserted_formulas.length (propagate_values_scan x)
        ⟨flush_cache s, [], [], [], [], false⟩).new_prs1, false, false⟩
    (by exact hinc) hno
  have hfl : ∀ t : store, (flush_cache t).m_asserted_formulas = t.m_asserted_formulas :=
    fun _ => rfl
  rw [hfl, swap_asserted_formulas_formulas, c1, c3, c4, List.append_assoc]
  rfl

theorem invoke_table_by_name (x : externals) (p : smt_params) (fuel : Nat) :
    invoke_table x p fuel
      = pass_order.map (fun id => ⟨id, pass_cond x p id, pass_func x p fuel id⟩) := rfl

/-- A run through the lines that does not return early takes each line in turn. -/
theorem run_invokes_cons (x : externals) (c : invoke) (cs : List invoke) (s s2 : store)
    (h : run_invokes x (c :: cs) s = some (s2, false)) :
    ∃ s1, (if c.cond s = true then c.func (log_pass c.id s) else some s) = some s1 ∧
      s1.m_inconsistent = false ∧ (canceled x s1).1 = false ∧
      run_invokes x cs (canceled x s1).2 = some (s2, false) ∧
      invoked x (c :: cs) s =
        (if c.cond s = true then [c.id] else []) ++ invoked x cs (canceled x s1).2 := by
  rw [run_invokes] at h
  cases hf : (if c.cond s = true then c.func (log_pass c.id s) else some s) with
  | none => rw [hf] at h; cases h
  | some s1 =>
    rw [hf] at h
    dsimp only at h
    by_cases hinc : s1.m_inconsistent = true
    · rw [if_pos hinc] at h
      simp only [Option.some.injEq, Prod.mk.injEq] at h
      cases h.2
    · rw [if_neg hinc] at h
      by_cases hcan : (canceled x s1).1 = true
      · rw [if_pos hcan] at h
        simp only [Option.some.injEq, Prod.mk.injEq] at h
        cases h.2
      · rw [if_neg hcan] at h
        refine ⟨s1, rfl, by simpa using hinc, by simpa using hcan, h, ?_⟩
        rw [invoked, hf]
        dsimp only
        rw [if_neg hinc, if_neg hcan]

/-- A run through the lines falls into a run through the first lines and a
run through the others. -/
theorem run_invokes_append (x : externals) (cs1 cs2 : List invoke) :
    ∀ s s2 : store, run_invokes x (cs1 ++ cs2) s = some (s2, false) →
      ∃ t, run_invokes x cs1 s = some (t, false) ∧ run_invokes x cs2 t = some (s2, false) ∧
        invoked x (cs1 ++ cs2) s = invoked x cs1 s ++ invoked x cs2 t := by
  induction cs1 with
  | nil => intro s s2 h; exact ⟨s, rfl, h, rfl⟩
  | cons c cs ih =>
    intro s s2 h
    rw [List.cons_append] at h ⊢
    obtain ⟨s1, hf, hinc, hcan, hrest, hinv⟩ := run_invokes_cons x c (cs ++ cs2) s s2 h
    obtain ⟨t, h1, h2, h3⟩ := ih _ _ hrest
    have hrun : run_invokes x (c :: cs) s = some (t, false) := by
      rw [run_invokes, hf]
      dsimp only
      rw [if_neg (by simp [hinc]), if_neg (by simp [hcan])]
      exact h1
    obtain ⟨s1', hf', _, _, _, hinv'⟩ := run_invokes_cons x c cs s t hrun
    rw [hf] at hf'
    cases hf'
    refine ⟨t, hrun, h2, ?_⟩
    rw [hinv, h3, hinv', List.append_assoc]

/-- A line whose name no later line bears is among the lines called exactly
when its condition holds on the store it is reached with. -/
theorem invoked_head_iff (x : externals) (c : invoke) (cs : List invoke) (t s2 : store)
    (h : run_invokes x (c :: cs) t = some (s2, false)) (hn : c.id ∉ cs.map invoke.id) :
    c.id ∈ invoked x (c :: cs) t ↔ c.cond t = true := by
  obtain ⟨s1, _, _, _, _, hinv⟩ := run_invokes_cons x c cs t s2 h
  rw [hinv]
  constructor
  · intro hm
    rcases List.mem_append.mp hm with hm | hm
    · split at hm
      · assumption
      · cases hm
    · exact absurd ((invoked_sublist x cs _).subset hm) hn
  · intro hc
    rw [if_pos hc]
    exact List.mem_append_left _ (List.mem_singleton.mpr rfl)


/-- With `n` (a 32-bit unsigned) greater than the depth of the scope stack, the
index `depth - n` that `pop_scope(n)` computes modulo 2^32 is
`depth + 2^32 - n`, which is above the depth: `m_scopes[new_lvl]` is read
outside the scope stack, and the call has no result.  Nothing after the read
is a check: whatever record the read yields, the call sets the head and the
size of the assertion vector to the size it holds, the flag to the flag it
holds and the depth of the scope stack to the index. -/
theorem pop_scope_index_outside (x : externals) (n : Nat) (s : store)
    (hn : n < 4294967296) (hd : s.m_scopes.length < 4294967296)
    (h : s.m_scopes.length < n) :
    usub s.m_scopes.length n = s.m_scopes.length + 4294967296 - n ∧
    s.m_scopes.length < usub s.m_scopes.length n ∧
    s.m_scopes.get? (usub s.m_scopes.length n) = none ∧
    pop_scope x n s = none ∧
    ∀ sc : scope,
      (pop_scope_from x n sc s).m_asserted_qhead = sc.m_asserted_formulas_lim ∧
      (pop_scope_from x n sc s).m_asserted_formulas.length = sc.m_asserted_formulas_lim ∧
      (pop_scope_from x n sc s).m_inconsistent = sc.m_inconsistent_old ∧
      (pop_scope_from x n sc s).m_scopes.length = usub s.m_scopes.length n := by
  have hu : usub s.m_scopes.length n = s.m_scopes.length + 4294967296 - n := by
    unfold usub; omega
  have hle : s.m_scopes.length < usub s.m_scopes.length n := by rw [hu]; omega
  have hg : s.m_scopes.get? (usub s.m_scopes.length n) = none :=
    List.get?_eq_none.mpr (le_of_lt hle)
  refine ⟨hu, hle, hg, ?_, fun sc => ⟨rfl, shrink_length _ _ _, rfl, shrink_length _ _ _⟩⟩
  unfold pop_scope
  rw [hg]

/-- C5: in every state reached from the freshly constructed store by `init`,
`assert`, `reduce`, `commit()`, `push_scope`, `pop_scope(n)` and `reset`, the
proof vector is as long as the assertion vector when proofs are enabled and
empty when they are disabled, and every further call keeps it so. -/
theorem proofs_parallel (x : externals) (p : smt_params) (ops : List op) (s : store)
    (h : run x p ops store.fresh = some s) :
    (if x.proofs_enabled then s.m_asserted_formula_prs.length = s.m_asserted_formulas.length
     else s.m_asserted_formula_prs.length = 0) ∧
    ∀ o s', step x p o s = some s' →
      (if x.proofs_enabled then s'.m_asserted_formula_prs.length = s'.m_asserted_formulas.length
       else s'.m_asserted_formula_prs.length = 0) := by
  have key : ∀ t : store, Inv x t →
      (if x.proofs_enabled then t.m_asserted_formula_prs.length = t.m_asserted_formulas.length
       else t.m_asserted_formula_prs.length = 0) := by
    intro t ht
    cases hp : x.proofs_enabled
    · rw [if_neg (by simp), ht.no_proofs hp]; rfl
    · rw [if_pos rfl]; exact ht.proofs hp
  have hi := run_inv x p ops _ s (inv_fresh x) h
  exact ⟨key s hi, fun o s' h' => key s' (step_inv x p o s s' hi h')⟩

theorem proofs_parallel_witness :
    ∃ s, run externals.plain smt_params.all_on
        [op.init [(3, 103), (4, 104)], op.assert_expr 6 106, op.reduce 3, op.push_scope,
         op.assert_expr1 0, op.pop_scope 1] store.fresh = some s ∧
      s.m_asserted_formula_prs.length = s.m_asserted_formulas.length :=
  ⟨_, rfl, (proofs_parallel externals.plain smt_params.all_on
    [op.init [(3, 103), (4, 104)], op.assert_expr 6 106, op.reduce 3, op.push_scope,
     op.assert_expr1 0, op.pop_scope 1] _ rfl).1⟩

/-- C6: on a store that satisfies the invariants of the data model, `reduce`
leaves `qhead`, the scope stack and the committed prefix `A[0..qhead)` with its
proofs `P[0..qhead)` exactly as they were. -/
theorem reduce_frame (x : externals) (p : smt_params) (fuel : Nat) (s s' : store)
    (hi : Inv x s) (h : reduce x p fuel s = some s') :
    s'.m_asserted_qhead = s.m_asserted_qhead ∧
    s'.m_scopes = s.m_scopes ∧
    s'.m_asserted_formulas.take s.m_asserted_qhead
      = s.m_asserted_formulas.take s.m_asserted_qhead ∧
    s'.m_asserted_formula_prs.take s.m_asserted_qhead
      = s.m_asserted_formula_prs.take s.m_asserted_qhead :=
  (reduce_spec x p fuel s s' h hi).2.1

theorem reduce_frame_witness :
    ∃ s', Inv externals.plain store.two ∧
      reduce externals.plain smt_params.all_on 3 store.two = some s' ∧
      s'.m_asserted_qhead = 1 ∧ s'.m_asserted_formulas.take 1 = [5] :=
  ⟨_, by decide, rfl,
    (reduce_frame externals.plain smt_params.all_on 3 store.two _ (by decide) rfl).1,
    (reduce_frame externals.plain smt_params.all_on 3 store.two _ (by decide) rfl).2.2.1⟩

/-- C7: when the store is inconsistent, or the first poll of `canceled()` is
true, or `qhead = |A|`, or the parameter `preprocess` is off, `reduce` returns
a store that differs from the one it was given at most in the poll counter: the
vectors, head, flag, scope stack, `eliminate_and` flag, cache and collaborators
are unchanged and the log shows no call. -/
theorem reduce_noop (x : externals) (p : smt_params) (fuel : Nat) (s : store)
    (h : s.m_inconsistent = true ∨ x.canceled s.polls = true ∨
      s.m_asserted_qhead = s.m_asserted_formulas.length ∨ p.m_preprocess = false) :
    ∃ k, reduce x p fuel s = some { s with polls := k } := by
  unfold reduce
  by_cases h1 : s.m_inconsistent = true
  · rw [if_pos h1]; exact ⟨s.polls, rfl⟩
  · rw [if_neg h1]
    by_cases h2 : x.canceled s.polls = true
    · rw [if_pos (by exact h2)]; exact ⟨s.polls + 1, rfl⟩
    · rw [if_neg (by exact h2)]
      dsimp only
      by_cases h3 : s.m_asserted_qhead = s.m_asserted_formulas.length
      · rw [if_pos (by exact h3)]; exact ⟨s.polls + 1, rfl⟩
      · rw [if_neg (by exact h3)]
        rcases h with h | h | h | h
        · exact absurd h h1
        · exact absurd h h2
        · exact absurd h h3
        · rw [if_pos (by simp [h])]; exact ⟨s.polls + 1, rfl⟩

theorem reduce_noop_witness :
    ∃ k, reduce externals.plain smt_params.all_on 0 store.fresh
      = some { store.fresh with polls := k } :=
  reduce_noop externals.plain smt_params.all_on 0 store.fresh (Or.inr (Or.inr (Or.inl rfl)))

/-- C1, as the code has it: after `push_scope`, any scoped run of `assert`,
`reduce`, `commit()` and nested `push_scope` / `pop_scope` that closes every
scope it opens, and the matching `pop_scope(1)`, the assertion vector, proof
vector, flag and scope stack are those of the store before the `push_scope`,
and `qhead` is the size that store's assertion vector had (its own `qhead`
when it had no pending formula). -/
theorem scope_rollback (x : externals) (p : smt_params) (ops : List op) (s0 s1 : store)
    (hi : Inv x s0) (hb : depth_after 0 ops = some 0)
    (hlen : s0.m_scopes.length + ops.length + 1 < 4294967296)
    (h : run x p (op.push_scope :: ops) s0 = some s1) :
    ∃ s', pop_scope x 1 s1 = some s' ∧
      s'.m_asserted_formulas = s0.m_asserted_formulas ∧
      s'.m_asserted_formula_prs = s0.m_asserted_formula_prs ∧
      s'.m_inconsistent = s0.m_inconsistent ∧
      s'.m_scopes = s0.m_scopes ∧
      s'.m_asserted_qhead = s0.m_asserted_formulas.length ∧
      (s0.m_asserted_qhead = s0.m_asserted_formulas.length →
        s'.m_asserted_qhead = s0.m_asserted_qhead) := by
  obtain ⟨s', h1, h2, h3, h4, h5, h6⟩ := rollback x p ops s0 s1 hi hb hlen h
  exact ⟨s', h1, h2, h3, h4, h5, h6, fun hq => h6.trans hq.symm⟩

theorem scope_rollback_witness :
    ∃ s0 s1 s', run externals.plain smt_params.all_on [op.assert_expr1 5] store.fresh = some s0 ∧
      run externals.plain smt_params.all_on [op.push_scope, op.assert_expr1 6] s0 = some s1 ∧
      pop_scope externals.plain 1 s1 = some s' ∧
      get_assertions s' = [5] ∧ s'.m_asserted_qhead = 1 := by
  obtain ⟨s', h1, h2, _, _, _, h6, _⟩ := scope_rollback externals.plain smt_params.all_on
    [op.assert_expr1 6] (assert_expr1 externals.plain smt_params.all_on 5 store.fresh) _
    (by decide) rfl (by decide) rfl
  exact ⟨_, _, s', rfl, rfl, h1, h2, h6⟩

/-- C1 fails as stated: on the store reached by asserting the literal false
(inconsistent, so `push_scope` may be called with the formula still pending),
`push_scope` followed by `pop_scope(1)` returns a store whose `qhead` is 1, not
the 0 it was. -/
theorem rollback_moves_qhead :
    ∃ s s', run externals.plain smt_params.all_on [op.assert_expr1 0] store.fresh = some s ∧
      push_scope_pre false s = true ∧
      run externals.plain smt_params.all_on [op.push_scope, op.pop_scope 1] s = some s' ∧
      s.m_asserted_qhead = 0 ∧ s'.m_asserted_qhead = 1 :=
  ⟨_, _, rfl, rfl, rfl, rfl, rfl⟩

/-- C3, evaluated: on a consistent store with the pending formula 5, which the
simplifier rewrites to the literal false, a `reduce` whose final
`reduce_asserted_formulas` observes cancellation right after
`push_assertion` raised the flag returns with `inconsistent()` true and the
assertion vector still `[5]`: the literal false is nowhere in it, and
`get_inconsistency_proof` runs into `UNREACHABLE`. -/
theorem cancel_after_false :
    Inv externals.cancel_late store.one ∧ store.one.m_inconsistent = false ∧
    ∃ s', reduce externals.cancel_late smt_params.bare 0 store.one = some s' ∧
      s'.m_inconsistent = true ∧ s'.m_asserted_formulas = [5] ∧
      externals.cancel_late.mk_false ∉ s'.m_asserted_formulas ∧
      get_inconsistency_proof externals.cancel_late s' = none :=
  ⟨by decide, rfl, _, rfl, rfl, rfl, by decide, rfl⟩

/-- C9, as the code has it: on an inconsistent store `assert(e)`,
`assert(e, p)` and `reduce` return the store unchanged; `commit()` returns a
store with the assertion vector, proof vector, flag and scope stack unchanged
and with `qhead` moved to `|A|`. -/
theorem inconsistent_noop (x : externals) (p : smt_params) (fuel : Nat) (e : expr) (pr : proof)
    (s : store) (h : s.m_inconsistent = true) :
    assert_expr1 x p e s = s ∧ assert_expr x p e pr s = s ∧ reduce x p fuel s = some s ∧
    ∃ s', commit x s = s' ∧
      s'.m_asserted_formulas = s.m_asserted_formulas ∧
      s'.m_asserted_formula_prs = s.m_asserted_formula_prs ∧
      s'.m_inconsistent = s.m_inconsistent ∧
      s'.m_scopes = s.m_scopes ∧
      s'.m_asserted_qhead = s.m_asserted_formulas.length := by
  refine ⟨?_, ?_, ?_, _, rfl, commit_eq x s _ rfl⟩
  · unfold assert_expr1; rw [if_pos h]
  · unfold assert_expr; rw [if_pos h]
  · unfold reduce; rw [if_pos h]

theorem inconsistent_noop_witness :
    ∃ s, run externals.plain smt_params.all_on [op.assert_expr1 0] store.fresh = some s ∧
      s.m_inconsistent = true ∧
      assert_expr1 externals.plain smt_params.all_on 9 s = s ∧
      reduce externals.plain smt_params.all_on 3 s = some s :=
  ⟨_, rfl, rfl,
    (inconsistent_noop externals.plain smt_params.all_on 3 9 109 _ rfl).1,
    (inconsistent_noop externals.plain smt_params.all_on 3 9 109 _ rfl).2.2.1⟩

/-- C9 fails as stated: on the inconsistent store reached by asserting the
literal false, `commit()` moves `qhead` from 0 to 1. -/
theorem commit_moves_qhead_when_inconsistent :
    ∃ s s', run externals.plain smt_params.all_on [op.assert_expr1 0] store.fresh = some s ∧
      s.m_inconsistent = true ∧ commit externals.plain s = s' ∧
      s.m_asserted_qhead = 0 ∧ s'.m_asserted_qhead = 1 :=
  ⟨_, _, rfl, rfl, rfl, rfl, rfl⟩

/-- C8: on an inconsistent store, every call leaves `inconsistent()` true
except `reset` and a `pop_scope` down to a scope that recorded a consistent
store; and popping a scope that was pushed on the inconsistent store, after a
scoped run that closed every scope it opened, leaves it true. -/
theorem inconsistent_sticky (x : externals) (p : smt_params) (s : store)
    (h : s.m_inconsistent = true) :
    (∀ o s', step x p o s = some s' →
      s'.m_inconsistent = true ∨ o = op.reset ∨
      ∃ n sc, o = op.pop_scope n ∧ s.m_scopes.get? (usub s.m_scopes.length n) = some sc ∧
        sc.m_inconsistent_old = false) ∧
    (∀ ops s1, Inv x s → depth_after 0 ops = some 0 →
      s.m_scopes.length + ops.length + 1 < 4294967296 →
      run x p (op.push_scope :: ops) s = some s1 →
      ∃ s', pop_scope x 1 s1 = some s' ∧ s'.m_inconsistent = true) := by
  constructor
  · intro o s' hs'
    cases o with
    | init fs => cases hs'; left; unfold init; split <;> exact h
    | assert_expr e pr => cases hs'; left; unfold assert_expr; rw [if_pos h]; exact h
    | assert_expr1 e => cases hs'; left; unfold assert_expr1; rw [if_pos h]; exact h
    | reduce fuel =>
      left
      simp only [step] at hs'
      unfold reduce at hs'
      rw [if_pos h] at hs'
      cases hs'; exact h
    | commit => left; rw [(commit_eq x s s' (Option.some.inj hs')).2.2.1]; exact h
    | push_scope => left; rw [(push_scope_eq x s s' (Option.some.inj hs')).2.2.1]; exact h
    | pop_scope n =>
      obtain ⟨sc, g1, _, _, _, _, _, g8⟩ := pop_scope_shrink x n s s' hs'
      cases hold : sc.m_inconsistent_old
      · right; right; exact ⟨n, sc, rfl, g1, hold⟩
      · left; rw [g8]; exact hold
    | reset => right; left; rfl
  · intro ops s1 hi hb hlen hrun
    obtain ⟨s', h1, _, _, h4, _⟩ := rollback x p ops s s1 hi hb hlen hrun
    exact ⟨s', h1, h4.trans h⟩

theorem inconsistent_sticky_witness :
    ∃ s s', run externals.plain smt_params.all_on [op.assert_expr1 0] store.fresh = some s ∧
      step externals.plain smt_params.all_on (op.assert_expr1 9) s = some s' ∧
      s'.m_inconsistent = true := by
  rcases (inconsistent_sticky externals.plain smt_params.all_on
    (assert_expr1 externals.plain smt_params.all_on 0 store.fresh) rfl).1 (op.assert_expr1 9) _ rfl
    with h | h | ⟨n, sc, h, _⟩
  · exact ⟨_, _, rfl, rfl, h⟩
  · cases h
  · cases h

/-- C2: in every state reached from the empty store by `assert`, `reduce`,
`commit()`, `push_scope` and `pop_scope(n)` with `n` at most the scope depth,
when cancellation is never signalled (and the simplifier and the free
`::push_assertion` keep the literal false), an inconsistent store holds the
literal false, and `get_inconsistency_proof` does not run into `UNREACHABLE`. -/
theorem inconsistent_has_false (x : externals) (p : smt_params) (hf : HFlat x) (hs : HSimp x)
    (hc : NoCancel x) (ops : List op) (d : Nat) (s : store)
    (hd : depth_after 0 ops = some d) (hlen : ops.length < 4294967296)
    (h : run x p ops store.fresh = some s) :
    (s.m_inconsistent = true → x.mk_false ∈ s.m_asserted_formulas) ∧
    ∃ pr, get_inconsistency_proof x s = some pr := by
  obtain ⟨hi, hk⟩ := run_K x p hf hs hc ops d store.fresh s (inv_fresh x)
    (by simp [store.fresh, scopes_ok]) (by simpa [store.fresh] using hlen)
    (by simpa [store.fresh] using hd)
    (fun hinc => by simp [store.fresh] at hinc) (fun sc hsc => by simp [store.fresh] at hsc) h
  refine ⟨hk, ?_⟩
  unfold get_inconsistency_proof
  cases hinc : s.m_inconsistent
  · exact ⟨0, rfl⟩
  · cases hp : x.proofs_enabled
    · exact ⟨0, rfl⟩
    · simp only [Bool.not_true, Bool.false_eq_true, if_false]
      exact get_inconsistency_proof_loop_isSome x _ _ (hk hinc) (le_of_eq (hi.proofs hp).symm)

theorem inconsistent_has_false_witness :
    ∃ s, run externals.plain smt_params.all_on
        [op.assert_expr1 5, op.push_scope, op.assert_expr1 0, op.reduce 3, op.commit]
        store.fresh = some s ∧
      s.m_inconsistent = true ∧ externals.plain.mk_false ∈ s.m_asserted_formulas ∧
      get_inconsistency_proof externals.plain s = some 100 := by
  have h := inconsistent_has_false externals.plain smt_params.all_on
    (fun _ => by simp [externals.plain]) (fun _ _ _ => ⟨rfl, fun _ => by assumption⟩)
    (fun _ => rfl)
    [op.assert_expr1 5, op.push_scope, op.assert_expr1 0, op.reduce 3, op.commit] 1 _
    rfl (by decide) rfl
  exact ⟨_, rfl, rfl, h.1 rfl, rfl⟩

/-- C10, as the code has it: in every state reached from the fresh store by
`assert`, `reduce`, `commit()`, `push_scope` and `pop_scope(n)` with `n` at
most the scope depth (no `init`), when cancellation is never signalled and the
free `::push_assertion` stores the literal false only for the literal false,
a store that holds the literal false is inconsistent. -/
theorem false_is_flagged (x : externals) (p : smt_params) (ho : HFlatOnly x) (hc : NoCancel x)
    (ops : List op) (d : Nat) (s : store)
    (hd : depth_after 0 ops = some d) (hlen : ops.length < 4294967296)
    (h : run x p ops store.fresh = some s) :
    x.mk_false ∈ s.m_asserted_formulas → s.m_inconsistent = true :=
  run_J x p ho hc ops d store.fresh s (inv_fresh x)
    (by simp [store.fresh, scopes_ok]) (by simpa [store.fresh] using hlen)
    (by simpa [store.fresh] using hd)
    (fun hm => by simp [store.fresh] at hm) (fun sc hsc => by simp [store.fresh] at hsc) h

theorem false_is_flagged_witness :
    ∃ s, run externals.plain smt_params.all_on
        [op.assert_expr1 5, op.push_scope, op.assert_expr1 0, op.reduce 3, op.commit]
        store.fresh = some s ∧
      externals.plain.mk_false ∈ s.m_asserted_formulas ∧ s.m_inconsistent = true := by
  have h := false_is_flagged externals.plain smt_params.all_on
    (fun e pr hm => by simp [externals.plain] at hm; exact hm.symm) (fun _ => rfl)
    [op.assert_expr1 5, op.push_scope, op.assert_expr1 0, op.reduce 3, op.commit] 1 _
    rfl (by decide) rfl
  exact ⟨_, rfl, by decide, h (by decide)⟩

/-- C10 fails as stated, in three ways.  `init` with the literal false on the
fresh store gives a store that holds the literal false and is not
inconsistent.  With preprocessing off and a free `::push_assertion` that
splits conjunctions, asserting the conjunction 9 of the formula 8 and the
literal false stores both conjuncts and leaves the flag down, which is raised
for the asserted formula only.  And with `propagate_booleans` on, a `reduce`
that is cancelled after boolean propagation has written the literal false in
place, before `reduce_asserted_formulas` passes it to `push_assertion`,
returns with the literal false stored and the flag down. -/
theorem false_stored_unflagged :
    (init_pre store.fresh = true ∧
      ∃ s, run externals.plain smt_params.all_on [op.init [(0, 100)]] store.fresh = some s ∧
        externals.plain.mk_false ∈ s.m_asserted_formulas ∧ s.m_inconsistent = false) ∧
    (run externals.splitting { smt_params.bare with m_preprocess := false }
        [op.assert_expr 9 109] store.fresh).map
        (fun s => (s.m_asserted_formulas, s.m_inconsistent))
      = some ([8, externals.splitting.mk_false], false) ∧
    (run externals.cancel_mid { smt_params.bare with m_propagate_booleans := true }
        [op.assert_expr1 8, op.assert_expr1 5, op.reduce 3] store.fresh).map
        (fun s => (s.m_asserted_formulas, s.m_inconsistent))
      = some ([8, externals.cancel_mid.mk_false], false) :=
  ⟨⟨rfl, _, rfl, by decide, rfl⟩, rfl, rfl⟩

/-- C11: on a consistent store, with preprocessing on, asserting a formula
whose pre-simplified and then simplified form is the literal false raises the
flag `inconsistent`, appends the literal false to the assertion vector as its
last element, and leaves the head and the scope stack as they were.  Both
`assert_expr(e, pr)` and `assert_expr(e)` are covered; the free function
`::push_assertion` is taken to store the literal false as it is. -/
theorem assert_false_raises_flag (x : externals) (p : smt_params) (e : expr) (pr : proof)
    (s : store) (hinc : s.m_inconsistent = false) (hp : p.m_preprocess = true)
    (hr : assert_expr_r2 x p e s = x.mk_false) (hf : HFlatFalse x) :
    ∀ s', s' = assert_expr x p e pr s ∨ s' = assert_expr1 x p e s →
      s'.m_inconsistent = true ∧
      s'.m_asserted_formulas = s.m_asserted_formulas ++ [x.mk_false] ∧
      s'.m_asserted_formulas.getLast? = some x.mk_false ∧
      s'.m_asserted_qhead = s.m_asserted_qhead ∧
      s'.m_scopes = s.m_scopes := by
  have key : ∀ pr0, (assert_expr x p e pr0 s).m_inconsistent = true ∧
      (assert_expr x p e pr0 s).m_asserted_formulas = s.m_asserted_formulas ++ [x.mk_false] ∧
      (assert_expr x p e pr0 s).m_asserted_qhead = s.m_asserted_qhead ∧
      (assert_expr x p e pr0 s).m_scopes = s.m_scopes := by
    intro pr0
    obtain ⟨pr2, s2, ⟨⟨h1, _, h3, h4⟩, h5⟩, heq⟩ := assert_expr_preprocess x p e pr0 s hinc hp
    rw [heq, hr, push_assertion_store_eq x _ pr2 s2 (h5.trans hinc), hf pr2]
    exact ⟨by simp, by simp [h1], h3, h4⟩
  have fin : ∀ s' : store, (s'.m_inconsistent = true ∧
      s'.m_asserted_formulas = s.m_asserted_formulas ++ [x.mk_false] ∧
      s'.m_asserted_qhead = s.m_asserted_qhead ∧ s'.m_scopes = s.m_scopes) →
      s'.m_inconsistent = true ∧
      s'.m_asserted_formulas = s.m_asserted_formulas ++ [x.mk_false] ∧
      s'.m_asserted_formulas.getLast? = some x.mk_false ∧
      s'.m_asserted_qhead = s.m_asserted_qhead ∧ s'.m_scopes = s.m_scopes := by
    intro s' h
    obtain ⟨a, b, c, d⟩ := h
    exact ⟨a, b, by rw [b]; simp, c, d⟩
  intro s' hs
  rcases hs with hs | hs
  · rw [hs]; exact fin _ (key pr)
  · rw [hs]
    unfold assert_expr1
    rw [if_neg (by simp [hinc])]
    exact fin _ (key _)

theorem assert_false_raises_flag_witness :
    (assert_expr1 externals.cancel_late smt_params.all_on 5 store.one).m_inconsistent = true ∧
    (assert_expr1 externals.cancel_late smt_params.all_on 5 store.one).m_asserted_formulas
      = [5, 0] :=
  have h := assert_false_raises_flag externals.cancel_late smt_params.all_on 5 0 store.one
    rfl rfl rfl (fun _ => rfl) _ (Or.inr rfl)
  ⟨h.1, h.2.1⟩

/-- C12: with the parameter `preprocess` off and the store consistent,
`assert_expr(e, pr)` changes the two vectors and the flag only: the log of
collaborator calls is as before (neither simplifier ran), the `eliminate_and`
flag, the cache and the head are untouched, the old assertion vector is a
prefix of the new one, and the new vectors are those that the free function
`::push_assertion` returns for `e` and `pr` themselves. -/
theorem assert_without_preprocess (x : externals) (p : smt_params) (e : expr) (pr : proof)
    (s : store) (hinc : s.m_inconsistent = false) (hp : p.m_preprocess = false) :
    assert_expr x p e pr s =
      { s with
        m_asserted_formulas :=
          (ast_push_assertion x e pr s.m_asserted_formulas s.m_asserted_formula_prs).1
        m_asserted_formula_prs :=
          (ast_push_assertion x e pr s.m_asserted_formulas s.m_asserted_formula_prs).2
        m_inconsistent := decide (e = x.mk_false) } ∧
    (assert_expr x p e pr s).trace = s.trace ∧
    (assert_expr x p e pr s).m_eliminate_and = s.m_eliminate_and ∧
    (assert_expr x p e pr s).m_cache = s.m_cache ∧
    (assert_expr x p e pr s).m_asserted_qhead = s.m_asserted_qhead ∧
    s.m_asserted_formulas <+: (assert_expr x p e pr s).m_asserted_formulas ∧
    (assert_expr x p e pr s).m_asserted_formulas
      = s.m_asserted_formulas ++ (x.flatten e pr).map Prod.fst := by
  have h : assert_expr x p e pr s = push_assertion_store x e pr s := by
    unfold assert_expr
    rw [if_neg (by simp [hinc]), if_pos (by simp [hp])]
  rw [h, push_assertion_store_eq x e pr s hinc]
  unfold ast_push_assertion
  exact ⟨rfl, rfl, rfl, rfl, rfl, List.prefix_append _ _, rfl⟩

theorem assert_without_preprocess_witness :
    (assert_expr externals.plain { smt_params.bare with m_preprocess := false } 6 106
      store.one).m_asserted_formulas = [5, 6] ∧
    (assert_expr externals.plain { smt_params.bare with m_preprocess := false } 6 106
      store.one).trace = [] :=
  have h := assert_without_preprocess externals.plain
    { smt_params.bare with m_preprocess := false } 6 106 store.one rfl rfl
  ⟨h.2.2.2.2.2.2, h.2.1⟩

/-- C18: `setup` rewrites two parameters and no other: `ng_lift_ite` becomes
none when `lift_ite` is full or when both are conservative, `relevancy_lemma`
becomes false when `relevancy_lvl` is 0, each stays as it was otherwise, and a
second `setup` changes nothing. -/
theorem setup_couplings (p : smt_params) :
    setup p =
      { p with
        m_ng_lift_ite :=
          if p.m_lift_ite = lift_ite_kind.LI_FULL ∨
              (p.m_lift_ite = lift_ite_kind.LI_CONSERVATIVE ∧
               p.m_ng_lift_ite = lift_ite_kind.LI_CONSERVATIVE)
          then lift_ite_kind.LI_NONE else p.m_ng_lift_ite
        m_relevancy_lemma := if p.m_relevancy_lvl = 0 then false else p.m_relevancy_lemma } ∧
    (setup p).m_lift_ite = p.m_lift_ite ∧
    (setup p).m_relevancy_lvl = p.m_relevancy_lvl ∧
    setup (setup p) = setup p := by
  have h1 : ∀ q : smt_params, setup q =
      { q with
        m_ng_lift_ite :=
          if q.m_lift_ite = lift_ite_kind.LI_FULL ∨
              (q.m_lift_ite = lift_ite_kind.LI_CONSERVATIVE ∧
               q.m_ng_lift_ite = lift_ite_kind.LI_CONSERVATIVE)
          then lift_ite_kind.LI_NONE else q.m_ng_lift_ite
        m_relevancy_lemma := if q.m_relevancy_lvl = 0 then false else q.m_relevancy_lemma } := by
    intro q
    unfold setup
    cases q with
    | mk a1 a2 a3 a4 a5 a6 a7 a8 a9 a10 a11 a12 a13 a14 a15 a16 a17 a18 a19 a20 a21 a22 a23 a24 =>
      cases a12 <;> cases a11 <;> by_cases h : a22 = 0 <;> simp [h]
  refine ⟨h1 p, ?_, ?_, ?_⟩
  · rw [h1 p]
  · rw [h1 p]
  · rw [h1 (setup p), h1 p]
    cases p with
    | mk a1 a2 a3 a4 a5 a6 a7 a8 a9 a10 a11 a12 a13 a14 a15 a16 a17 a18 a19 a20 a21 a22 a23 a24 =>
      cases a12 <;> cases a11 <;> by_cases h : a22 = 0 <;> simp [h]

/-- C19: `set_eliminate_and(flag)` leaves the `eliminate_and` flag of the basic
simplifier equal to `flag`; it flushes the simplifier cache exactly when the
previous value differed from `flag`, and the store is untouched when the value
was already `flag`. -/
theorem set_eliminate_and_spec (flag : Bool) (s : store) :
    (set_eliminate_and flag s).m_eliminate_and = flag ∧
    ((set_eliminate_and flag s).trace = s.trace ++ [event.flush] ↔ s.m_eliminate_and ≠ flag) ∧
    (s.m_eliminate_and ≠ flag →
      set_eliminate_and flag s = { flush_cache s with m_eliminate_and := flag } ∧
      (set_eliminate_and flag s).m_cache = []) ∧
    (s.m_eliminate_and = flag → set_eliminate_and flag s = s) := by
  unfold set_eliminate_and
  by_cases h : s.m_eliminate_and = flag
  · rw [if_pos h]
    exact ⟨h, by simp [h], fun hn => absurd h hn, fun _ => rfl⟩
  · rw [if_neg h]
    exact ⟨rfl, by simp [h, flush_cache], fun _ => ⟨rfl, rfl⟩, fun hh => absurd hh h⟩

/-- C13: on a store whose head is within the assertion vector, `commit()`
passes exactly the pending formulas, those from the head to the end, to
`mark_forbidden` of the macro manager and then moves the head to the end; the
two vectors, the flag and the scope stack stay as they were.  A second
`commit()` right after passes no formula: the macro manager and every member
of the store are as the first call left them, and only the log of collaborator
calls records the empty call. -/
theorem commit_marks_pending (x : externals) (s : store)
    (hq : s.m_asserted_qhead ≤ s.m_asserted_formulas.length)
    (hsz : s.m_asserted_formulas.length < 4294967296) :
    ∃ s', commit x s = s' ∧
      s' = { s with
        m_macro_manager :=
          s.m_macro_manager.mark_forbidden (s.m_asserted_formulas.drop s.m_asserted_qhead)
        m_asserted_qhead := s.m_asserted_formulas.length
        trace := s.trace ++
          [event.mark_forbidden (s.m_asserted_formulas.drop s.m_asserted_qhead)] } ∧
      s'.m_asserted_formulas = s.m_asserted_formulas ∧
      s'.m_asserted_formula_prs = s.m_asserted_formula_prs ∧
      s'.m_inconsistent = s.m_inconsistent ∧
      s'.m_scopes = s.m_scopes ∧
      commit x s' = { s' with trace := s'.trace ++ [event.mark_forbidden []] } :=
  ⟨_, rfl, commit_pending x s hq hsz, rfl, rfl, rfl, rfl,
    commit_nothing x _ (commit_eq x s _ rfl).2.2.2.2⟩

theorem commit_marks_pending_witness :
    ∃ s', commit externals.plain store.two = s' ∧ s'.m_macro_manager.m_forbidden = [6] ∧
      s'.m_asserted_qhead = 2 ∧
      commit externals.plain s'
        = { s' with trace := s'.trace ++ [event.mark_forbidden []] } := by
  obtain ⟨s', h1, h2, _, _, _, _, h7⟩ :=
    commit_marks_pending externals.plain store.two (by decide) (by decide)
  exact ⟨s', h1, by rw [h2]; rfl, by rw [h2]; rfl, h7⟩

/-- C14, as the code has it: `commit(new_qhead)` compares `new_qhead` with
nothing.  For every store and every `new_qhead` it hands `mark_forbidden` the
`new_qhead - qhead` (modulo 2^32) slots of the assertion vector from the head
on, whether or not they lie within the vector, stores `new_qhead` into the
head and leaves the two vectors, the flag and the scope stack as they were; so
with `new_qhead` beyond the end it returns a store whose head is beyond the
end.  With the head at most `new_qhead` and `new_qhead` within the vector, the
slots handed over are the formulas from the head up to `new_qhead`. -/
theorem commit_to_stores_new_qhead (x : externals) (new_qhead : Nat) (s : store) :
    (commit_to x new_qhead s).m_asserted_qhead = new_qhead ∧
    (commit_to x new_qhead s).m_asserted_formulas = s.m_asserted_formulas ∧
    (commit_to x new_qhead s).m_asserted_formula_prs = s.m_asserted_formula_prs ∧
    (commit_to x new_qhead s).m_inconsistent = s.m_inconsistent ∧
    (commit_to x new_qhead s).m_scopes = s.m_scopes ∧
    (commit_to x new_qhead s).m_macro_manager = s.m_macro_manager.mark_forbidden
      (slots x.stale_expr s.m_asserted_formulas s.m_asserted_qhead
        (usub new_qhead s.m_asserted_qhead)) ∧
    (slots x.stale_expr s.m_asserted_formulas s.m_asserted_qhead
      (usub new_qhead s.m_asserted_qhead)).length = usub new_qhead s.m_asserted_qhead ∧
    (s.m_asserted_formulas.length < new_qhead →
      ¬ (commit_to x new_qhead s).m_asserted_qhead
          ≤ (commit_to x new_qhead s).m_asserted_formulas.length) ∧
    (s.m_asserted_qhead ≤ new_qhead → new_qhead ≤ s.m_asserted_formulas.length →
      new_qhead < 4294967296 →
      slots x.stale_expr s.m_asserted_formulas s.m_asserted_qhead
          (usub new_qhead s.m_asserted_qhead)
        = (s.m_asserted_formulas.drop s.m_asserted_qhead).take
            (new_qhead - s.m_asserted_qhead)) := by
  refine ⟨rfl, rfl, rfl, rfl, rfl, rfl, slots_length _ _ _ _, fun h => ?_, fun h1 h2 h3 => ?_⟩
  · show ¬ new_qhead ≤ s.m_asserted_formulas.length
    omega
  · rw [usub_eq _ _ h1 h3, slots_eq_drop_take _ _ _ _ (by omega)]

/-- C14 fails as stated: on the store `store.two`, whose assertion vector
`[5, 6]` has size 2 and whose head is 1, `commit(3)` returns a store: its head
is 3, beyond the end of the vector, and the macro manager was handed the
formula 6 and the slot past the end. -/
theorem commit_past_end_stores_qhead :
    store.two.m_asserted_formulas.length < 3 ∧
    (commit_to externals.plain 3 store.two).m_asserted_qhead = 3 ∧
    (commit_to externals.plain 3 store.two).m_asserted_formulas = [5, 6] ∧
    (commit_to externals.plain 3 store.two).m_macro_manager.m_forbidden
      = [6, externals.plain.stale_expr 2] :=
  ⟨by decide, rfl, rfl, rfl⟩

/-- C16, as the code has it: the four conditions of `init` are `SASSERT` lines,
which the release build does not execute, so `init` rejects nothing.  On every
store it appends the given formulas to the assertion vector and, when proofs
are enabled, the given proofs to the proof vector, and leaves the head, the
flag and the scope stack as they were.  On an empty, consistent, scope-free
store whose head is within the (empty) vector that makes the assertion vector
the given formulas, the proof vector the given proofs when proofs are enabled
and empty otherwise, and the head 0. -/
theorem init_appends (x : externals) (fs : List (expr × proof)) (s : store) :
    (init x fs s).m_asserted_formulas = s.m_asserted_formulas ++ fs.map Prod.fst ∧
    (init x fs s).m_asserted_formula_prs =
      (if x.proofs_enabled then s.m_asserted_formula_prs ++ fs.map Prod.snd
       else s.m_asserted_formula_prs) ∧
    (init x fs s).m_asserted_qhead = s.m_asserted_qhead ∧
    (init x fs s).m_inconsistent = s.m_inconsistent ∧
    (init x fs s).m_scopes = s.m_scopes ∧
    (init_pre s = true → s.m_asserted_qhead ≤ s.m_asserted_formulas.length →
      (init x fs s).m_asserted_formulas = fs.map Prod.fst ∧
      (init x fs s).m_asserted_formula_prs = (if x.proofs_enabled then fs.map Prod.snd else []) ∧
      (init x fs s).m_asserted_qhead = 0 ∧
      (init x fs s).m_inconsistent = false ∧
      (init x fs s).m_scopes = []) := by
  have h1 : (init x fs s).m_asserted_formulas = s.m_asserted_formulas ++ fs.map Prod.fst := by
    unfold init; dsimp only; split <;> rfl
  have h2 : (init x fs s).m_asserted_formula_prs =
      (if x.proofs_enabled then s.m_asserted_formula_prs ++ fs.map Prod.snd
       else s.m_asserted_formula_prs) := by
    unfold init; dsimp only; split <;> rfl
  have h3 : (init x fs s).m_asserted_qhead = s.m_asserted_qhead := by
    unfold init; dsimp only; split <;> rfl
  have h4 : (init x fs s).m_inconsistent = s.m_inconsistent := by
    unfold init; dsimp only; split <;> rfl
  have h5 : (init x fs s).m_scopes = s.m_scopes := by
    unfold init; dsimp only; split <;> rfl
  refine ⟨h1, h2, h3, h4, h5, fun hpre hq => ?_⟩
  unfold init_pre at hpre
  simp only [Bool.and_eq_true, List.isEmpty_iff, Bool.not_eq_true', Bool.not_eq_eq_eq_not,
    Bool.not_true] at hpre
  obtain ⟨⟨⟨hA, hP⟩, hI⟩, hS⟩ := hpre
  rw [hA] at hq
  have hq0 : s.m_asserted_qhead = 0 := by simpa using hq
  refine ⟨by rw [h1, hA]; rfl, ?_, by rw [h3, hq0], by rw [h4, hI], by rw [h5, hS]⟩
  rw [h2, hP]
  cases x.proofs_enabled <;> simp

/-- C16 fails as stated: on the store reached by asserting the formula 5, whose
assertion vector is not empty, `init` with the formula 7 and the proof 107
returns a store, and both vectors have grown: they hold the formula and the
proof after those that were there. -/
theorem init_on_nonempty_appends :
    ∃ s s', run externals.plain smt_params.bare [op.assert_expr1 5] store.fresh = some s ∧
      s.m_asserted_formulas = [5] ∧ s.m_asserted_formula_prs = [105] ∧
      step externals.plain smt_params.bare (op.init [(7, 107)]) s = some s' ∧
      s'.m_asserted_formulas = [5, 7] ∧ s'.m_asserted_formula_prs = [105, 107] :=
  ⟨_, _, rfl, rfl, rfl, rfl, rfl, rfl⟩

/-- C17, evaluated: `reset` leaves the scope stack as it is, so
`get_formulas_last_level` returns after it what it returned before. After
asserting the formula 5, pushing a scope and resetting, the two vectors are
empty, the head is 0 and the flag is down, but the scope stack still holds the
scope with limit 1, `get_formulas_last_level` returns 1, and popping that scope
returns a store whose head is 1, the size that the scope recorded before
`reset` emptied the vectors. -/
theorem reset_keeps_scopes :
    (∀ s : store, (reset s).m_scopes = s.m_scopes ∧
      get_formulas_last_level (reset s) = get_formulas_last_level s) ∧
    ∃ s, run externals.plain smt_params.bare
        [op.assert_expr1 5, op.push_scope, op.reset] store.fresh = some s ∧
      s.m_asserted_formulas = [] ∧ s.m_asserted_formula_prs = [] ∧
      s.m_asserted_qhead = 0 ∧ s.m_inconsistent = false ∧
      s.m_scopes = [⟨1, false⟩] ∧
      get_formulas_last_level s = 1 ∧
      (pop_scope externals.plain 1 s).map (fun t => (t.m_asserted_qhead, t.m_scopes))
        = some (1, []) :=
  ⟨fun _ => ⟨rfl, rfl⟩, _, rfl, rfl, rfl, rfl, rfl, rfl, rfl, rfl⟩

/-- C20: `get_inconsistency_proof` is a function of the store that returns a
proof and no store.  It returns the null proof when the store is consistent or
proofs are disabled.  When the store is inconsistent, proofs are enabled and
the proof vector is as long as the assertion vector, it returns the proof
stored at the least index whose formula is the literal false. -/
theorem inconsistency_proof_least (x : externals) (s : store) :
    (s.m_inconsistent = false ∨ x.proofs_enabled = false →
      get_inconsistency_proof x s = some 0) ∧
    (∀ i : Nat, s.m_inconsistent = true → x.proofs_enabled = true →
      s.m_asserted_formula_prs.length = s.m_asserted_formulas.length →
      s.m_asserted_formulas[i]? = some x.mk_false →
      (∀ j, j < i → s.m_asserted_formulas[j]? ≠ some x.mk_false) →
      ∃ pr, s.m_asserted_formula_prs[i]? = some pr ∧
        get_inconsistency_proof x s = some pr) := by
  constructor
  · intro h
    unfold get_inconsistency_proof
    rcases h with h | h
    · rw [if_pos (by simp [h])]
    · by_cases hi : (!s.m_inconsistent) = true
      · rw [if_pos hi]
      · rw [if_neg hi, if_pos (by simp [h])]
  · intro i hinc hpr hlen hi hmin
    have hlt : i < s.m_asserted_formula_prs.length := by
      rw [hlen]
      by_contra hge
      rw [List.getElem?_eq_none (by omega)] at hi
      cases hi
    refine ⟨s.m_asserted_formula_prs[i], List.getElem?_eq_getElem hlt, ?_⟩
    unfold get_inconsistency_proof
    rw [if_neg (by simp [hinc]), if_neg (by simp [hpr]),
      get_inconsistency_proof_loop_least x _ _ i hi hmin, List.getElem?_eq_getElem hlt]

theorem inconsistency_proof_least_witness :
    get_inconsistency_proof externals.plain store.refuted = some 7 := by
  obtain ⟨pr, h1, h2⟩ := (inconsistency_proof_least externals.plain store.refuted).2 1
    rfl rfl rfl rfl (by decide)
  have h3 : pr = 7 := by
    have : store.refuted.m_asserted_formula_prs[1]? = some 7 := rfl
    rw [this] at h1
    exact (Option.some.inj h1).symm
  rw [h2, h3]

/-- C28, as the code has it: `push_scope` records the snapshot and pushes the
scope of the macro manager first and calls `commit()` last. On a store whose
head is within the assertion vector it yields the same vectors, head, flag,
scope stack, macros and forbidden marks as `commit()` followed by `push_scope`,
but the macro manager records the marks of the pending formulas inside the new
scope, whereas `commit()` followed by `push_scope` records them below it; the
two macro managers agree exactly when no formula was pending. -/
theorem push_scope_commits_last (x : externals) (s : store)
    (hq : s.m_asserted_qhead ≤ s.m_asserted_formulas.length)
    (hsz : s.m_asserted_formulas.length < 4294967296) :
    ∃ s1 c s2, push_scope x s = s1 ∧ commit x s = c ∧ push_scope x c = s2 ∧
      s1.m_asserted_formulas = s2.m_asserted_formulas ∧
      s1.m_asserted_formula_prs = s2.m_asserted_formula_prs ∧
      s1.m_asserted_qhead = s2.m_asserted_qhead ∧
      s1.m_inconsistent = s2.m_inconsistent ∧
      s1.m_scopes = s2.m_scopes ∧
      s1.m_macro_manager.m_macros = s2.m_macro_manager.m_macros ∧
      s1.m_macro_manager.m_forbidden = s2.m_macro_manager.m_forbidden ∧
      s1.m_macro_manager.m_lims = s.m_macro_manager.m_lims ++
        [(s.m_macro_manager.m_macros.length, s.m_macro_manager.m_forbidden.length)] ∧
      s2.m_macro_manager.m_lims = s.m_macro_manager.m_lims ++
        [(s.m_macro_manager.m_macros.length,
          s.m_macro_manager.m_forbidden.length
            + (s.m_asserted_formulas.length - s.m_asserted_qhead))] ∧
      (s1.m_macro_manager = s2.m_macro_manager ↔
        s.m_asserted_qhead = s.m_asserted_formulas.length) := by
  have hc := commit_pending x s hq hsz
  have h1 : push_scope x s = { s with
        m_scopes := s.m_scopes ++ [⟨s.m_asserted_formulas.length, s.m_inconsistent⟩]
        m_macro_manager := s.m_macro_manager.push_scope.mark_forbidden
          (s.m_asserted_formulas.drop s.m_asserted_qhead)
        m_defined_names := s.m_defined_names.push
        m_bv_sharing := s.m_bv_sharing.push
        m_asserted_qhead := s.m_asserted_formulas.length
        trace := s.trace ++
          [event.mark_forbidden (s.m_asserted_formulas.drop s.m_asserted_qhead)] } := by
    unfold push_scope
    exact commit_pending x _ hq hsz
  have h2 : ∀ c : store, c.m_asserted_qhead = c.m_asserted_formulas.length →
      push_scope x c = { c with
        m_scopes := c.m_scopes ++ [⟨c.m_asserted_formulas.length, c.m_inconsistent⟩]
        m_macro_manager := c.m_macro_manager.push_scope
        m_defined_names := c.m_defined_names.push
        m_bv_sharing := c.m_bv_sharing.push
        trace := c.trace ++ [event.mark_forbidden []] } := by
    intro c hcq
    unfold push_scope
    exact commit_nothing x _ hcq
  refine ⟨_, _, _, h1, hc, h2 _ rfl, ?_⟩
  dsimp only
  refine ⟨rfl, rfl, rfl, rfl, rfl, ?_, ?_, ?_, ?_, ?_⟩
  · simp [macro_manager.push_scope, macro_manager.mark_forbidden]
  · simp [macro_manager.push_scope, macro_manager.mark_forbidden]
  · simp [macro_manager.push_scope, macro_manager.mark_forbidden]
  · simp [macro_manager.push_scope, macro_manager.mark_forbidden]
  · simp only [macro_manager.push_scope, macro_manager.mark_forbidden,
      macro_manager.mk.injEq, true_and, List.length_append,
      List.length_drop, List.append_cancel_left_eq, List.cons.injEq, Prod.mk.injEq,
      and_true]
    omega

theorem push_scope_commits_last_witness :
    ∃ s1 s2, push_scope externals.plain store.two = s1 ∧
      push_scope externals.plain (commit externals.plain store.two) = s2 ∧
      s1.m_macro_manager.m_lims = [(0, 0)] ∧ s2.m_macro_manager.m_lims = [(0, 1)] := by
  obtain ⟨s1, c, s2, h1, hc, h2, _, _, _, _, _, _, _, h10, h11, _⟩ :=
    push_scope_commits_last externals.plain store.two (by decide) (by decide)
  exact ⟨s1, s2, h1, by rw [hc]; exact h2, by rw [h10]; rfl, by rw [h11]; rfl⟩

/-- C28 fails as stated: on the inconsistent store
`store.refuted`, whose three formulas are pending (which the assertions of
`push_scope` allow on an inconsistent store), `push_scope` records the scope
of the macro manager with no forbidden mark below it and `commit()` followed
by `push_scope` with three, so a later `pop_scope(1)` forgets the marks in the
first case and keeps them in the second. -/
theorem push_scope_marks_inside_scope :
    push_scope_pre false store.refuted = true ∧
    ∃ s1 s2, push_scope externals.plain store.refuted = s1 ∧
      push_scope externals.plain (commit externals.plain store.refuted) = s2 ∧
      s1.m_macro_manager.m_lims = [(0, 0)] ∧
      s2.m_macro_manager.m_lims = [(0, 3)] ∧
      s1.m_macro_manager ≠ s2.m_macro_manager ∧
      (pop_scope externals.plain 1 s1).map (fun s => s.m_macro_manager.m_forbidden)
        = some [] ∧
      (pop_scope externals.plain 1 s2).map (fun s => s.m_macro_manager.m_forbidden)
        = some [5, 0, 0] :=
  ⟨rfl, _, _, rfl, rfl, rfl, rfl, by decide, rfl, rfl⟩

/-- C21, as the code has it: `has_bv()` reports whether the bit-vector plugin of
the simplifier has been invoked. After `assert_expr(e, pr)` or `assert_expr(e)`
it is true exactly when it was true before or the store was consistent,
preprocessing is on and the simplifier invoked the plugin on the formula; with
preprocessing off no sequence of assert calls changes it. -/
theorem has_bv_tracks_plugin (x : externals) (p : smt_params) (s : store) :
    (∀ e pr, has_bv (assert_expr x p e pr s) =
      (has_bv s || (!s.m_inconsistent && p.m_preprocess && assert_expr_bv x p e s))) ∧
    (∀ e, has_bv (assert_expr1 x p e s) =
      (has_bv s || (!s.m_inconsistent && p.m_preprocess && assert_expr_bv x p e s))) ∧
    (p.m_preprocess = false → ∀ ops : List op, (∀ o ∈ ops, o.is_assert = true) →
      ∀ s', run x p ops s = some s' → has_bv s' = has_bv s) := by
  refine ⟨fun e pr => has_bv_assert_expr x p e pr s, fun e => has_bv_assert_expr1 x p e s, ?_⟩
  intro hp ops
  induction ops generalizing s with
  | nil =>
    intro _ s' h
    cases h; rfl
  | cons o os ih =>
    intro hall s' h
    have ho := hall o (List.mem_cons_self _ _)
    have hos : ∀ o' ∈ os, o'.is_assert = true := fun o' h' => hall o' (List.mem_cons_of_mem _ h')
    unfold run at h
    cases o with
    | assert_expr e pr =>
      simp only [step] at h
      rw [ih _ hos s' h, has_bv_assert_expr, hp]
      simp
    | assert_expr1 e =>
      simp only [step] at h
      rw [ih _ hos s' h, has_bv_assert_expr1, hp]
      simp
    | init fs => cases ho
    | reduce fuel => cases ho
    | commit => cases ho
    | push_scope => cases ho
    | pop_scope n => cases ho
    | reset => cases ho

/-- C21 fails as stated: the formula 9 stands for a formula with a
bit-vector operation (the simplifier of `externals.with_bv` invokes the
bit-vector plugin on it).  Asserted on the fresh store with preprocessing on,
it makes `has_bv()` true; asserted with preprocessing off, the simplifier is
not run and `has_bv()` stays false. -/
theorem has_bv_blind_without_preprocess :
    (externals.with_bv.simplify false [] 9).bv = true ∧
    has_bv (assert_expr1 externals.with_bv smt_params.bare 9 store.fresh) = true ∧
    has_bv (assert_expr1 externals.with_bv { smt_params.bare with m_preprocess := false } 9
      store.fresh) = false ∧
    (assert_expr1 externals.with_bv { smt_params.bare with m_preprocess := false } 9
      store.fresh).m_asserted_formulas = [9] :=
  ⟨rfl, rfl, rfl, rfl⟩

theorem has_bv_tracks_plugin_witness :
    has_bv (assert_expr1 externals.with_bv smt_params.bare 9 store.fresh) = true := by
  rw [(has_bv_tracks_plugin externals.with_bv smt_params.bare store.fresh).2.1 9]
  rfl

/-- C26: when `propagate_values` returns, the simplifier cache is empty, so it
holds none of the entries that the pass injected with `cache_result`; this is
so on every store, whether or not an equality was accepted and whether or not
the pass raised the flag `inconsistent`. -/
theorem propagate_values_flushes (x : externals) (s : store) :
    (propagate_values x s).m_cache = [] := by
  unfold propagate_values
  dsimp only
  split
  · rfl
  · rename_i hf
    have hl := for_range_inv (fun a : pv_acc => a.found = false → a.s.m_cache = [])
      0 s.m_asserted_formulas.length (propagate_values_scan x)
      ⟨flush_cache s, [], [], [], [], false⟩ (fun _ => rfl)
      (fun i a _ _ h => propagate_values_scan_cache x i a h)
    exact hl (by simpa using hf)

/-- C22, evaluated: `reduce` calls `expand_macros` before
`set_eliminate_and(false)`.  With the macro finder, `nnf_cnf` and
`eliminate_and` switched on, the quantified definition 5 and the formula 8 are
asserted and reduced: the macro finder records a macro and consumes the
definition, and the pass `eliminate_and` leaves the `eliminate_and` flag up,
with the formula 8 still pending since `reduce` does not commit.  A second
`reduce` then runs the simplifier on the formula 8 inside `expand_macros`
with the flag up, before the flag is forced down and before `nnf_cnf` runs. -/
theorem expand_macros_sees_eliminate_and :
    (run externals.macros_consume smt_params.macro_nnf
      [op.assert_expr1 5, op.assert_expr1 8, op.reduce 1] store.fresh).map
      (fun s => (s.m_eliminate_and, s.m_inconsistent, s.m_asserted_formulas, s.m_asserted_qhead,
        s.m_macro_manager.m_macros, s.trace.length))
      = some (true, false, [8], 0, [42], 13) ∧
    (run externals.macros_consume smt_params.macro_nnf
      [op.assert_expr1 5, op.assert_expr1 8, op.reduce 1, op.reduce 1] store.fresh).map
      (fun s => s.trace.drop 13)
      = some
        [event.pass pass_id.expand_macros, event.flush, event.simplify true 8,
         event.flush,
         event.pass pass_id.nnf_cnf, event.simplify false 8,
         event.pass pass_id.eliminate_and, event.flush, event.simplify true 8,
         event.pass pass_id.reduce_asserted_formulas, event.simplify true 8,
         event.flush] :=
  ⟨rfl, rfl⟩

/-- C24, evaluated: `reduce` checks neither the flag nor cancellation between
`expand_macros` and the first pass. With the macro finder and
`propagate_booleans` switched on, after the definition 5 has been asserted,
reduced and committed and the formula 6 asserted, the store is consistent with 6
pending, and `expand_macros` on it ends with the store inconsistent: it expands
6 to 7, which the simplifier rewrites to the literal false. The call of `reduce`
on that store still invokes `propagate_booleans` after `expand_macros`: the log
it appends shows the simplifier run on the pending formula in both sweeps before
`reduce` returns. -/
theorem propagate_booleans_runs_when_inconsistent :
    (run externals.macros smt_params.macro_bool
      [op.assert_expr1 5, op.reduce 1, op.commit, op.assert_expr1 6] store.fresh).map
      (fun s => (s.m_inconsistent, s.m_asserted_formulas, s.m_asserted_qhead, s.trace.length,
        (expand_macros externals.macros
          (log_pass pass_id.expand_macros (canceled externals.macros s).2)).m_inconsistent))
      = some (false, [5, 6], 1, 18, true) ∧
    (run externals.macros smt_params.macro_bool
      [op.assert_expr1 5, op.reduce 1, op.commit, op.assert_expr1 6, op.reduce 1]
      store.fresh).map
      (fun s => (s.m_inconsistent, s.m_asserted_formulas, s.trace.drop 18))
      = some (true, [5, 0],
        [event.pass pass_id.expand_macros, event.flush, event.simplify false 7,
         event.pass pass_id.propagate_booleans, event.flush, event.simplify false 0,
         event.flush, event.simplify false 0, event.flush]) :=
  ⟨rfl, rfl⟩

/-- C29: in every state reached from the fresh store by calls of assert,
reduce, commit, push_scope and pop_scope that return and pop no more scopes
than are open, and for every `n` from 1 to the scope depth, `pop_scope(n)` has
a result, `n` successive calls `pop_scope(1)` have a result, and the two
results have the same assertion vector, proof vector, head, flag and scope
stack. -/
theorem pop_n_is_n_pops (x : externals) (p : smt_params) (ops : List op) (d : Nat) (s : store)
    (n : Nat) (h : run x p ops store.fresh = some s) (hd : depth_after 0 ops = some d)
    (hlen : ops.length < 4294967296) (h1 : 1 ≤ n) (hn : n ≤ s.m_scopes.length) :
    ∃ s1 s2, pop_scope x n s = some s1 ∧
      run x p (List.replicate n (op.pop_scope 1)) s = some s2 ∧
      s2.m_asserted_formulas = s1.m_asserted_formulas ∧
      s2.m_asserted_formula_prs = s1.m_asserted_formula_prs ∧
      s2.m_asserted_qhead = s1.m_asserted_qhead ∧
      s2.m_inconsistent = s1.m_inconsistent ∧
      s2.m_scopes = s1.m_scopes := by
  obtain ⟨hi, inner, c1, c2, c3, _, _⟩ := run_scoped x p [] 0 ops d store.fresh s []
    (inv_fresh x) rfl (le_refl 0) (by simpa [store.fresh] using hlen) hd h
  simp only [List.nil_append] at c1
  have hb := depth_after_bound ops 0 d hd
  have hdl : s.m_scopes.length < 4294967296 := by rw [c1, c2]; omega
  obtain ⟨k, rfl⟩ : ∃ k, n = k + 1 := ⟨n - 1, by omega⟩
  exact pop_scope_many x p k s hi (by rw [c1]; exact c3) hdl hn

theorem pop_n_is_n_pops_witness :
    run externals.plain smt_params.bare
      [op.push_scope, op.assert_expr1 5, op.push_scope, op.assert_expr1 6] store.fresh
      = some store.nested ∧
    ∃ s1 s2, pop_scope externals.plain 2 store.nested = some s1 ∧
      run externals.plain smt_params.bare [op.pop_scope 1, op.pop_scope 1] store.nested
        = some s2 ∧
      s2.m_asserted_formulas = s1.m_asserted_formulas ∧
      s2.m_asserted_formula_prs = s1.m_asserted_formula_prs ∧
      s2.m_asserted_qhead = s1.m_asserted_qhead ∧
      s2.m_inconsistent = s1.m_inconsistent ∧
      s2.m_scopes = s1.m_scopes :=
  ⟨rfl, pop_n_is_n_pops externals.plain smt_params.bare
    [op.push_scope, op.assert_expr1 5, op.push_scope, op.assert_expr1 6] 2 store.nested 2
    rfl rfl (by decide) (by decide) (by decide)⟩

/-- C30: on a consistent store, without cancellation, let `k` be the least
index of a pending formula that the simplifier, called in turn on the pending
formulas, rewrites to the literal false.  Then `reduce_asserted_formulas`
replaces the pending suffix by what the loop emitted for the pending formulas
before `k`, followed by the literal false as the last element of the assertion
vector; it raises the flag `inconsistent`; and its last call of the simplifier
is the one on formula `k`, so the pending formulas after `k` are neither
simplified nor kept.  For each index before `k` the loop appends what the free
function `::push_assertion`, taken to store the literal false as it is, emits
for the simplification of that formula. -/
theorem reduce_stops_at_first_false (x : externals) (s : store) (k : Nat)
    (hinc : s.m_inconsistent = false) (hnc : NoCancel x) (hf : HFlatFalse x)
    (hk1 : s.m_asserted_qhead ≤ k) (hk2 : k < s.m_asserted_formulas.length)
    (hleast : ∀ i, s.m_asserted_qhead ≤ i → i < k →
      (run_simplifier x (formula_at s i) (reduce_asserted_formulas_upto x s i).s).new_n
        ≠ x.mk_false)
    (hfalse : (run_simplifier x (formula_at s k) (reduce_asserted_formulas_upto x s k).s).new_n
        = x.mk_false) :
    (reduce_asserted_formulas x s).m_inconsistent = true ∧
    (reduce_asserted_formulas x s).m_asserted_formulas =
      s.m_asserted_formulas.take s.m_asserted_qhead ++
        (reduce_asserted_formulas_upto x s k).new_exprs ++ [x.mk_false] ∧
    (reduce_asserted_formulas x s).m_asserted_formulas.getLast? = some x.mk_false ∧
    (reduce_asserted_formulas x s).trace =
      (reduce_asserted_formulas_upto x s k).s.trace ++
        [event.simplify (reduce_asserted_formulas_upto x s k).s.m_eliminate_and
          (formula_at s k)] ∧
    (reduce_asserted_formulas_upto x s s.m_asserted_qhead).new_exprs = [] ∧
    (∀ i, s.m_asserted_qhead ≤ i → i < k → ∃ pr,
      (reduce_asserted_formulas_upto x s (i + 1)).new_exprs =
        (reduce_asserted_formulas_upto x s i).new_exprs ++
          (x.flatten
            (run_simplifier x (formula_at s i) (reduce_asserted_formulas_upto x s i).s).new_n
            pr).map Prod.fst) := by
  have hcons := reduce_asserted_formulas_upto_consistent x hnc s hinc k hleast
  have hret : ∀ i, (reduce_asserted_formulas_upto x s i).ret = false :=
    fun i => (reduce_asserted_formulas_upto_inv x s i).2 hnc
  have hstep : ∀ i, s.m_asserted_qhead ≤ i → reduce_asserted_formulas_upto x s (i + 1) =
      reduce_asserted_formulas_body x i (reduce_asserted_formulas_upto x s i) := by
    intro i hi
    unfold reduce_asserted_formulas_upto
    rw [for_range_succ _ _ _ _ hi]
  have hk0 : (reduce_asserted_formulas_upto x s k).s.m_inconsistent = false := by
    have := hcons (k - s.m_asserted_qhead) (by omega)
    rwa [Nat.add_sub_cancel' hk1] at this
  obtain ⟨pr, hb⟩ := reduce_asserted_formulas_body_eq x hnc k
    (reduce_asserted_formulas_upto x s k) (hret k) hk0
  rw [reduce_asserted_formulas_upto_formula, hfalse, hf pr] at hb
  have hall : for_range s.m_asserted_qhead s.m_asserted_formulas.length
      (reduce_asserted_formulas_body x) (acc.start s)
      = reduce_asserted_formulas_upto x s (k + 1) := by
    rw [for_range_split _ (k + 1) _ _ _ (by omega) (by omega)]
    apply reduce_asserted_formulas_skip
    show (reduce_asserted_formulas_upto x s (k + 1)).s.m_inconsistent = true
    rw [hstep k hk1, hb]
    simp
  have hsame := (reduce_asserted_formulas_upto_inv x s k).1.1
  have hred : reduce_asserted_formulas x s =
      swap_asserted_formulas x (reduce_asserted_formulas_upto x s (k + 1)).new_exprs
        (reduce_asserted_formulas_upto x s (k + 1)).new_prs
        (reduce_asserted_formulas_upto x s (k + 1)).s := by
    unfold reduce_asserted_formulas
    rw [if_neg (by simp [hinc])]
    dsimp only
    rw [hall, if_neg (by simp [hret])]
  have hA : (reduce_asserted_formulas x s).m_asserted_formulas =
      s.m_asserted_formulas.take s.m_asserted_qhead ++
        (reduce_asserted_formulas_upto x s k).new_exprs ++ [x.mk_false] := by
    rw [hred, swap_asserted_formulas_formulas, hstep k hk1, hb]
    dsimp only
    rw [run_simplifier]
    dsimp only
    rw [hsame.1, hsame.2.2.1]
    simp
  refine ⟨?_, hA, by rw [hA]; simp, ?_, ?_, ?_⟩
  · rw [hred, swap_asserted_formulas_inconsistent, hstep k hk1, hb]
    simp
  · rw [hred, swap_asserted_formulas_trace, hstep k hk1, hb]
    rfl
  · unfold reduce_asserted_formulas_upto
    rw [for_range_self]
    rfl
  · intro i hi1 hi2
    have hi0 : (reduce_asserted_formulas_upto x s i).s.m_inconsistent = false := by
      have := hcons (i - s.m_asserted_qhead) (by omega)
      rwa [Nat.add_sub_cancel' hi1] at this
    obtain ⟨pri, hbi⟩ := reduce_asserted_formulas_body_eq x hnc i
      (reduce_asserted_formulas_upto x s i) (hret i) hi0
    rw [reduce_asserted_formulas_upto_formula] at hbi
    exact ⟨pri, by rw [hstep i hi1, hbi]⟩

theorem reduce_stops_at_first_false_witness :
    (reduce_asserted_formulas externals.macros store.three).m_inconsistent = true ∧
    (reduce_asserted_formulas externals.macros store.three).m_asserted_formulas = [6, 0] ∧
    (reduce_asserted_formulas externals.macros store.three).trace =
      [event.simplify false 6, event.simplify false 7] := by
  have h := reduce_stops_at_first_false externals.macros store.three 1 rfl (fun _ => rfl)
    (fun _ => rfl) (by decide) (by decide)
    (fun i _ hi => by
      have h0 : i = 0 := by omega
      subst h0
      decide)
    rfl
  refine ⟨h.1, ?_, ?_⟩
  · rw [h.2.1]; rfl
  · rw [h.2.2.2.1]; rfl

/-- C23: let `reduce` be called on a consistent store with pending formulas,
with preprocessing on and no cancellation at its first poll, and let it run
through all lines `INVOKE(COND, FUNC)` without returning early.  Then it has a
result, which is `reduce_asserted_formulas` on the store that the lines left,
followed by one cache flush, the last entry of the log.  The passes it adds to
the log are, after the macro expansion that precedes the lines when macros
exist, the lines whose condition held when they were reached, in the order of
the lines, followed by `reduce_asserted_formulas`.  The lines are the names
of the specification in its fixed order, each with the condition of that name
and calling the function of that name.  `eliminate_term_ite` is among the
passes called exactly when its flag is on and `lift_ite` is not full, and
`nnf_cnf` exactly when its flag is on or `mbqi` is on and a quantifier is
pending on the store with which its line is reached, the one that the three
lines before it leave. -/
theorem reduce_pass_sequence (x : externals) (p : smt_params) (fuel : Nat) (s s2 : store)
    (hinc : s.m_inconsistent = false) (hcan : (canceled x s).1 = false)
    (hpend : s.m_asserted_qhead ≠ s.m_asserted_formulas.length)
    (hpre : p.m_preprocess = true)
    (hrun : run_invokes x (invoke_table x p fuel) (reduce_entry x s) = some (s2, false)) :
    ∃ s', reduce x p fuel s = some s' ∧
      s' = flush_cache
        (reduce_asserted_formulas x (log_pass pass_id.reduce_asserted_formulas s2)) ∧
      s'.trace.getLast? = some event.flush ∧
      passes s'.trace = passes s.trace ++
        (if (canceled x s).2.m_macro_manager.has_macros then [pass_id.expand_macros] else []) ++
        invoked x (invoke_table x p fuel) (reduce_entry x s) ++
        [pass_id.reduce_asserted_formulas] ∧
      (invoke_table x p fuel).map invoke.id = pass_order ∧
      invoke_table x p fuel
        = pass_order.map (fun id => ⟨id, pass_cond x p id, pass_func x p fuel id⟩) ∧
      (invoked x (invoke_table x p fuel) (reduce_entry x s)).Sublist pass_order ∧
      (pass_id.eliminate_term_ite ∈ invoked x (invoke_table x p fuel) (reduce_entry x s) ↔
        p.m_eliminate_term_ite = true ∧ p.m_lift_ite ≠ lift_ite_kind.LI_FULL) ∧
      (p.m_nnf_cnf = true →
        pass_id.nnf_cnf ∈ invoked x (invoke_table x p fuel) (reduce_entry x s)) ∧
      (pass_id.nnf_cnf ∈ invoked x (invoke_table x p fuel) (reduce_entry x s) →
        p.m_nnf_cnf = true ∨ p.m_mbqi = true) ∧
      ∃ t, run_invokes x ((invoke_table x p fuel).take 3) (reduce_entry x s) = some (t, false) ∧
        (pass_id.nnf_cnf ∈ invoked x (invoke_table x p fuel) (reduce_entry x s) ↔
          p.m_nnf_cnf = true ∨ (p.m_mbqi = true ∧ has_quantifiers x t = true)) := by
  have hred : reduce x p fuel s = some (flush_cache
      (reduce_asserted_formulas x (log_pass pass_id.reduce_asserted_formulas s2))) := by
    unfold reduce_entry at hrun
    unfold reduce
    rw [if_neg (by simp [hinc]), if_neg (by simp [hcan])]
    dsimp only
    rw [if_neg (by exact hpend), if_neg (by simp [hpre])]
    rw [hrun]
  have htab : (invoke_table x p fuel).map invoke.id = pass_order := rfl
  have hsplit : invoke_table x p fuel
      = (invoke_table x p fuel).take 3 ++
        (⟨pass_id.nnf_cnf, fun s => p.m_nnf_cnf || (p.m_mbqi && has_quantifiers x s),
          fun s => some (nnf_cnf x s)⟩ :: (invoke_table x p fuel).drop 4) := rfl
  have hnnf : ∃ t, run_invokes x ((invoke_table x p fuel).take 3) (reduce_entry x s)
        = some (t, false) ∧
      (pass_id.nnf_cnf ∈ invoked x (invoke_table x p fuel) (reduce_entry x s) ↔
        p.m_nnf_cnf = true ∨ (p.m_mbqi = true ∧ has_quantifiers x t = true)) := by
    have hrun' := hrun
    rw [hsplit] at hrun'
    obtain ⟨t, h1, h2, h3⟩ := run_invokes_append x _ _ _ _ hrun'
    refine ⟨t, h1, ?_⟩
    have hd4 : ((invoke_table x p fuel).drop 4).map invoke.id = pass_order.drop 4 := rfl
    have ht3 : ((invoke_table x p fuel).take 3).map invoke.id = pass_order.take 3 := rfl
    have hn4 : pass_id.nnf_cnf ∉ pass_order.drop 4 := by decide
    have hhead := invoked_head_iff x _ _ t s2 h2 (by rw [hd4]; exact hn4)
    have hpre3 : pass_id.nnf_cnf ∉ invoked x ((invoke_table x p fuel).take 3) (reduce_entry x s) :=
      fun hm => absurd ((invoked_sublist x _ _).subset hm) (by rw [ht3]; decide)
    have h3' : invoked x (invoke_table x p fuel) (reduce_entry x s)
        = invoked x ((invoke_table x p fuel).take 3) (reduce_entry x s) ++
          invoked x (⟨pass_id.nnf_cnf,
            fun s => p.m_nnf_cnf || (p.m_mbqi && has_quantifiers x s),
            fun s => some (nnf_cnf x s)⟩ :: (invoke_table x p fuel).drop 4) t := h3
    rw [h3', List.mem_append]
    constructor
    · intro hm
      rcases hm with hm | hm
      · exact absurd hm hpre3
      · have := hhead.mp hm
        simpa using this
    · intro hc
      right
      apply hhead.mpr
      simpa using hc
  obtain ⟨t, ht1, ht2⟩ := hnnf
  refine ⟨_, hred, rfl, ?_, ?_, htab, rfl, ?_, ?_, ?_, ?_, t, ht1, ht2⟩
  · unfold flush_cache
    simp
  · rw [passes_flush_cache, passes_reduce_asserted_formulas, passes_log_pass,
      run_invokes_passes _ (invoke_table_passes x p fuel) _ _ _ hrun, passes_reduce_entry]
  · rw [← htab]; exact invoked_sublist x _ _
  · constructor
    · intro hm
      obtain ⟨c, hc, hid, t, ht⟩ := invoked_cond x _ _ _ hm
      simp only [invoke_table, List.mem_cons, List.mem_singleton, List.not_mem_nil, or_false] at hc
      rcases hc with rfl | rfl | rfl | rfl | rfl | rfl | rfl | rfl | rfl | rfl | rfl | rfl | rfl
        | rfl | rfl | rfl | rfl | rfl | rfl
      all_goals first
        | (simp at hid; done)
        | (simp only [Bool.and_eq_true, bne_iff_ne, ne_eq] at ht; exact ht)
    · intro hn
      have hmem : (⟨pass_id.eliminate_term_ite,
          fun _ => p.m_eliminate_term_ite && p.m_lift_ite != lift_ite_kind.LI_FULL,
          fun s => some (eliminate_term_ite x s)⟩ : invoke) ∈ invoke_table x p fuel := by
        simp [invoke_table]
      exact invoked_of_cond x _ _ (fun t => by simp [hn.1, hn.2]) _ _ hrun hmem
  · intro hn
    exact ht2.mpr (Or.inl hn)
  · intro hm
    rcases ht2.mp hm with h | h
    · exact Or.inl h
    · exact Or.inr h.1

theorem reduce_pass_sequence_witness :
    ∃ s', reduce externals.macros_consume smt_params.macro_nnf 1
        { store.one with m_asserted_formulas := [5, 8], m_asserted_formula_prs := [105, 108] }
        = some s' ∧
      passes s'.trace =
        [pass_id.find_macros, pass_id.nnf_cnf, pass_id.eliminate_and,
         pass_id.reduce_asserted_formulas] ∧
      s'.m_asserted_formulas = [8] ∧ s'.m_macro_manager.m_macros = [42] ∧
      s'.m_eliminate_and = true := by
  obtain ⟨s', h1, h2, _, h4, _⟩ := reduce_pass_sequence externals.macros_consume
    smt_params.macro_nnf 1
    { store.one with m_asserted_formulas := [5, 8], m_asserted_formula_prs := [105, 108] }
    _ rfl rfl (by decide) rfl rfl
  subst h2
  exact ⟨_, h1, by rw [h4]; rfl, rfl, rfl, rfl⟩

/-- C25: value propagation accepts an equality between a variable and a value
when no earlier formula, committed or pending, is an equality between the
same variable and a value.  If it accepts none, the assertion vector and the
proof vector are as before.  If it accepts one, the store is consistent and
no simplification is the literal false, the new pending suffix is the
accepted pending equalities, each oriented as `x = v`, in their order,
followed by what the free function `::push_assertion` emits for the
simplifications of the other pending formulas, in their order (an equality
with a value on the left that is not accepted is simplified in its
turned-around form).  The simplifier starts on a cache that holds the rule of
every accepted equality, those of the committed prefix included, while the
suffix draws on the pending indices only. -/
theorem propagate_values_shape (x : externals) (s : store) :
    (pv_found x s = false →
      (propagate_values x s).m_asserted_formulas = s.m_asserted_formulas ∧
      (propagate_values x s).m_asserted_formula_prs = s.m_asserted_formula_prs) ∧
    (pv_found x s = true → s.m_inconsistent = false →
      (∀ np ∈ simplified_seq x (pv_rest x s s.m_asserted_formulas.length) (pv_store x s),
        np.1 ≠ x.mk_false) →
      (propagate_values x s).m_asserted_formulas =
        s.m_asserted_formulas.take s.m_asserted_qhead ++
          pv_kept x s s.m_asserted_formulas.length ++
          emitted x
            (simplified_seq x (pv_rest x s s.m_asserted_formulas.length) (pv_store x s))) ∧
    (∀ i, i < s.m_asserted_formulas.length → pv_accepted x s.m_asserted_formulas i = true →
      pv_entry x s.m_asserted_formulas s.m_asserted_formula_prs i ∈ (pv_store x s).m_cache) ∧
    (∀ e ∈ pv_kept x s s.m_asserted_formulas.length, ∃ i, s.m_asserted_qhead ≤ i ∧
      i < s.m_asserted_formulas.length ∧ pv_accepted x s.m_asserted_formulas i = true ∧
      e = (pv_orient x (formula_at s i) (proof_at s i)).1) := by
  refine ⟨?_, propagate_values_found x s, ?_, ?_⟩
  · intro hf
    have ha := propagate_values_scan_upto x s s.m_asserted_formulas.length
    rw [Nat.zero_add] at ha
    obtain ⟨hs, _, _, _, h4⟩ := ha
    have hfound : (for_range 0 s.m_asserted_formulas.length (propagate_values_scan x)
        ⟨flush_cache s, [], [], [], [], false⟩).found = false := by rw [h4]; exact hf
    unfold propagate_values
    dsimp only
    rw [if_neg (by simp [hfound]), hs]
    exact ⟨rfl, rfl⟩
  · intro i hi hacc
    unfold pv_store pv_cache
    simp only [List.mem_reverse, List.mem_map, List.mem_filter, List.mem_range]
    exact ⟨i, ⟨hi, hacc⟩, rfl⟩
  · intro e he
    unfold pv_kept at he
    simp only [List.mem_map, List.mem_filter, List.mem_range'_1] at he
    obtain ⟨i, ⟨⟨h1, h2⟩, h3⟩, rfl⟩ := he
    exact ⟨i, h1, by omega, h3, rfl⟩

theorem propagate_values_shape_witness :
    (propagate_values externals.valued store.valued).m_asserted_formulas = [10, 12] ∧
    pv_kept externals.valued store.valued 2 = [10] ∧
    (propagate_values externals.valued store.valued_committed).m_asserted_formulas = [10, 12] ∧
    pv_kept externals.valued store.valued_committed 2 = [] ∧
    (pv_store externals.valued store.valued_committed).m_cache = [⟨20, 3, 110⟩] := by
  have h1 := (propagate_values_shape externals.valued store.valued).2.1 rfl rfl (by decide)
  have h2 := (propagate_values_shape externals.valued store.valued_committed).2.1 rfl rfl
    (by decide)
  refine ⟨?_, rfl, ?_, rfl, rfl⟩
  · rw [h1]; rfl
  · rw [h2]; rfl

end AF
